import Mathlib

/-! # Qwirkle: board validity, scoring and move search

A shallow embedding of `boardstate.h`, `rack.h` and of `parseCmd`, the scoring
functions, the placing branch of `runCmd` and the search functions of
`qwirkle.cc`.

Conventions of the embedding:

* C++ `int` is modelled by `Int`; signed overflow is undefined in the source and
  lies outside the model.
* `std::deque<T>` is modelled by `List T`; `std::variant<NoTile, Tile>` by
  `Option Tile` (`none` is `NoTile`).
* A `while` loop is modelled by `whileFuel cond body fuel s`, which runs the loop
  for at most `fuel` iterations.  Every use supplies a fuel that the loop cannot
  exhaust (the walk of `bestMoveGivenPrefix`: in the four directions that its
  assertion admits); `whileFuel_exit` shows that a loop left through its
  condition, and `whileFuel_add_fuel` that more fuel then changes nothing.
* A `for (int i = lo; i < hi; i++)` loop whose body does not assign `i` is a
  traversal of `intRange lo hi`.
* Two reads of the source have no defined value.  `scoreMove` dereferences
  `begin()` of its vector, which fails on an empty vector: `scoreMoveChecked`
  keeps this failure as `none`.  `parseCmd` reads `tile_num` after an extraction
  that may leave it unwritten: the value then read is the parameter `indet` of
  `tileLoop`.
-/

namespace Qwirkle

/-! ## Generic loops -/

/-- The loop `while (cond s) s = body s`, cut off after `fuel` iterations. -/
def whileFuel {σ : Type} (cond : σ → Bool) (body : σ → σ) : Nat → σ → σ
  | 0, s => s
  | fuel + 1, s => if cond s then whileFuel cond body fuel (body s) else s

/-- The values taken by `i` in `for (int i = lo; i < hi; i++)`. -/
def intRange (lo hi : Int) : List Int :=
  (List.range (hi - lo).toNat).map (fun (k : Nat) => lo + (k : Int))

/-! ## Tiles (`boardstate.h`, class `Tile`) -/

/-- The enumeration `Tile::Color`. -/
inductive Color where
  | red | cyan | yellow | green | blue | violet
  deriving DecidableEq, Repr

/-- The enumeration `Tile::Shape`. -/
inductive Shape where
  | circle | x | diamond | square | starburst | cross
  deriving DecidableEq, Repr

/-- The integer value of a `Color` enumerator, used as a vector index. -/
def Color.toNat : Color → Nat
  | .red => 0 | .cyan => 1 | .yellow => 2 | .green => 3 | .blue => 4 | .violet => 5

/-- The integer value of a `Shape` enumerator, used as a vector index. -/
def Shape.toNat : Shape → Nat
  | .circle => 0 | .x => 1 | .diamond => 2 | .square => 3 | .starburst => 4 | .cross => 5

/-- The class `Tile`; `operator==` compares both members, which is the derived
equality. -/
structure Tile where
  color : Color
  shape : Shape
  deriving DecidableEq, Repr

/-! ## Board (`boardstate.h`, class `BoardState`) -/

/-- The class `BoardState`: the four bounds and the grid `board_`, a deque of
rows, each a deque of cells. -/
structure BoardState where
  minx_ : Int
  maxx_ : Int
  miny_ : Int
  maxy_ : Int
  board_ : List (List (Option Tile))
  deriving DecidableEq, Repr

namespace BoardState

/-- The default constructor `BoardState()`. -/
def empty : BoardState := ⟨0, 0, 0, 0, []⟩

def minX (b : BoardState) : Int := b.minx_
def maxX (b : BoardState) : Int := b.maxx_
def minY (b : BoardState) : Int := b.miny_
def maxY (b : BoardState) : Int := b.maxy_

/-- The expression `board_[y-miny_][x-minx_]`.  An index outside the grid is
undefined in the source; it reads as `NoTile` here.  Every use in the source is
guarded by a bounds check. -/
def rawCell (b : BoardState) (x y : Int) : Option Tile :=
  ((b.board_.getD (y - b.miny_).toNat []).getD (x - b.minx_).toNat none)

/-- `BoardState::isEmpty`. -/
def isEmpty (b : BoardState) (x y : Int) : Bool :=
  if x < b.minx_ ∨ x ≥ b.maxx_ ∨ y < b.miny_ ∨ y ≥ b.maxy_ then true
  else (b.rawCell x y).isNone

/-- `BoardState::isAdjacent`. -/
def isAdjacent (b : BoardState) (x y : Int) : Bool :=
  b.isEmpty x y &&
    (!b.isEmpty (x - 1) y || !b.isEmpty x (y - 1) || !b.isEmpty (x + 1) y || !b.isEmpty x (y + 1))

/-- `BoardState::getTile`; `none` is the failure of `assert(!isEmpty(x, y))`. -/
def getTile (b : BoardState) (x y : Int) : Option Tile :=
  if b.isEmpty x y then none else b.rawCell x y

/-- The call `row.resize(n, NoTile())` of `std::deque`. -/
def resizeRow (row : List (Option Tile)) (n : Nat) : List (Option Tile) :=
  row.take n ++ List.replicate (n - row.length) none

/-- The assignment `rows[i] = f(rows[i])` on a deque of rows. -/
def updateRow (rows : List (List (Option Tile))) (i : Nat)
    (f : List (Option Tile) → List (Option Tile)) : List (List (Option Tile)) :=
  rows.set i (f (rows.getD i []))

/-- The body of `while (y >= maxy_)` in `resizeBoardToInclude`. -/
def pushRowBack (b : BoardState) : BoardState :=
  let rows := b.board_ ++ [[]]
  { b with
    board_ := updateRow rows (b.maxy_ - b.miny_).toNat
      (fun r => resizeRow r (b.maxx_ - b.minx_).toNat)
    maxy_ := b.maxy_ + 1 }

/-- The body of `while (y < miny_)` in `resizeBoardToInclude`. -/
def pushRowFront (b : BoardState) : BoardState :=
  let rows := [] :: b.board_
  { b with
    board_ := updateRow rows 0 (fun r => resizeRow r (b.maxx_ - b.minx_).toNat)
    miny_ := b.miny_ - 1 }

/-- The body of `while (x >= maxx_)` in `resizeBoardToInclude`. -/
def pushColBack (b : BoardState) : BoardState :=
  { b with
    board_ := (intRange b.miny_ b.maxy_).foldl
      (fun rows iy => updateRow rows (iy - b.miny_).toNat (fun r => r ++ [none])) b.board_
    maxx_ := b.maxx_ + 1 }

/-- The body of `while (x < minx_)` in `resizeBoardToInclude`. -/
def pushColFront (b : BoardState) : BoardState :=
  { b with
    board_ := (intRange b.miny_ b.maxy_).foldl
      (fun rows iy => updateRow rows (iy - b.miny_).toNat (fun r => none :: r)) b.board_
    minx_ := b.minx_ - 1 }

/-- `BoardState::resizeBoardToInclude`. -/
def resizeBoardToInclude (b : BoardState) (x y : Int) : BoardState :=
  let b0 := if b.board_.length = 0 then { b with minx_ := x, maxx_ := x, miny_ := y, maxy_ := y }
    else b
  let b1 := whileFuel (fun s => decide (y ≥ s.maxy_)) pushRowBack (y + 1 - b0.maxy_).toNat b0
  let b2 := whileFuel (fun s => decide (y < s.miny_)) pushRowFront (b1.miny_ - y).toNat b1
  let b3 := whileFuel (fun s => decide (x ≥ s.maxx_)) pushColBack (x + 1 - b2.maxx_).toNat b2
  whileFuel (fun s => decide (x < s.minx_)) pushColFront (b3.minx_ - x).toNat b3

/-- `BoardState::insertTile`. -/
def insertTile (b : BoardState) (tile : Tile) (x y : Int) : BoardState :=
  let b' := b.resizeBoardToInclude x y
  { b' with
    board_ := updateRow b'.board_ (y - b'.miny_).toNat
      (fun r => r.set (x - b'.minx_).toNat (some tile)) }

end BoardState

/-- The first loop of `validWord`: are all tiles of one colour, all of one shape?
The state is `(const_color, const_shape, prev_tile)`. -/
def constLoop : List Tile → Bool × Bool × Tile → Bool × Bool × Tile
  | [], s => s
  | i :: rest, (const_color, const_shape, prev_tile) =>
    constLoop rest
      (const_color && decide (prev_tile.color = i.color),
       const_shape && decide (prev_tile.shape = i.shape), i)

/-- The loop over `shape_found` in `validWord`; `false` is the early `return false`. -/
def shapeLoop : List Tile → List Bool → Bool
  | [], _ => true
  | i :: rest, shape_found =>
    if shape_found.getD i.shape.toNat false then false
    else shapeLoop rest (shape_found.set i.shape.toNat true)

/-- The loop over `color_found` in `validWord`; `false` is the early `return false`. -/
def colorLoop : List Tile → List Bool → Bool
  | [], _ => true
  | i :: rest, color_found =>
    if color_found.getD i.color.toNat false then false
    else colorLoop rest (color_found.set i.color.toNat true)

/-- `BoardState::validWord`.  The source reads `*word.begin()` first, which is
undefined on an empty word; both callers test `word.size() > 0` before the call,
and the empty word is given the value `true` here. -/
def validWord : List Tile → Bool
  | [] => true
  | first :: rest =>
    let word := first :: rest
    let (const_color, const_shape, _) := constLoop word (true, true, first)
    if const_color && !shapeLoop word [false, false, false, false, false, false] then false
    else if const_shape && !colorLoop word [false, false, false, false, false, false] then false
    else const_color || const_shape

namespace BoardState

/-- One inner loop of `isValidBoard`, over the cells `coords` of one row or one
column, with the word collected so far.  `none` is the early `return false`;
otherwise the word held when the loop ends.  The branch in which `getTile` fails
stands for its failed assertion; it is never taken, because the cell has just
been tested (`getTile_isSome_of_not_isEmpty`). -/
def lineLoop (b : BoardState) : List (Int × Int) → List Tile → Option (List Tile)
  | [], word => some word
  | (x, y) :: rest, word =>
    if !b.isEmpty x y then
      match b.getTile x y with
      | some t => lineLoop b rest (word ++ [t])
      | none => none
    else if decide (word.length > 0) && !validWord word then none
    else lineLoop b rest []

/-- One iteration of an outer loop of `isValidBoard`: the inner loop followed by
the test of the last word. -/
def lineOk (b : BoardState) (coords : List (Int × Int)) : Bool :=
  match lineLoop b coords [] with
  | none => false
  | some word => !(decide (word.length > 0) && !validWord word)

/-- `BoardState::isValidBoard`. -/
def isValidBoard (b : BoardState) : Bool :=
  (intRange b.miny_ b.maxy_).all
      (fun y => lineOk b ((intRange b.minx_ b.maxx_).map (fun x => (x, y)))) &&
    (intRange b.minx_ b.maxx_).all
      (fun x => lineOk b ((intRange b.miny_ b.maxy_).map (fun y => (x, y))))

end BoardState

/-! ## Rack (`rack.h`, class `Rack`) -/

/-- The class `Rack`, reduced to its deque `tiles_`.  The bag pointer `pbag_` is
copied along unchanged and never dereferenced by the scoring and search code. -/
structure Rack where
  tiles_ : List Tile
  deriving DecidableEq, Repr

namespace Rack

/-- `Rack::getTiles`. -/
def getTiles (r : Rack) : List Tile := r.tiles_

/-- `Rack::size`. -/
def size (r : Rack) : Nat := r.tiles_.length

/-- The loop of `Rack::removeTile`: erase the first element equal to `t`. -/
def removeLoop (t : Tile) : List Tile → List Tile
  | [] => []
  | tile :: rest => if tile = t then rest else tile :: removeLoop t rest

/-- `Rack::removeTile`. -/
def removeTile (r : Rack) (t : Tile) : Rack := ⟨removeLoop t r.tiles_⟩

end Rack

/-! ## Scoring (`qwirkle.cc`) -/

/-- `scoreWord`.  The state of the counting loop is `(x, y, len)`. -/
def scoreWord (board : BoardState) (x y : Int) (horiz : Bool) : Int :=
  let start : Int × Int :=
    if horiz then
      (whileFuel (fun x => !board.isEmpty (x - 1) y) (fun x => x - 1)
        (x - board.minx_).toNat x, y)
    else
      (x, whileFuel (fun y => !board.isEmpty x (y - 1)) (fun y => y - 1)
        (y - board.miny_).toNat y)
  let final : Int × Int × Int :=
    whileFuel (fun s => !board.isEmpty s.1 s.2.1)
      (fun s => if horiz then (s.1 + 1, s.2.1, s.2.2 + 1) else (s.1, s.2.1 + 1, s.2.2 + 1))
      (if horiz then (board.maxx_ - start.1).toNat else (board.maxy_ - start.2).toNat)
      (start.1, start.2, 0)
  let len := final.2.2
  if len = 6 then 12 else len

/-- `scoreMove`.  The source reads `tile_locations.begin()` first, which is
undefined on an empty vector; the empty vector is given the score 0 here, and
`scoreMoveChecked` below keeps the failure. -/
def scoreMove (board : BoardState) (tile_locations : List (Int × Int)) (horiz : Bool) : Int :=
  match tile_locations with
  | [] => 0
  | first :: _ =>
    let score : Int := 0
    let primary_score := scoreWord board first.1 first.2 horiz
    let score := if primary_score > 1 then score + primary_score else score
    tile_locations.foldl
      (fun score i =>
        let secondary_score := scoreWord board i.1 i.2 (!horiz)
        if secondary_score > 1 then score + secondary_score else score)
      score

/-- `scoreMove` with the failure of the source made explicit: `none` on an empty
vector, where the source dereferences `tile_locations.begin()` and returns no
value, and the score on every other vector. -/
def scoreMoveChecked (board : BoardState) (tile_locations : List (Int × Int)) (horiz : Bool) :
    Option Int :=
  match tile_locations with
  | [] => none
  | _ :: _ => some (scoreMove board tile_locations horiz)

/-! ## Move search (`qwirkle.cc`) -/

/-- The struct `Move`. -/
structure Move where
  newboard : BoardState
  depleted_rack : Rack
  score : Int
  deriving DecidableEq, Repr

/-- The body of `bestMoveGivenPrefix`, with the recursion cut off at depth
`fuel`: at depth 0 the loop over the rack is not entered.  The `assert` on
`(dx, dy)` is not modelled; every caller passes a unit direction. -/
def bestMoveGivenPrefixAux : Nat → BoardState → Rack → Int → Int → List (Int × Int) →
    Int → Int → Move
  | 0, board, rack, _, _, tile_locs, dx, _ =>
    ⟨board, rack, scoreMove board tile_locs (decide (dx ≠ 0))⟩
  | fuel + 1, board, rack, x, y, tile_locs, dx, dy =>
    let horiz := decide (dx ≠ 0)
    let best_move : Move := ⟨board, rack, scoreMove board tile_locs horiz⟩
    let p : Int × Int :=
      whileFuel (fun p => !board.isEmpty p.1 p.2) (fun p => (p.1 + dx, p.2 + dy))
        ((board.maxx_ - board.minx_).toNat + (board.maxy_ - board.miny_).toNat) (x, y)
    let x := p.1
    let y := p.2
    rack.getTiles.foldl
      (fun best_move tile =>
        let new_board := board.insertTile tile x y
        let new_rack := rack.removeTile tile
        let new_tile_locs := tile_locs ++ [(x, y)]
        if new_board.isValidBoard then
          let submove := bestMoveGivenPrefixAux fuel new_board new_rack x y new_tile_locs dx dy
          if submove.score > best_move.score then submove else best_move
        else best_move)
      best_move

/-- `bestMoveGivenPrefix`.  Every recursive call receives a rack one tile
shorter, so the depth `rack.size` is never exhausted: `bestMoveGivenPrefix_eq`
shows that this function satisfies the recursive equation of the source. -/
def bestMoveGivenPrefix (board : BoardState) (rack : Rack) (x y : Int)
    (tile_locs : List (Int × Int)) (dx dy : Int) : Move :=
  bestMoveGivenPrefixAux rack.size board rack x y tile_locs dx dy

/-- `bestMove`. -/
def bestMove (board : BoardState) (rack : Rack) (x y : Int) : Move :=
  let move : Move := ⟨board, rack, 0⟩
  if board.isEmpty x y && board.isAdjacent x y then
    rack.getTiles.foldl
      (fun move tile =>
        let new_board := board.insertTile tile x y
        let new_rack := rack.removeTile tile
        if new_board.isValidBoard then
          let tile_locs : List (Int × Int) := [(x, y)]
          let right := bestMoveGivenPrefix new_board new_rack x y tile_locs 1 0
          let move := if right.score > move.score then right else move
          let left := bestMoveGivenPrefix new_board new_rack x y tile_locs (-1) 0
          let move := if left.score > move.score then left else move
          let down := bestMoveGivenPrefix new_board new_rack x y tile_locs 0 1
          let move := if down.score > move.score then down else move
          let up := bestMoveGivenPrefix new_board new_rack x y tile_locs 0 (-1)
          if up.score > move.score then up else move
        else move)
      move
  else move

/-- The search loop of `computerTurn`: the value of `best_move` when the two
nested loops over the anchors end. -/
def computerTurnSearch (board : BoardState) (rack : Rack) : Move :=
  (intRange (board.minX - 1) (board.maxX + 1)).foldl
    (fun best_move x =>
      (intRange (board.minY - 1) (board.maxY + 1)).foldl
        (fun best_move y =>
          let best_move_at_location := bestMove board rack x y
          if best_move_at_location.score > best_move.score then best_move_at_location
          else best_move)
        best_move)
    ⟨board, rack, 0⟩

/-! ## Specification-side notions -/

/-- All tiles of `w` share one colour. -/
def SameColor (w : List Tile) : Prop := ∀ a ∈ w, ∀ b ∈ w, a.color = b.color

/-- All tiles of `w` share one shape. -/
def SameShape (w : List Tile) : Prop := ∀ a ∈ w, ∀ b ∈ w, a.shape = b.shape

/-- The word-validity rule in the words of the specification. -/
def ValidWordSpec (w : List Tile) : Prop :=
  (SameColor w ∧ (w.map (·.shape)).Nodup) ∨ (SameShape w ∧ (w.map (·.color)).Nodup)

namespace BoardState

/-- The representation invariant of `BoardState`: the bounds are ordered, the
grid has `maxy_ - miny_` rows and every row has `maxx_ - minx_` cells. -/
def WF (b : BoardState) : Prop :=
  b.minx_ ≤ b.maxx_ ∧ b.miny_ ≤ b.maxy_ ∧
    b.board_.length = (b.maxy_ - b.miny_).toNat ∧
    ∀ row ∈ b.board_, row.length = (b.maxx_ - b.minx_).toNat

instance decidableWF (b : BoardState) : Decidable b.WF := by
  unfold WF; infer_instance

/-- What `resizeBoardToInclude` and its loops maintain: the representation
invariant holds and no cell of the board `b` they started from has changed. -/
def Grown (b s : BoardState) : Prop :=
  s.WF ∧ ∀ x y, s.getTile x y = b.getTile x y

end BoardState

/-! ### Lines and runs -/

/-- The emptiness of the cells of the line through `(x, y)`: of row `y` when
`horiz`, of column `x` otherwise, as a function of the coordinate along it. -/
def lineEmpty (b : BoardState) (x y : Int) (horiz : Bool) : Int → Bool :=
  fun i => if horiz then b.isEmpty i y else b.isEmpty x i

/-- The coordinate of `(x, y)` along its row when `horiz`, along its column
otherwise. -/
def linePos (x y : Int) (horiz : Bool) : Int := if horiz then x else y

/-- The cells `a, a+1, ..., c-1` of a line form a maximal contiguous run of
occupied cells: they are occupied, and the cells `a-1` and `c` are empty. -/
def IsRun (e : Int → Bool) (a c : Int) : Prop :=
  a < c ∧ (∀ i, a ≤ i → i < c → e i = false) ∧ e (a - 1) = true ∧ e c = true

/-- The tiles on the cells `a, ..., c-1` of row `y`, in grid order. -/
def BoardState.rowWord (b : BoardState) (y a c : Int) : List Tile :=
  (intRange a c).filterMap (fun i => b.getTile i y)

/-- The tiles on the cells `a, ..., c-1` of column `x`, in grid order. -/
def BoardState.colWord (b : BoardState) (x a c : Int) : List Tile :=
  (intRange a c).filterMap (fun j => b.getTile x j)

/-- The final test of one line of `isValidBoard`, applied to the outcome of the
inner loop. -/
def BoardState.lineResult : Option (List Tile) → Bool
  | none => false
  | some word => !(decide (word.length > 0) && !validWord word)

/-! ### The loop bodies of the search, named -/

/-- One iteration of the loop over the rack in `bestMove`. -/
def bestMoveStep (board : BoardState) (rack : Rack) (x y : Int) (move : Move) (tile : Tile) :
    Move :=
  let new_board := board.insertTile tile x y
  let new_rack := rack.removeTile tile
  if new_board.isValidBoard then
    let tile_locs : List (Int × Int) := [(x, y)]
    let right := bestMoveGivenPrefix new_board new_rack x y tile_locs 1 0
    let move := if right.score > move.score then right else move
    let left := bestMoveGivenPrefix new_board new_rack x y tile_locs (-1) 0
    let move := if left.score > move.score then left else move
    let down := bestMoveGivenPrefix new_board new_rack x y tile_locs 0 1
    let move := if down.score > move.score then down else move
    let up := bestMoveGivenPrefix new_board new_rack x y tile_locs 0 (-1)
    if up.score > move.score then up else move
  else move

/-- One iteration of the inner loop of `computerTurn`. -/
def anchorStep (board : BoardState) (rack : Rack) (x : Int) (best_move : Move) (y : Int) : Move :=
  let best_move_at_location := bestMove board rack x y
  if best_move_at_location.score > best_move.score then best_move_at_location else best_move

/-! ### What a move adds to the board -/

/-- The cells inside the bounds of a board. -/
def BoardState.cells (b : BoardState) : Finset (Int × Int) :=
  Finset.Ico b.minx_ b.maxx_ ×ˢ Finset.Ico b.miny_ b.maxy_

/-- The tile that `b'` holds on the cell `p` when `p` is empty in `b`, as a
multiset of at most one tile. -/
def newTileAt (b b' : BoardState) (p : Int × Int) : Multiset Tile :=
  if b.isEmpty p.1 p.2 then
    match b'.getTile p.1 p.2 with
    | some t => {t}
    | none => 0
  else 0

/-- The multiset of the tiles sitting on the cells that are occupied in `b'` but
empty in `b`. -/
def newTiles (b b' : BoardState) : Multiset Tile :=
  ∑ p ∈ b'.cells, newTileAt b b' p

/-- Every tile of `b` is on the same cell in `b'`. -/
def Keeps (b b' : BoardState) : Prop :=
  ∀ x y t, b.getTile x y = some t → b'.getTile x y = some t

/-- The relation between the arguments `(b, r)` of a search function and the
move `m` it returns: the new board is well formed, keeps the tiles of `b`, and
the tiles it adds together with the tiles left on the rack are the tiles of `r`. -/
def Extends (b : BoardState) (r : Rack) (m : Move) : Prop :=
  m.newboard.WF ∧ Keeps b m.newboard ∧
    newTiles b m.newboard + (m.depleted_rack.tiles_ : Multiset Tile) = (r.tiles_ : Multiset Tile)

/-- The four directions accepted by the assertion of `bestMoveGivenPrefix`. -/
def UnitDir (dx dy : Int) : Prop :=
  (dx = 1 ∧ dy = 0) ∨ (dx = -1 ∧ dy = 0) ∨ (dx = 0 ∧ dy = 1) ∨ (dx = 0 ∧ dy = -1)

/-! ### Boards the program can build -/

/-- A board as built by the program: the empty board followed by calls of
`insertTile`. -/
inductive Reachable : BoardState → Prop where
  | empty : Reachable BoardState.empty
  | insert (b : BoardState) (t : Tile) (x y : Int) : Reachable b → Reachable (b.insertTile t x y)

/-- Some rack tile can be inserted on some empty cell next to a tile of the
board so that the board stays valid. -/
def HasLegalSingle (board : BoardState) (rack : Rack) : Prop :=
  ∃ t ∈ rack.getTiles, ∃ x y, board.isAdjacent x y = true ∧
    (board.insertTile t x y).isValidBoard = true

/-! ### Sample positions -/

/-- The board holding only red-circle at `(0, 0)`. -/
def boardOne : BoardState := BoardState.empty.insertTile ⟨.red, .circle⟩ 0 0

/-- The rack holding only red-x. -/
def rackX : Rack := ⟨[⟨.red, .x⟩]⟩

/-- The rack holding only cyan-x. -/
def rackCyanX : Rack := ⟨[⟨.cyan, .x⟩]⟩

/-- The row of circles cyan, yellow, red, green, blue at `y = -1`, `x = -2 .. 2`,
with the crosses cyan, red, blue below its cells `x = -2, 0, 2`. -/
def boardComb : BoardState :=
  (((((((BoardState.empty.insertTile ⟨.cyan, .circle⟩ (-2) (-1)).insertTile
    ⟨.yellow, .circle⟩ (-1) (-1)).insertTile ⟨.red, .circle⟩ 0 (-1)).insertTile
    ⟨.green, .circle⟩ 1 (-1)).insertTile ⟨.blue, .circle⟩ 2 (-1)).insertTile
    ⟨.cyan, .cross⟩ (-2) 0).insertTile ⟨.red, .cross⟩ 0 0).insertTile ⟨.blue, .cross⟩ 2 0

/-- The rack red-x, red-diamond, red-square. -/
def rackRed : Rack := ⟨[⟨.red, .x⟩, ⟨.red, .diamond⟩, ⟨.red, .square⟩]⟩

/-- The full rack of six tiles: red-x, red-diamond, red-square, each twice. -/
def rackRedSix : Rack :=
  ⟨[⟨.red, .x⟩, ⟨.red, .diamond⟩, ⟨.red, .square⟩, ⟨.red, .x⟩, ⟨.red, .diamond⟩,
    ⟨.red, .square⟩]⟩

/-- The board `boardComb` after the three tiles of `rackRed` are placed on the
cells `(-1, 1)`, `(0, 1)`, `(1, 1)`. -/
def boardCombPlaced : BoardState :=
  ((boardComb.insertTile ⟨.red, .x⟩ (-1) 1).insertTile ⟨.red, .diamond⟩ 0 1).insertTile
    ⟨.red, .square⟩ 1 1

/-! ### Sequences of insertions -/

/-- The board after the insertions `l`, in order. -/
def insertAll (b : BoardState) : List (Tile × Int × Int) → BoardState
  | [] => b
  | (t, x, y) :: rest => insertAll (b.insertTile t x y) rest

/-- Each insertion of `l` is made on a cell that is empty when its turn comes. -/
def IntoEmpty (b : BoardState) : List (Tile × Int × Int) → Prop
  | [] => True
  | (t, x, y) :: rest => b.isEmpty x y = true ∧ IntoEmpty (b.insertTile t x y) rest

/-! ### Sound moves -/

/-- The list `locs` holds exactly the cells that are empty in `b0` and occupied
in `b`. -/
def Filled (b0 b : BoardState) (locs : List (Int × Int)) : Prop :=
  ∀ p : Int × Int, p ∈ locs ↔ (b0.isEmpty p.1 p.2 = true ∧ b.isEmpty p.1 p.2 = false)

/-- The positions of the list lie on the ray from `(x, y)` in the direction
`(dx, dy)`, at offsets above `lb`, in the order of increasing offset: the order
in which the walk of `bestMoveGivenPrefix` reaches them. -/
def OnRay (x y dx dy : Int) : Int → List (Int × Int) → Prop
  | _, [] => True
  | lb, p :: rest => ∃ k, lb < k ∧ p = (x + k * dx, y + k * dy) ∧ OnRay x y dx dy k rest

/-- The move `m` is sound with respect to the board `b0` the turn started from:
its board is valid, the cells filled since `b0` are the cells `cur` followed by
cells `more` met in walk order on the ray from `(x, y)`, each once, and its
score is `scoreMove` of its board at `tile_locs ++ more` along the direction of
the walk. -/
def SoundMove (b0 : BoardState) (tile_locs cur : List (Int × Int)) (x y dx dy lb : Int)
    (m : Move) : Prop :=
  m.newboard.isValidBoard = true ∧
    ∃ more, OnRay x y dx dy lb more ∧ (cur ++ more).Nodup ∧ Filled b0 m.newboard (cur ++ more) ∧
      m.score = scoreMove m.newboard (tile_locs ++ more) (decide (dx ≠ 0))

/-- The result of `bestMove` at the anchor `(x, y)` is the zero-score move on the
input, or a move that is sound for one of the four directions: it fills the
anchor and cells met in walk order from it. -/
def SoundAny (b0 : BoardState) (r0 : Rack) (x y : Int) (m : Move) : Prop :=
  m = ⟨b0, r0, 0⟩ ∨ ∃ dx dy, UnitDir dx dy ∧ SoundMove b0 [(x, y)] [(x, y)] x y dx dy 0 m

/-! ### Moves that touch the board -/

/-- Some orthogonal neighbour of the cell `p` is occupied. -/
def Touches (b : BoardState) (p : Int × Int) : Prop :=
  b.isEmpty (p.1 - 1) p.2 = false ∨ b.isEmpty p.1 (p.2 - 1) = false ∨
    b.isEmpty (p.1 + 1) p.2 = false ∨ b.isEmpty p.1 (p.2 + 1) = false

/-- All positions of `locs` lie in one maximal contiguous run of occupied cells
of one line along the orientation `horiz`. -/
def InOneRun (b : BoardState) (locs : List (Int × Int)) (horiz : Bool) : Prop :=
  ∃ x0 y0 a c, IsRun (lineEmpty b x0 y0 horiz) a c ∧
    ∀ p ∈ locs, linePos p.1 p.2 (!horiz) = linePos x0 y0 (!horiz) ∧
      a ≤ linePos p.1 p.2 horiz ∧ linePos p.1 p.2 horiz < c

/-! ### The placing branch of `runCmd` (`qwirkle.cc`) -/

/-- The variables of the loop of `runCmd` that lays the tiles down:
`newboard`, `x`, `y`, `adjacent` and `tile_locs`. -/
structure PlaceState where
  newboard : BoardState
  x : Int
  y : Int
  adjacent : Bool
  tile_locs : List (Int × Int)

/-- One iteration of the loop `for (auto tile = tiles.begin(); ...)` of `runCmd`:
skip the occupied cells, note whether the cell touches the old board, lay the
tile down. -/
def placeStep (board : BoardState) (horiz : Bool) (s : PlaceState) (tile : Tile) : PlaceState :=
  let p : Int × Int :=
    whileFuel (fun p => !s.newboard.isEmpty p.1 p.2)
      (fun p => if horiz then (p.1 + 1, p.2) else (p.1, p.2 + 1))
      ((s.newboard.maxx_ - s.newboard.minx_).toNat + (s.newboard.maxy_ - s.newboard.miny_).toNat)
      (s.x, s.y)
  let x := p.1
  let y := p.2
  let adjacent := if board.isAdjacent x y then true else s.adjacent
  ⟨s.newboard.insertTile tile x y, x, y, adjacent, s.tile_locs ++ [(x, y)]⟩

/-- What the placing branch of `runCmd` does with a move. -/
inductive PlayOutcome where
  /-- The branch that prints `INVALID MOVE`. -/
  | invalidMove
  /-- The run reaches `assert(first_move)` with `first_move` false. -/
  | assertionFails
  /-- The move is accepted: the board and the score added. -/
  | played (newboard : BoardState) (move_score : Int)
  deriving DecidableEq, Repr

/-- The branch of `runCmd` taken for the directives `h` and `v`, from the tiles
picked from the rack and the start `(x, y)` up to the score of the move.  The
updates of the rack and the bag that follow an accepted move are left out. -/
def runCmdPlay (board : BoardState) (tiles : List Tile) (x y : Int) (horiz first_move : Bool) :
    PlayOutcome :=
  let s := tiles.foldl (placeStep board horiz) ⟨board, x, y, false, []⟩
  if s.newboard.isValidBoard && (s.adjacent || first_move) then
    let move_score := scoreMove s.newboard s.tile_locs horiz
    if move_score = 0 then
      if first_move then PlayOutcome.played s.newboard 1 else PlayOutcome.assertionFails
    else PlayOutcome.played s.newboard move_score
  else PlayOutcome.invalidMove

/-- The invariant of the placing loop of `runCmd` on the line `mk`: the board is
well formed and keeps the old tiles, the cursor is on the line, the cells from
the first placed position to the cursor are occupied and hold all placed
positions, and `adjacent` is only set when a placed position touches a tile. -/
def PlaceInv (board : BoardState) (mk : Int → Int × Int) (s : PlaceState) : Prop :=
  s.newboard.WF ∧ Keeps board s.newboard ∧
    ∃ k, (s.x, s.y) = mk k ∧
      (s.tile_locs = [] ∨
        ∃ lo, lo ≤ k ∧ (∀ i, lo ≤ i → i ≤ k → s.newboard.isEmpty (mk i).1 (mk i).2 = false) ∧
          ∀ q ∈ s.tile_locs, ∃ j, q = mk j ∧ lo ≤ j ∧ j ≤ k) ∧
      (s.adjacent = true → ∃ q ∈ s.tile_locs, Touches s.newboard q)

/-! ### Command parsing: `parseCmd` (`qwirkle.cc`) -/

/-- The call `std::find_if(cmd.begin() + first, cmd.begin() + last, pred)`, on
iterators given as offsets from `cmd.begin()`: the offset of the first character
in `[first, last)` that satisfies `pred`, or `last`. -/
def findIf (pred : Char → Bool) (cmd : List Char) (first last : Nat) : Nat :=
  first + ((cmd.take last).drop first).findIdx pred

/-- The string `std::string(cmd.begin() + first, cmd.begin() + last)`. -/
def substring (cmd : List Char) (first last : Nat) : List Char :=
  (cmd.take last).drop first

/-- The value returned by `parseCmd` together with its output parameters; `none`
is an output parameter that was not written. -/
structure ParseResult where
  ok : Bool
  direction_or_return : Option Char
  x : Option Int
  y : Option Int
  tile_nums : List Int
  deriving DecidableEq, Repr

/-- The loop `while (tile_string != cmd.end())` of `parseCmd`, cut off after
`fuel` iterations; the result is the value returned and `tile_nums`.  Every
iteration moves `tile_string` forward, so `cmd.size() + 1` iterations are never
exhausted (`tileLoop_fuel`).  The parameter `extract` is the extraction
`std::stringstream(s) >> tile_num` of the standard library: the value it writes
to `tile_num`, or `none` when it leaves `tile_num` unwritten.  The variable
`tile_num` is declared without an initial value; `indet` is the value it holds
when it is read unwritten, for the iteration that starts at each offset.  Such a
read is undefined in C++, and the model allows for every value. -/
def tileLoop (extract : List Char → Option Int) (indet : Nat → Int) (cmd : List Char)
    (rack_size : Int) : Nat → Nat → List Int → Bool × List Int
  | 0, _, tile_nums => (true, tile_nums)
  | fuel + 1, tile_string, tile_nums =>
    if tile_string ≠ cmd.length then
      let tile_string := tile_string + 1
      let tile_comma := findIf (fun c => c == ',') cmd tile_string cmd.length
      let tile_num := (extract (substring cmd tile_string tile_comma)).getD (indet tile_string)
      if tile_num ≥ rack_size then (false, tile_nums)
      else tileLoop extract indet cmd rack_size fuel tile_comma (tile_nums ++ [tile_num])
    else (true, tile_nums)

/-- `parseCmd`, called as in `runCmd` with an empty vector `tile_nums`.  The
outputs `x` and `y` are what the two extractions write, `none` when an
extraction leaves its variable unwritten. -/
def parseCmd (extract : List Char → Option Int) (indet : Nat → Int) (cmd : List Char)
    (rack_size : Int) : ParseResult :=
  if cmd.length = 0 then ⟨false, none, none, none, []⟩
  else
    let c0 := cmd.headD ' '
    if c0 ≠ 'h' ∧ c0 ≠ 'v' ∧ c0 ≠ 'r' then ⟨false, none, none, none, []⟩
    else
      let direction_or_return := c0
      if direction_or_return = 'h' ∨ direction_or_return = 'v' then
        let semicolon := findIf (fun c => c == ';') cmd 0 cmd.length
        if semicolon = cmd.length then ⟨false, some direction_or_return, none, none, []⟩
        else
          let first_comma := findIf (fun c => c == ',') cmd 0 semicolon
          if first_comma = semicolon then ⟨false, some direction_or_return, none, none, []⟩
          else
            let x := extract (substring cmd 1 first_comma)
            let y := extract (substring cmd (first_comma + 1) semicolon)
            let r := tileLoop extract indet cmd rack_size (cmd.length + 1) semicolon []
            ⟨r.1, some direction_or_return, x, y, r.2⟩
      else
        let r := tileLoop extract indet cmd rack_size (cmd.length + 1) 0 []
        ⟨r.1, some direction_or_return, none, none, r.2⟩

/-- The decimal digits at the head of `s`, read into the accumulator. -/
def digitsValue : List Char → Nat → Nat
  | [], acc => acc
  | c :: rest, acc =>
    if c.isDigit then digitsValue rest (acc * 10 + (c.toNat - 48)) else acc

/-- Does `s` start with a decimal digit? -/
def startsWithDigit : List Char → Bool
  | [] => false
  | c :: _ => c.isDigit

/-- The white space that a stream extraction skips: space, horizontal tab, line
feed, vertical tab, form feed and carriage return. -/
def isSpace (c : Char) : Bool :=
  c == ' ' || c == '\t' || c == '\n' || c == Char.ofNat 11 || c == Char.ofNat 12 || c == '\r'

/-- The value stored for a number read from the stream: the number itself, or the
nearest bound of a 32-bit `int` when it lies beyond the range. -/
def clampInt (v : Int) : Int :=
  if v > 2147483647 then 2147483647 else if v < -2147483648 then -2147483648 else v

/-- The extraction `std::stringstream(s) >> n` of the C++ standard library for a
32-bit `int n`, which is not part of the repository.  Leading white space is
skipped; when the string ends there, the extraction fails and leaves `n`
unwritten (`none`).  Otherwise an optional sign and the decimal digits after it
are read: when no digit is found the extraction fails and stores 0, and a value
beyond the range of `int` is stored as the nearest bound. -/
def decimalExtract (s : List Char) : Option Int :=
  match s.dropWhile isSpace with
  | [] => none
  | '-' :: rest =>
    some (if startsWithDigit rest then clampInt (-(digitsValue rest 0 : Int)) else 0)
  | '+' :: rest => some (if startsWithDigit rest then clampInt (digitsValue rest 0 : Int) else 0)
  | rest => some (if startsWithDigit rest then clampInt (digitsValue rest 0 : Int) else 0)

/-! ### More sample positions -/

/-- The board holding red-circle at `(0, 0)` and red-x at `(1, 0)`. -/
def boardTwo : BoardState :=
  (BoardState.empty.insertTile ⟨.red, .circle⟩ 0 0).insertTile ⟨.red, .x⟩ 1 0

/-- The board holding red-circle at `(0, 0)` and cyan-x at `(0, 1)`. -/
def boardMixed : BoardState := boardOne.insertTile ⟨.cyan, .x⟩ 0 1

/-! ### Index ranges and counted recursion depth -/

/-- The index computation `board_[y-miny_][x-minx_]` is within range: the row
index is one of the rows of the grid and the column index one of the cells of
that row. -/
def BoardState.IndexInRange (b : BoardState) (x y : Int) : Prop :=
  0 ≤ y - b.miny_ ∧ (y - b.miny_).toNat < b.board_.length ∧
    0 ≤ x - b.minx_ ∧ (x - b.minx_).toNat < (b.board_.getD (y - b.miny_).toNat []).length

/-- `bestMoveGivenPrefix` with the depth of the recursion counted and the failure
of `scoreMove` kept: `none` when more than `depth` nested activations would be
needed, or when `scoreMove` is called on an empty vector; otherwise the move that
the source function returns. -/
def bestMoveGivenPrefixDepth : Nat → BoardState → Rack → Int → Int → List (Int × Int) →
    Int → Int → Option Move
  | 0, _, _, _, _, _, _, _ => none
  | depth + 1, board, rack, x, y, tile_locs, dx, dy =>
    let horiz := decide (dx ≠ 0)
    match scoreMoveChecked board tile_locs horiz with
    | none => none
    | some score =>
      let best_move : Move := ⟨board, rack, score⟩
      let p : Int × Int :=
        whileFuel (fun p => !board.isEmpty p.1 p.2) (fun p => (p.1 + dx, p.2 + dy))
          ((board.maxx_ - board.minx_).toNat + (board.maxy_ - board.miny_).toNat) (x, y)
      let x := p.1
      let y := p.2
      rack.getTiles.foldl
        (fun best_move tile =>
          match best_move with
          | none => none
          | some best_move =>
            let new_board := board.insertTile tile x y
            let new_rack := rack.removeTile tile
            let new_tile_locs := tile_locs ++ [(x, y)]
            if new_board.isValidBoard then
              match bestMoveGivenPrefixDepth depth new_board new_rack x y new_tile_locs dx dy with
              | none => none
              | some submove =>
                some (if submove.score > best_move.score then submove else best_move)
            else some best_move)
        (some best_move)

/-! # Theorems -/

/-! ## Generic loops -/

theorem whileFuel_invariant {σ : Type} (cond : σ → Bool) (body : σ → σ) (P : σ → Prop)
    (hstep : ∀ s, P s → cond s = true → P (body s)) :
    ∀ (fuel : Nat) (s : σ), P s → P (whileFuel cond body fuel s) := by
  intro fuel
  induction fuel with
  | zero => intro s hs; exact hs
  | succ n ih =>
    intro s hs
    simp only [whileFuel]
    split
    · next hc => exact ih _ (hstep s hs hc)
    · exact hs

theorem whileFuel_exit {σ : Type} (cond : σ → Bool) (body : σ → σ) (P : σ → Prop)
    (μ : σ → Nat) (hstep : ∀ s, P s → cond s = true → P (body s))
    (hdec : ∀ s, P s → cond s = true → μ (body s) < μ s) :
    ∀ (fuel : Nat) (s : σ), P s → μ s ≤ fuel → cond (whileFuel cond body fuel s) = false := by
  intro fuel
  induction fuel with
  | zero =>
    intro s hs hμ
    simp only [whileFuel]
    by_contra hc
    have := hdec s hs (by simpa using hc)
    omega
  | succ n ih =>
    intro s hs hμ
    simp only [whileFuel]
    split
    · next hc =>
      have := hdec s hs hc
      exact ih _ (hstep s hs hc) (by omega)
    · next hc => simpa using hc

theorem whileFuel_of_false {σ : Type} (cond : σ → Bool) (body : σ → σ) (fuel : Nat) (s : σ)
    (h : cond s = false) : whileFuel cond body fuel s = s := by
  cases fuel <;> simp [whileFuel, h]

theorem whileFuel_of_true {σ : Type} (cond : σ → Bool) (body : σ → σ) (fuel : Nat) (s : σ)
    (h : cond s = true) : whileFuel cond body (fuel + 1) s = whileFuel cond body fuel (body s) := by
  simp [whileFuel, h]

/-- Once the loop has left through its condition, more fuel changes nothing. -/
theorem whileFuel_add_fuel {σ : Type} (cond : σ → Bool) (body : σ → σ) (extra : Nat) :
    ∀ (fuel : Nat) (s : σ), cond (whileFuel cond body fuel s) = false →
      whileFuel cond body (fuel + extra) s = whileFuel cond body fuel s := by
  intro fuel
  induction fuel with
  | zero =>
    intro s h
    simp only [whileFuel] at h
    rw [Nat.zero_add, whileFuel_of_false cond body extra s h]
    rfl
  | succ n ih =>
    intro s h
    rw [Nat.add_right_comm]
    by_cases hc : cond s = true
    · rw [whileFuel_of_true cond body _ s hc, whileFuel_of_true cond body _ s hc]
      rw [whileFuel_of_true cond body _ s hc] at h
      exact ih _ h
    · have hc' : cond s = false := by simpa using hc
      rw [whileFuel_of_false cond body _ s hc', whileFuel_of_false cond body _ s hc']

theorem mem_intRange {lo hi i : Int} : i ∈ intRange lo hi ↔ lo ≤ i ∧ i < hi := by
  simp only [intRange, List.mem_map, List.mem_range]
  constructor
  · rintro ⟨k, hk, rfl⟩; omega
  · rintro ⟨h1, h2⟩; exact ⟨(i - lo).toNat, by omega, by omega⟩

/-! ## Word validity -/

theorem shape_toNat_lt (s : Shape) : s.toNat < 6 := by cases s <;> decide

theorem color_toNat_lt (c : Color) : c.toNat < 6 := by cases c <;> decide

theorem shape_toNat_inj {s t : Shape} (h : s.toNat = t.toNat) : s = t := by
  cases s <;> cases t <;> first | rfl | (exact absurd h (by decide))

theorem color_toNat_inj {s t : Color} (h : s.toNat = t.toNat) : s = t := by
  cases s <;> cases t <;> first | rfl | (exact absurd h (by decide))

theorem constLoop_color (w : List Tile) (cc cs : Bool) (p : Tile) :
    (constLoop w (cc, cs, p)).1 = true ↔ cc = true ∧ ∀ t ∈ w, t.color = p.color := by
  induction w generalizing cc cs p with
  | nil => simp [constLoop]
  | cons i rest ih =>
    simp only [constLoop, ih, Bool.and_eq_true, decide_eq_true_eq, List.mem_cons, forall_eq_or_imp]
    constructor
    · rintro ⟨⟨h1, h2⟩, h3⟩
      exact ⟨h1, h2.symm, fun t ht => (h3 t ht).trans h2.symm⟩
    · rintro ⟨h1, h2, h3⟩
      exact ⟨⟨h1, h2.symm⟩, fun t ht => (h3 t ht).trans h2.symm⟩

theorem constLoop_shape (w : List Tile) (cc cs : Bool) (p : Tile) :
    (constLoop w (cc, cs, p)).2.1 = true ↔ cs = true ∧ ∀ t ∈ w, t.shape = p.shape := by
  induction w generalizing cc cs p with
  | nil => simp [constLoop]
  | cons i rest ih =>
    simp only [constLoop, ih, Bool.and_eq_true, decide_eq_true_eq, List.mem_cons, forall_eq_or_imp]
    constructor
    · rintro ⟨⟨h1, h2⟩, h3⟩
      exact ⟨h1, h2.symm, fun t ht => (h3 t ht).trans h2.symm⟩
    · rintro ⟨h1, h2, h3⟩
      exact ⟨⟨h1, h2.symm⟩, fun t ht => (h3 t ht).trans h2.symm⟩

theorem getD_set_bool (l : List Bool) (i j : Nat) (hi : i < l.length) :
    (l.set i true).getD j false = (decide (i = j) || l.getD j false) := by
  simp only [List.getD_eq_getElem?_getD, List.getElem?_set]
  by_cases h : i = j
  · subst h; simp [hi]
  · simp [h]

theorem shapeLoop_iff (w : List Tile) (found : List Bool) (hlen : found.length = 6) :
    shapeLoop w found = true ↔
      (w.map (·.shape)).Nodup ∧ ∀ t ∈ w, found.getD t.shape.toNat false = false := by
  induction w generalizing found with
  | nil => simp [shapeLoop]
  | cons i rest ih =>
    simp only [shapeLoop, List.map_cons, List.nodup_cons, List.mem_cons, forall_eq_or_imp]
    by_cases hf : found.getD i.shape.toNat false = true
    · rw [if_pos hf]
      simp only [Bool.false_eq_true, false_iff]
      rintro ⟨_, h, _⟩
      rw [hf] at h; exact absurd h (by decide)
    · have hf' : found.getD i.shape.toNat false = false := by simpa using hf
      have hi : i.shape.toNat < found.length := by rw [hlen]; exact shape_toNat_lt _
      simp only [hf', Bool.false_eq_true, if_false, true_and]
      rw [ih _ (by simp [hlen])]
      have key : ∀ t : Tile, (found.set i.shape.toNat true).getD t.shape.toNat false = false ↔
          (i.shape ≠ t.shape ∧ found.getD t.shape.toNat false = false) := by
        intro t
        rw [getD_set_bool _ _ _ hi]
        simp only [Bool.or_eq_false_iff, decide_eq_false_iff_not]
        constructor
        · rintro ⟨h1, h2⟩; exact ⟨fun h => h1 (by rw [h]), h2⟩
        · rintro ⟨h1, h2⟩; exact ⟨fun h => h1 (shape_toNat_inj h), h2⟩
      simp only [key, List.mem_map, not_exists, not_and]
      constructor
      · rintro ⟨h1, h2⟩
        exact ⟨⟨fun t ht heq => (h2 t ht).1 heq.symm, h1⟩, fun t ht => (h2 t ht).2⟩
      · rintro ⟨⟨h1, h2⟩, h3⟩
        exact ⟨h2, fun t ht => ⟨fun heq => h1 t ht heq.symm, h3 t ht⟩⟩

theorem colorLoop_iff (w : List Tile) (found : List Bool) (hlen : found.length = 6) :
    colorLoop w found = true ↔
      (w.map (·.color)).Nodup ∧ ∀ t ∈ w, found.getD t.color.toNat false = false := by
  induction w generalizing found with
  | nil => simp [colorLoop]
  | cons i rest ih =>
    simp only [colorLoop, List.map_cons, List.nodup_cons, List.mem_cons, forall_eq_or_imp]
    by_cases hf : found.getD i.color.toNat false = true
    · rw [if_pos hf]
      simp only [Bool.false_eq_true, false_iff]
      rintro ⟨_, h, _⟩
      rw [hf] at h; exact absurd h (by decide)
    · have hf' : found.getD i.color.toNat false = false := by simpa using hf
      have hi : i.color.toNat < found.length := by rw [hlen]; exact color_toNat_lt _
      simp only [hf', Bool.false_eq_true, if_false, true_and]
      rw [ih _ (by simp [hlen])]
      have key : ∀ t : Tile, (found.set i.color.toNat true).getD t.color.toNat false = false ↔
          (i.color ≠ t.color ∧ found.getD t.color.toNat false = false) := by
        intro t
        rw [getD_set_bool _ _ _ hi]
        simp only [Bool.or_eq_false_iff, decide_eq_false_iff_not]
        constructor
        · rintro ⟨h1, h2⟩; exact ⟨fun h => h1 (by rw [h]), h2⟩
        · rintro ⟨h1, h2⟩; exact ⟨fun h => h1 (color_toNat_inj h), h2⟩
      simp only [key, List.mem_map, not_exists, not_and]
      constructor
      · rintro ⟨h1, h2⟩
        exact ⟨⟨fun t ht heq => (h2 t ht).1 heq.symm, h1⟩, fun t ht => (h2 t ht).2⟩
      · rintro ⟨⟨h1, h2⟩, h3⟩
        exact ⟨h2, fun t ht => ⟨fun heq => h1 t ht heq.symm, h3 t ht⟩⟩

theorem sameColor_cons (first : Tile) (rest : List Tile) :
    SameColor (first :: rest) ↔ ∀ t ∈ first :: rest, t.color = first.color := by
  constructor
  · intro h t ht; exact h t ht first (List.mem_cons_self _ _)
  · intro h a ha b hb; rw [h a ha, h b hb]

theorem sameShape_cons (first : Tile) (rest : List Tile) :
    SameShape (first :: rest) ↔ ∀ t ∈ first :: rest, t.shape = first.shape := by
  constructor
  · intro h t ht; exact h t ht first (List.mem_cons_self _ _)
  · intro h a ha b hb; rw [h a ha, h b hb]

theorem nodup_map_of_const {α β : Type} (f : α → β) (l : List α)
    (h : ∀ a ∈ l, ∀ b ∈ l, f a = f b) : (l.map f).Nodup ↔ l.length ≤ 1 := by
  cases l with
  | nil => simp
  | cons a l1 =>
    cases l1 with
    | nil => simp
    | cons b l2 =>
      have hab : f a = f b := h a (by simp) b (by simp)
      simp [hab]

theorem validWord_iff_spec (w : List Tile) (hw : w ≠ []) :
    validWord w = true ↔ ValidWordSpec w := by
  cases w with
  | nil => exact absurd rfl hw
  | cons first rest =>
    have hS : ∀ l : List Tile, shapeLoop l [false, false, false, false, false, false] = true ↔
        (l.map (·.shape)).Nodup := by
      intro l
      rw [shapeLoop_iff l [false, false, false, false, false, false] rfl]
      constructor
      · exact fun h => h.1
      · intro h; refine ⟨h, fun t _ => ?_⟩
        cases t.shape <;> rfl
    have hC : ∀ l : List Tile, colorLoop l [false, false, false, false, false, false] = true ↔
        (l.map (·.color)).Nodup := by
      intro l
      rw [colorLoop_iff l [false, false, false, false, false, false] rfl]
      constructor
      · exact fun h => h.1
      · intro h; refine ⟨h, fun t _ => ?_⟩
        cases t.color <;> rfl
    have hcc := constLoop_color (first :: rest) true true first
    have hcs := constLoop_shape (first :: rest) true true first
    simp only [true_and] at hcc hcs
    rw [← sameColor_cons] at hcc
    rw [← sameShape_cons] at hcs
    unfold ValidWordSpec
    rw [← hcc, ← hcs, ← hS, ← hC]
    simp only [validWord]
    generalize (constLoop (first :: rest) (true, true, first)) = r at hcc hcs ⊢
    obtain ⟨cc, cs, p⟩ := r
    simp only
    generalize hsl : shapeLoop (first :: rest) [false, false, false, false, false, false] = sl
    generalize hcl : colorLoop (first :: rest) [false, false, false, false, false, false] = cl
    cases cc <;> cases cs <;> cases sl <;> cases cl <;> simp
    · have h2 : shapeLoop (first :: rest) [false, false, false, false, false, false] = true :=
        (hS _).2 ((nodup_map_of_const (fun t : Tile => t.shape) _ (hcs.1 rfl)).2
          ((nodup_map_of_const (fun t : Tile => t.color) _ (hcc.1 rfl)).1 ((hC _).1 hcl)))
      rw [hsl] at h2; exact absurd h2 (by decide)
    · have h2 : colorLoop (first :: rest) [false, false, false, false, false, false] = true :=
        (hC _).2 ((nodup_map_of_const (fun t : Tile => t.color) _ (hcc.1 rfl)).2
          ((nodup_map_of_const (fun t : Tile => t.shape) _ (hcs.1 rfl)).1 ((hS _).1 hsl)))
      rw [hcl] at h2; exact absurd h2 (by decide)

namespace BoardState

theorem isEmpty_eq_isNone_getTile (b : BoardState) (x y : Int) :
    b.isEmpty x y = (b.getTile x y).isNone := by
  unfold getTile
  by_cases h : b.isEmpty x y = true
  · simp [h]
  · have h' : b.isEmpty x y = false := by simpa using h
    rw [h']
    simp only [Bool.false_eq_true, if_false]
    unfold isEmpty at h'
    split at h'
    · exact absurd h' (by decide)
    · exact h'.symm

theorem getTile_eq_none_iff (b : BoardState) (x y : Int) :
    b.getTile x y = none ↔ b.isEmpty x y = true := by
  rw [isEmpty_eq_isNone_getTile]; simp

theorem getTile_isSome_of_not_isEmpty (b : BoardState) (x y : Int)
    (h : b.isEmpty x y = false) : ∃ t, b.getTile x y = some t := by
  rw [isEmpty_eq_isNone_getTile] at h
  cases hg : b.getTile x y with
  | none => rw [hg] at h; exact absurd h (by decide)
  | some t => exact ⟨t, rfl⟩

theorem inBounds_of_not_isEmpty (b : BoardState) (x y : Int) (h : b.isEmpty x y = false) :
    b.minx_ ≤ x ∧ x < b.maxx_ ∧ b.miny_ ≤ y ∧ y < b.maxy_ := by
  unfold isEmpty at h
  split at h
  · exact absurd h (by decide)
  · next hb => omega

theorem getTile_eq (b : BoardState) (x y : Int) :
    b.getTile x y =
      if b.minx_ ≤ x ∧ x < b.maxx_ ∧ b.miny_ ≤ y ∧ y < b.maxy_ then b.rawCell x y else none := by
  unfold getTile isEmpty
  by_cases hb : x < b.minx_ ∨ x ≥ b.maxx_ ∨ y < b.miny_ ∨ y ≥ b.maxy_
  · have hq : ¬ (b.minx_ ≤ x ∧ x < b.maxx_ ∧ b.miny_ ≤ y ∧ y < b.maxy_) := by omega
    rw [if_neg hq, if_pos hb]; rfl
  · have hq : b.minx_ ≤ x ∧ x < b.maxx_ ∧ b.miny_ ≤ y ∧ y < b.maxy_ := by omega
    rw [if_pos hq, if_neg hb]
    cases h : b.rawCell x y <;> simp

/-! ## Growing the grid -/

theorem updateRow_append_last (rows : List (List (Option Tile))) (r : List (Option Tile))
    (f : List (Option Tile) → List (Option Tile)) :
    updateRow (rows ++ [r]) rows.length f = rows ++ [f r] := by
  unfold updateRow
  rw [List.getD_eq_getElem?_getD, List.getElem?_append_right (Nat.le_refl _)]
  simp

theorem updateRow_cons_zero (rows : List (List (Option Tile))) (r : List (Option Tile))
    (f : List (Option Tile) → List (Option Tile)) :
    updateRow (r :: rows) 0 f = f r :: rows := by
  simp [updateRow]

theorem resizeRow_nil (n : Nat) : resizeRow [] n = List.replicate n none := by
  simp [resizeRow]

theorem getElem?_updateRow (rows : List (List (Option Tile))) (i j : Nat)
    (f : List (Option Tile) → List (Option Tile)) :
    (updateRow rows i f)[j]? = if i = j then rows[j]?.map f else rows[j]? := by
  unfold updateRow
  rw [List.getElem?_set]
  by_cases h : i = j
  · subst h
    simp only [if_true, List.getD_eq_getElem?_getD]
    cases h2 : rows[i]? with
    | none => simpa using List.getElem?_eq_none_iff.1 h2
    | some v =>
      have := (List.getElem?_eq_some_iff.1 h2).1
      simp [this]
  · simp [h]

theorem getElem?_foldl_updateRow (rows : List (List (Option Tile))) (lo : Int)
    (f : List (Option Tile) → List (Option Tile)) (n : Nat) (i : Nat) :
    (((List.range n).map (fun (k : Nat) => lo + (k : Int))).foldl
      (fun rows iy => updateRow rows (iy - lo).toNat f) rows)[i]? =
      if i < n then rows[i]?.map f else rows[i]? := by
  induction n with
  | zero => simp
  | succ n ih =>
    rw [List.range_succ, List.map_append, List.foldl_append]
    simp only [List.map_cons, List.map_nil, List.foldl_cons, List.foldl_nil]
    rw [getElem?_updateRow]
    have hn : (lo + (n : Int) - lo).toNat = n := by omega
    rw [hn, ih]
    by_cases h : n = i
    · subst h; simp
    · have : (i < n + 1) ↔ (i < n) := by omega
      simp [h, this]

theorem foldl_updateRow_intRange (rows : List (List (Option Tile))) (lo hi : Int)
    (f : List (Option Tile) → List (Option Tile)) (h : rows.length = (hi - lo).toNat) :
    (intRange lo hi).foldl (fun rows iy => updateRow rows (iy - lo).toNat f) rows =
      rows.map f := by
  apply List.ext_getElem?
  intro i
  unfold intRange
  rw [getElem?_foldl_updateRow, List.getElem?_map, ← h]
  by_cases hi : i < rows.length
  · simp [hi]
  · have : rows[i]? = none := List.getElem?_eq_none (by omega)
    simp [hi, this]

theorem pushRowBack_eq (b : BoardState) (h : b.WF) :
    b.pushRowBack =
      { b with board_ := b.board_ ++ [List.replicate (b.maxx_ - b.minx_).toNat none]
               maxy_ := b.maxy_ + 1 } := by
  unfold pushRowBack
  simp only
  rw [← h.2.2.1, updateRow_append_last, resizeRow_nil]

theorem pushRowFront_eq (b : BoardState) :
    b.pushRowFront =
      { b with board_ := List.replicate (b.maxx_ - b.minx_).toNat none :: b.board_
               miny_ := b.miny_ - 1 } := by
  unfold pushRowFront
  simp only
  rw [updateRow_cons_zero, resizeRow_nil]

theorem pushColBack_eq (b : BoardState) (h : b.WF) :
    b.pushColBack =
      { b with board_ := b.board_.map (fun r => r ++ [none]), maxx_ := b.maxx_ + 1 } := by
  unfold pushColBack
  rw [foldl_updateRow_intRange _ _ _ _ h.2.2.1]

theorem pushColFront_eq (b : BoardState) (h : b.WF) :
    b.pushColFront =
      { b with board_ := b.board_.map (fun r => none :: r), minx_ := b.minx_ - 1 } := by
  unfold pushColFront
  rw [foldl_updateRow_intRange _ _ _ _ h.2.2.1]

theorem rawCell_eq (b : BoardState) (x y : Int) :
    b.rawCell x y =
      ((b.board_[(y - b.miny_).toNat]?).getD [])[(x - b.minx_).toNat]?.getD none := by
  simp [rawCell, List.getD_eq_getElem?_getD]

theorem WF_pushRowBack (b : BoardState) (h : b.WF) : b.pushRowBack.WF := by
  rw [pushRowBack_eq b h]
  obtain ⟨h1, h2, h3, h4⟩ := h
  refine ⟨h1, by simp only; omega, ?_, ?_⟩
  · simp only [List.length_append, List.length_singleton, h3]; omega
  · intro row hrow
    simp only [List.mem_append, List.mem_singleton] at hrow
    rcases hrow with hrow | hrow
    · exact h4 row hrow
    · subst hrow; simp

theorem getTile_pushRowBack (b : BoardState) (h : b.WF) (x y : Int) :
    b.pushRowBack.getTile x y = b.getTile x y := by
  rw [pushRowBack_eq b h, getTile_eq, getTile_eq, rawCell_eq, rawCell_eq]
  obtain ⟨h1, h2, h3, h4⟩ := h
  simp only
  by_cases hy : y = b.maxy_
  · have hidx : (y - b.miny_).toNat = b.board_.length := by omega
    rw [hidx, List.getElem?_append_right (Nat.le_refl _)]
    have : ¬ (b.minx_ ≤ x ∧ x < b.maxx_ ∧ b.miny_ ≤ y ∧ y < b.maxy_) := by omega
    rw [if_neg this]
    simp
  · by_cases hin : b.minx_ ≤ x ∧ x < b.maxx_ ∧ b.miny_ ≤ y ∧ y < b.maxy_
    · have hin' : b.minx_ ≤ x ∧ x < b.maxx_ ∧ b.miny_ ≤ y ∧ y < b.maxy_ + 1 := by omega
      rw [if_pos hin, if_pos hin', List.getElem?_append_left (by omega)]
    · have hin' : ¬ (b.minx_ ≤ x ∧ x < b.maxx_ ∧ b.miny_ ≤ y ∧ y < b.maxy_ + 1) := by omega
      rw [if_neg hin, if_neg hin']

theorem WF_pushRowFront (b : BoardState) (h : b.WF) : b.pushRowFront.WF := by
  rw [pushRowFront_eq b]
  obtain ⟨h1, h2, h3, h4⟩ := h
  refine ⟨h1, by simp only; omega, ?_, ?_⟩
  · simp only [List.length_cons, h3]; omega
  · intro row hrow
    simp only [List.mem_cons] at hrow
    rcases hrow with hrow | hrow
    · subst hrow; simp
    · exact h4 row hrow

theorem getTile_pushRowFront (b : BoardState) (h : b.WF) (x y : Int) :
    b.pushRowFront.getTile x y = b.getTile x y := by
  rw [pushRowFront_eq b, getTile_eq, getTile_eq, rawCell_eq, rawCell_eq]
  obtain ⟨h1, h2, h3, h4⟩ := h
  simp only
  by_cases hy : y = b.miny_ - 1
  · have hidx : (y - (b.miny_ - 1)).toNat = 0 := by omega
    rw [hidx]
    have : ¬ (b.minx_ ≤ x ∧ x < b.maxx_ ∧ b.miny_ ≤ y ∧ y < b.maxy_) := by omega
    rw [if_neg this]
    simp
  · by_cases hin : b.minx_ ≤ x ∧ x < b.maxx_ ∧ b.miny_ ≤ y ∧ y < b.maxy_
    · have hin' : b.minx_ ≤ x ∧ x < b.maxx_ ∧ b.miny_ - 1 ≤ y ∧ y < b.maxy_ := by omega
      have hidx : (y - (b.miny_ - 1)).toNat = (y - b.miny_).toNat + 1 := by omega
      rw [if_pos hin, if_pos hin', hidx, List.getElem?_cons_succ]
    · have hin' : ¬ (b.minx_ ≤ x ∧ x < b.maxx_ ∧ b.miny_ - 1 ≤ y ∧ y < b.maxy_) := by omega
      rw [if_neg hin, if_neg hin']

theorem WF_pushColBack (b : BoardState) (h : b.WF) : b.pushColBack.WF := by
  rw [pushColBack_eq b h]
  obtain ⟨h1, h2, h3, h4⟩ := h
  refine ⟨by simp only; omega, h2, ?_, ?_⟩
  · simp only [List.length_map, h3]
  · intro row hrow
    simp only [List.mem_map] at hrow
    obtain ⟨r, hr, rfl⟩ := hrow
    simp only [List.length_append, List.length_singleton, h4 r hr]; omega

theorem getTile_pushColBack (b : BoardState) (h : b.WF) (x y : Int) :
    b.pushColBack.getTile x y = b.getTile x y := by
  rw [pushColBack_eq b h, getTile_eq, getTile_eq, rawCell_eq, rawCell_eq]
  obtain ⟨h1, h2, h3, h4⟩ := h
  simp only
  by_cases hin : b.minx_ ≤ x ∧ x < b.maxx_ ∧ b.miny_ ≤ y ∧ y < b.maxy_
  · have hin' : b.minx_ ≤ x ∧ x < b.maxx_ + 1 ∧ b.miny_ ≤ y ∧ y < b.maxy_ := by omega
    rw [if_pos hin, if_pos hin', List.getElem?_map]
    have hlt : (y - b.miny_).toNat < b.board_.length := by omega
    rw [List.getElem?_eq_getElem hlt]
    simp only [Option.map_some', Option.getD_some]
    have hrow := h4 _ (List.getElem_mem hlt)
    rw [List.getElem?_append_left (by omega)]
  · by_cases hx : x = b.maxx_ ∧ b.miny_ ≤ y ∧ y < b.maxy_
    · have hin' : b.minx_ ≤ x ∧ x < b.maxx_ + 1 ∧ b.miny_ ≤ y ∧ y < b.maxy_ := by omega
      rw [if_neg hin, if_pos hin', List.getElem?_map]
      have hlt : (y - b.miny_).toNat < b.board_.length := by omega
      rw [List.getElem?_eq_getElem hlt]
      simp only [Option.map_some', Option.getD_some]
      have hrow := h4 _ (List.getElem_mem hlt)
      rw [List.getElem?_append_right (by omega)]
      have : (x - b.minx_).toNat - (b.board_[(y - b.miny_).toNat]).length = 0 := by omega
      rw [this]; rfl
    · have hin' : ¬ (b.minx_ ≤ x ∧ x < b.maxx_ + 1 ∧ b.miny_ ≤ y ∧ y < b.maxy_) := by omega
      rw [if_neg hin, if_neg hin']

theorem WF_pushColFront (b : BoardState) (h : b.WF) : b.pushColFront.WF := by
  rw [pushColFront_eq b h]
  obtain ⟨h1, h2, h3, h4⟩ := h
  refine ⟨by simp only; omega, h2, ?_, ?_⟩
  · simp only [List.length_map, h3]
  · intro row hrow
    simp only [List.mem_map] at hrow
    obtain ⟨r, hr, rfl⟩ := hrow
    simp only [List.length_cons, h4 r hr]; omega

theorem getTile_pushColFront (b : BoardState) (h : b.WF) (x y : Int) :
    b.pushColFront.getTile x y = b.getTile x y := by
  rw [pushColFront_eq b h, getTile_eq, getTile_eq, rawCell_eq, rawCell_eq]
  obtain ⟨h1, h2, h3, h4⟩ := h
  simp only
  by_cases hin : b.minx_ ≤ x ∧ x < b.maxx_ ∧ b.miny_ ≤ y ∧ y < b.maxy_
  · have hin' : b.minx_ - 1 ≤ x ∧ x < b.maxx_ ∧ b.miny_ ≤ y ∧ y < b.maxy_ := by omega
    rw [if_pos hin, if_pos hin', List.getElem?_map]
    have hlt : (y - b.miny_).toNat < b.board_.length := by omega
    rw [List.getElem?_eq_getElem hlt]
    simp only [Option.map_some', Option.getD_some]
    have hidx : (x - (b.minx_ - 1)).toNat = (x - b.minx_).toNat + 1 := by omega
    rw [hidx, List.getElem?_cons_succ]
  · by_cases hx : x = b.minx_ - 1 ∧ b.miny_ ≤ y ∧ y < b.maxy_
    · have hin' : b.minx_ - 1 ≤ x ∧ x < b.maxx_ ∧ b.miny_ ≤ y ∧ y < b.maxy_ := by omega
      rw [if_neg hin, if_pos hin', List.getElem?_map]
      have hlt : (y - b.miny_).toNat < b.board_.length := by omega
      rw [List.getElem?_eq_getElem hlt]
      simp only [Option.map_some', Option.getD_some]
      have hidx : (x - (b.minx_ - 1)).toNat = 0 := by omega
      rw [hidx]; simp
    · have hin' : ¬ (b.minx_ - 1 ≤ x ∧ x < b.maxx_ ∧ b.miny_ ≤ y ∧ y < b.maxy_) := by omega
      rw [if_neg hin, if_neg hin']

theorem getTile_of_no_rows (b : BoardState) (h : b.board_.length = 0) (x y : Int) :
    b.getTile x y = none := by
  rw [getTile_eq, rawCell_eq]
  have : b.board_ = [] := List.length_eq_zero.1 h
  simp [this]

theorem resizeBoardToInclude_spec (b : BoardState) (h : b.WF) (x y : Int) :
    Grown b (b.resizeBoardToInclude x y) ∧
      (b.resizeBoardToInclude x y).minx_ ≤ x ∧ x < (b.resizeBoardToInclude x y).maxx_ ∧
      (b.resizeBoardToInclude x y).miny_ ≤ y ∧ y < (b.resizeBoardToInclude x y).maxy_ := by
  unfold resizeBoardToInclude
  -- the first-tile reset
  generalize hb0 : (if b.board_.length = 0 then
      { b with minx_ := x, maxx_ := x, miny_ := y, maxy_ := y } else b) = b0
  have h0 : Grown b b0 := by
    subst hb0
    split
    · next hlen =>
      refine ⟨⟨le_refl _, le_refl _, ?_, ?_⟩, ?_⟩
      · simp [hlen]
      · intro row hrow
        have : b.board_ = [] := List.length_eq_zero.1 hlen
        simp only [this] at hrow
        exact absurd hrow (List.not_mem_nil _)
      · intro x' y'
        rw [getTile_of_no_rows b hlen]
        exact getTile_of_no_rows
          { minx_ := x, maxx_ := x, miny_ := y, maxy_ := y, board_ := b.board_ } hlen x' y'
    · exact ⟨h, fun _ _ => rfl⟩
  simp only
  -- first loop
  generalize hb1 : whileFuel (fun s => decide (y ≥ s.maxy_)) pushRowBack
    (y + 1 - b0.maxy_).toNat b0 = b1
  have h1 : Grown b b1 := by
    subst hb1
    refine whileFuel_invariant _ _ (Grown b) ?_ _ _ h0
    intro s hs _
    exact ⟨WF_pushRowBack s hs.1, fun x' y' => by rw [getTile_pushRowBack s hs.1, hs.2]⟩
  have e1 : y < b1.maxy_ := by
    have := whileFuel_exit (fun s : BoardState => decide (y ≥ s.maxy_)) pushRowBack
      (fun _ => True) (fun s => (y + 1 - s.maxy_).toNat) (fun _ _ _ => trivial)
      (fun s _ hc => by
        have hc' : y ≥ s.maxy_ := by simpa using hc
        show (y + 1 - (s.maxy_ + 1)).toNat < (y + 1 - s.maxy_).toNat
        omega)
      (y + 1 - b0.maxy_).toNat b0 trivial (le_refl _)
    rw [hb1] at this
    simpa using this
  -- second loop
  generalize hb2 : whileFuel (fun s => decide (y < s.miny_)) pushRowFront
    (b1.miny_ - y).toNat b1 = b2
  have h2 : Grown b b2 ∧ y < b2.maxy_ := by
    subst hb2
    refine whileFuel_invariant _ _ (fun s => Grown b s ∧ y < s.maxy_) ?_ _ _ ⟨h1, e1⟩
    intro s hs _
    exact ⟨⟨WF_pushRowFront s hs.1.1, fun x' y' => by rw [getTile_pushRowFront s hs.1.1, hs.1.2]⟩,
      hs.2⟩
  have e2 : b2.miny_ ≤ y := by
    have := whileFuel_exit (fun s : BoardState => decide (y < s.miny_)) pushRowFront
      (fun _ => True) (fun s => (s.miny_ - y).toNat) (fun _ _ _ => trivial)
      (fun s _ hc => by
        have hc' : y < s.miny_ := by simpa using hc
        show ((s.miny_ - 1) - y).toNat < (s.miny_ - y).toNat
        omega)
      (b1.miny_ - y).toNat b1 trivial (le_refl _)
    rw [hb2] at this
    simpa using this
  -- third loop
  generalize hb3 : whileFuel (fun s => decide (x ≥ s.maxx_)) pushColBack
    (x + 1 - b2.maxx_).toNat b2 = b3
  have h3 : Grown b b3 ∧ y < b3.maxy_ ∧ b3.miny_ ≤ y := by
    subst hb3
    refine whileFuel_invariant _ _ (fun s => Grown b s ∧ y < s.maxy_ ∧ s.miny_ ≤ y) ?_ _ _
      ⟨h2.1, h2.2, e2⟩
    intro s hs _
    refine ⟨⟨WF_pushColBack s hs.1.1, fun x' y' => by
      rw [getTile_pushColBack s hs.1.1, hs.1.2]⟩, ?_, ?_⟩
    · rw [pushColBack_eq s hs.1.1]; exact hs.2.1
    · rw [pushColBack_eq s hs.1.1]; exact hs.2.2
  have e3 : x < b3.maxx_ := by
    have := whileFuel_exit (fun s : BoardState => decide (x ≥ s.maxx_)) pushColBack
      (fun _ => True) (fun s => (x + 1 - s.maxx_).toNat) (fun _ _ _ => trivial)
      (fun s _ hc => by
        have hc' : x ≥ s.maxx_ := by simpa using hc
        show (x + 1 - (s.maxx_ + 1)).toNat < (x + 1 - s.maxx_).toNat
        omega)
      (x + 1 - b2.maxx_).toNat b2 trivial (le_refl _)
    rw [hb3] at this
    simpa using this
  -- fourth loop
  generalize hb4 : whileFuel (fun s => decide (x < s.minx_)) pushColFront
    (b3.minx_ - x).toNat b3 = b4
  have h4 : Grown b b4 ∧ y < b4.maxy_ ∧ b4.miny_ ≤ y ∧ x < b4.maxx_ := by
    subst hb4
    refine whileFuel_invariant _ _
      (fun s => Grown b s ∧ y < s.maxy_ ∧ s.miny_ ≤ y ∧ x < s.maxx_) ?_ _ _
      ⟨h3.1, h3.2.1, h3.2.2, e3⟩
    intro s hs _
    refine ⟨⟨WF_pushColFront s hs.1.1, fun x' y' => by
      rw [getTile_pushColFront s hs.1.1, hs.1.2]⟩, ?_, ?_, ?_⟩
    · rw [pushColFront_eq s hs.1.1]; exact hs.2.1
    · rw [pushColFront_eq s hs.1.1]; exact hs.2.2.1
    · rw [pushColFront_eq s hs.1.1]; exact hs.2.2.2
  have e4 : b4.minx_ ≤ x := by
    have := whileFuel_exit (fun s : BoardState => decide (x < s.minx_)) pushColFront
      (fun _ => True) (fun s => (s.minx_ - x).toNat) (fun _ _ _ => trivial)
      (fun s _ hc => by
        have hc' : x < s.minx_ := by simpa using hc
        show ((s.minx_ - 1) - x).toNat < (s.minx_ - x).toNat
        omega)
      (b3.minx_ - x).toNat b3 trivial (le_refl _)
    rw [hb4] at this
    simpa using this
  exact ⟨h4.1, e4, h4.2.2.2, h4.2.2.1, h4.2.1⟩

theorem insertTile_spec (b : BoardState) (h : b.WF) (tile : Tile) (x y : Int) :
    (b.insertTile tile x y).WF ∧
      ∀ x' y', (b.insertTile tile x y).getTile x' y' =
        if x' = x ∧ y' = y then some tile else b.getTile x' y' := by
  obtain ⟨⟨hwf, hcells⟩, bx1, bx2, by1, by2⟩ := resizeBoardToInclude_spec b h x y
  unfold insertTile
  generalize b.resizeBoardToInclude x y = b' at hwf hcells bx1 bx2 by1 by2
  simp only
  obtain ⟨w1, w2, w3, w4⟩ := hwf
  have hrow : (y - b'.miny_).toNat < b'.board_.length := by omega
  constructor
  · refine ⟨w1, w2, ?_, ?_⟩
    · simp only [updateRow, List.length_set]; exact w3
    · intro row hrow'
      simp only [updateRow] at hrow'
      rcases List.mem_or_eq_of_mem_set hrow' with hm | hm
      · exact w4 row hm
      · subst hm
        rw [List.length_set]
        rw [List.getD_eq_getElem?_getD, List.getElem?_eq_getElem hrow]
        exact w4 _ (List.getElem_mem hrow)
  · intro x' y'
    rw [← hcells x' y', getTile_eq, getTile_eq, rawCell_eq, rawCell_eq]
    simp only
    rw [getElem?_updateRow]
    by_cases hin : b'.minx_ ≤ x' ∧ x' < b'.maxx_ ∧ b'.miny_ ≤ y' ∧ y' < b'.maxy_
    · rw [if_pos hin, if_pos hin]
      have hrow' : (y' - b'.miny_).toNat < b'.board_.length := by omega
      rw [List.getElem?_eq_getElem hrow']
      simp only [Option.map_some', Option.getD_some]
      have hlen := w4 _ (List.getElem_mem hrow')
      by_cases hy : y' = y
      · subst hy
        simp only [if_true, and_true, Option.getD_some]
        rw [List.getElem?_set]
        by_cases hx : x' = x
        · subst hx
          have : (x' - b'.minx_).toNat < (b'.board_[(y' - b'.miny_).toNat]).length := by omega
          simp [this]
        · have : ¬ ((x - b'.minx_).toNat = (x' - b'.minx_).toNat) := by omega
          simp [hx, this]
      · have : ¬ ((y - b'.miny_).toNat = (y' - b'.miny_).toNat) := by omega
        simp [hy, this]
    · rw [if_neg hin, if_neg hin]
      have : ¬ (x' = x ∧ y' = y) := by rintro ⟨rfl, rfl⟩; exact hin ⟨bx1, bx2, by1, by2⟩
      rw [if_neg this]

end BoardState

/-! ## Scoring -/

theorem rewind_spec (e : Int → Bool) (lo : Int) (hlo : ∀ i, e i = false → lo ≤ i) (x : Int) :
    whileFuel (fun x => !e (x - 1)) (fun x => x - 1) (x - lo).toNat x ≤ x ∧
      (∀ i, whileFuel (fun x => !e (x - 1)) (fun x => x - 1) (x - lo).toNat x ≤ i → i < x →
        e i = false) ∧
      e (whileFuel (fun x => !e (x - 1)) (fun x => x - 1) (x - lo).toNat x - 1) = true := by
  have hinv := whileFuel_invariant (fun x => !e (x - 1)) (fun x => x - 1)
    (fun a => a ≤ x ∧ ∀ i, a ≤ i → i < x → e i = false)
    (fun a ha hc => by
      have hc' : e (a - 1) = false := by simpa using hc
      refine ⟨by show a - 1 ≤ x; omega, fun i (h1 : a - 1 ≤ i) h2 => ?_⟩
      by_cases hi : i = a - 1
      · rw [hi]; exact hc'
      · exact ha.2 i (by omega) h2)
    (x - lo).toNat x ⟨le_refl _, fun i h1 h2 => by omega⟩
  have hexit := whileFuel_exit (fun x => !e (x - 1)) (fun x => x - 1) (fun _ => True)
    (fun a => (a - lo).toNat) (fun _ _ _ => trivial)
    (fun a _ hc => by
      have hc' : e (a - 1) = false := by simpa using hc
      have := hlo _ hc'
      show (a - 1 - lo).toNat < (a - lo).toNat
      omega)
    (x - lo).toNat x trivial (le_refl _)
  exact ⟨hinv.1, hinv.2, by simpa using hexit⟩

theorem count_spec {σ : Type} (e : Int → Bool) (hi : Int) (hhi : ∀ i, e i = false → i < hi)
    (cond : σ → Bool) (body : σ → σ) (pos len : σ → Int) (I : σ → Prop)
    (hI : ∀ s, I s → I (body s))
    (hcond : ∀ s, I s → cond s = !e (pos s))
    (hpos : ∀ s, pos (body s) = pos s + 1) (hlen : ∀ s, len (body s) = len s + 1)
    (s0 : σ) (hs0 : len s0 = 0) (hI0 : I s0) :
    len (whileFuel cond body (hi - pos s0).toNat s0) =
        pos (whileFuel cond body (hi - pos s0).toNat s0) - pos s0 ∧
      pos s0 ≤ pos (whileFuel cond body (hi - pos s0).toNat s0) ∧
      (∀ i, pos s0 ≤ i → i < pos (whileFuel cond body (hi - pos s0).toNat s0) → e i = false) ∧
      e (pos (whileFuel cond body (hi - pos s0).toNat s0)) = true := by
  have hinv := whileFuel_invariant cond body
    (fun s => I s ∧ len s = pos s - pos s0 ∧ pos s0 ≤ pos s ∧
      ∀ i, pos s0 ≤ i → i < pos s → e i = false)
    (fun s hs hc => by
      have hc' : e (pos s) = false := by rw [hcond s hs.1] at hc; simpa using hc
      refine ⟨hI s hs.1, by rw [hlen, hpos, hs.2.1]; ring, by rw [hpos]; omega,
        fun i h1 h2 => ?_⟩
      rw [hpos] at h2
      by_cases hi : i = pos s
      · rw [hi]; exact hc'
      · exact hs.2.2.2 i h1 (by omega))
    (hi - pos s0).toNat s0 ⟨hI0, by rw [hs0]; ring, le_refl _, fun i h1 h2 => by omega⟩
  have hexit := whileFuel_exit cond body I
    (fun s => (hi - pos s).toNat) (fun s hs _ => hI s hs)
    (fun s hs hc => by
      have hc' : e (pos s) = false := by rw [hcond s hs] at hc; simpa using hc
      have := hhi _ hc'
      show (hi - pos (body s)).toNat < (hi - pos s).toNat
      rw [hpos]; omega)
    (hi - pos s0).toNat s0 hI0 (le_refl _)
  rw [hcond _ hinv.1] at hexit
  exact ⟨hinv.2.1, hinv.2.2.1, hinv.2.2.2, by simpa using hexit⟩

/-- The shape of the result of `scoreWord`: it rewinds from the coordinate `p` of
`(x, y)` along the line to a cell `a` whose predecessor is empty, then counts the
occupied cells from `a` up to the first empty cell `c`. -/
theorem scoreWord_walk (b : BoardState) (x y : Int) (horiz : Bool) :
    ∃ a c, a ≤ linePos x y horiz ∧ a ≤ c ∧
      (∀ i, a ≤ i → i < linePos x y horiz → lineEmpty b x y horiz i = false) ∧
      (∀ i, a ≤ i → i < c → lineEmpty b x y horiz i = false) ∧
      lineEmpty b x y horiz (a - 1) = true ∧ lineEmpty b x y horiz c = true ∧
      scoreWord b x y horiz = if c - a = 6 then 12 else c - a := by
  cases horiz with
  | true =>
    have hlo : ∀ i, b.isEmpty i y = false → b.minx_ ≤ i := fun i h =>
      (b.inBounds_of_not_isEmpty i y h).1
    have hhi : ∀ i, b.isEmpty i y = false → i < b.maxx_ := fun i h =>
      (b.inBounds_of_not_isEmpty i y h).2.1
    obtain ⟨r1, r2, r3⟩ := rewind_spec (fun i => b.isEmpty i y) b.minx_ hlo x
    generalize ha : whileFuel (fun x => !b.isEmpty (x - 1) y) (fun x => x - 1)
      (x - b.minx_).toNat x = a at r1 r2 r3
    obtain ⟨c1, c2, c3, c4⟩ := count_spec (fun i => b.isEmpty i y) b.maxx_ hhi
      (fun s : Int × Int × Int => !b.isEmpty s.1 s.2.1)
      (fun s => (s.1 + 1, s.2.1, s.2.2 + 1))
      (fun s => s.1) (fun s => s.2.2) (fun s => s.2.1 = y)
      (fun s hs => hs) (fun s hs => by simp only; rw [hs]) (fun s => rfl) (fun s => rfl)
      (a, y, 0) rfl rfl
    simp only at c1 c2 c3 c4
    refine ⟨a, _, r1, c2, r2, c3, r3, c4, ?_⟩
    simp only [scoreWord, if_true, ha]
    rw [c1]
  | false =>
    have hlo : ∀ i, b.isEmpty x i = false → b.miny_ ≤ i := fun i h =>
      (b.inBounds_of_not_isEmpty x i h).2.2.1
    have hhi : ∀ i, b.isEmpty x i = false → i < b.maxy_ := fun i h =>
      (b.inBounds_of_not_isEmpty x i h).2.2.2
    obtain ⟨r1, r2, r3⟩ := rewind_spec (fun i => b.isEmpty x i) b.miny_ hlo y
    generalize ha : whileFuel (fun y => !b.isEmpty x (y - 1)) (fun y => y - 1)
      (y - b.miny_).toNat y = a at r1 r2 r3
    obtain ⟨c1, c2, c3, c4⟩ := count_spec (fun i => b.isEmpty x i) b.maxy_ hhi
      (fun s : Int × Int × Int => !b.isEmpty s.1 s.2.1)
      (fun s => (s.1, s.2.1 + 1, s.2.2 + 1))
      (fun s => s.2.1) (fun s => s.2.2) (fun s => s.1 = x)
      (fun s hs => hs) (fun s hs => by simp only; rw [hs]) (fun s => rfl) (fun s => rfl)
      (x, a, 0) rfl rfl
    simp only at c1 c2 c3 c4
    refine ⟨a, _, r1, c2, r2, c3, r3, c4, ?_⟩
    simp only [scoreWord, Bool.false_eq_true, if_false, ha]
    rw [c1]

theorem IsRun.unique {e : Int → Bool} {a c a' c' p : Int} (h : IsRun e a c) (h' : IsRun e a' c')
    (hp : a ≤ p ∧ p < c) (hp' : a' ≤ p ∧ p < c') : a = a' ∧ c = c' := by
  obtain ⟨_, r2, r3, r4⟩ := h
  obtain ⟨_, s2, s3, s4⟩ := h'
  have e1 : a = a' := by
    rcases lt_trichotomy a a' with hlt | heq | hgt
    · have := r2 (a' - 1) (by omega) (by omega)
      rw [s3] at this; exact absurd this (by decide)
    · exact heq
    · have := s2 (a - 1) (by omega) (by omega)
      rw [r3] at this; exact absurd this (by decide)
  have e2 : c = c' := by
    rcases lt_trichotomy c c' with hlt | heq | hgt
    · have := s2 c (by omega) (by omega)
      rw [r4] at this; exact absurd this (by decide)
    · exact heq
    · have := r2 c' (by omega) (by omega)
      rw [s4] at this; exact absurd this (by decide)
  exact ⟨e1, e2⟩

theorem lineEmpty_linePos (b : BoardState) (x y : Int) (horiz : Bool) :
    lineEmpty b x y horiz (linePos x y horiz) = b.isEmpty x y := by
  cases horiz <;> rfl

/-- On an occupied cell `scoreWord` measures the maximal run through the cell. -/
theorem scoreWord_run (b : BoardState) (x y : Int) (horiz : Bool)
    (hocc : b.isEmpty x y = false) :
    ∃ a c, IsRun (lineEmpty b x y horiz) a c ∧ a ≤ linePos x y horiz ∧ linePos x y horiz < c ∧
      scoreWord b x y horiz = if c - a = 6 then 12 else c - a := by
  obtain ⟨a, c, h1, h2, h3, h4, h5, h6, h7⟩ := scoreWord_walk b x y horiz
  have hp : lineEmpty b x y horiz (linePos x y horiz) = false := by
    rw [lineEmpty_linePos]; exact hocc
  have hpc : linePos x y horiz < c := by
    by_contra hcon
    rcases lt_or_eq_of_le (not_lt.1 hcon) with hlt | heq
    · have := h3 c h2 hlt
      rw [h6] at this; exact absurd this (by decide)
    · rw [heq, hp] at h6; exact absurd h6 (by decide)
  exact ⟨a, c, ⟨by omega, h4, h5, h6⟩, h1, hpc, h7⟩

theorem scoreWord_of_run (b : BoardState) (x y : Int) (horiz : Bool) (a c : Int)
    (hrun : IsRun (lineEmpty b x y horiz) a c)
    (hp : a ≤ linePos x y horiz ∧ linePos x y horiz < c) :
    scoreWord b x y horiz = if c - a = 6 then 12 else c - a := by
  have hocc : b.isEmpty x y = false := by
    rw [← lineEmpty_linePos b x y horiz]; exact hrun.2.1 _ hp.1 hp.2
  obtain ⟨a', c', hrun', hp1, hp2, hs⟩ := scoreWord_run b x y horiz hocc
  obtain ⟨rfl, rfl⟩ := IsRun.unique hrun hrun' hp ⟨hp1, hp2⟩
  exact hs

theorem scoreWord_nonneg (b : BoardState) (x y : Int) (horiz : Bool) :
    0 ≤ scoreWord b x y horiz := by
  obtain ⟨a, c, _, h2, _, _, _, _, h7⟩ := scoreWord_walk b x y horiz
  rw [h7]; split <;> omega

theorem foldl_secondary (g : Int × Int → Int) (l : List (Int × Int)) (init : Int) :
    l.foldl (fun score i => if g i > 1 then score + g i else score) init =
      init + (l.map (fun i => if g i > 1 then g i else 0)).sum := by
  induction l generalizing init with
  | nil => simp
  | cons i rest ih =>
    simp only [List.foldl_cons, List.map_cons, List.sum_cons]
    rw [ih]
    split <;> ring

theorem scoreMove_cons (b : BoardState) (first : Int × Int) (rest : List (Int × Int))
    (horiz : Bool) :
    scoreMove b (first :: rest) horiz =
      (if scoreWord b first.1 first.2 horiz > 1 then scoreWord b first.1 first.2 horiz else 0) +
        ((first :: rest).map (fun i =>
          if scoreWord b i.1 i.2 (!horiz) > 1 then scoreWord b i.1 i.2 (!horiz) else 0)).sum := by
  simp only [scoreMove]
  rw [foldl_secondary (fun i => scoreWord b i.1 i.2 (!horiz))]
  simp only [zero_add]

theorem scoreWord_isolated (b : BoardState) (x y : Int) (horiz : Bool)
    (hocc : b.isEmpty x y = false)
    (hl : b.isEmpty (x - 1) y = true) (hr : b.isEmpty (x + 1) y = true)
    (hu : b.isEmpty x (y - 1) = true) (hd : b.isEmpty x (y + 1) = true) :
    scoreWord b x y horiz = 1 := by
  have hrun : IsRun (lineEmpty b x y horiz) (linePos x y horiz) (linePos x y horiz + 1) := by
    refine ⟨by omega, fun i h1 h2 => ?_, ?_, ?_⟩
    · have : i = linePos x y horiz := by omega
      rw [this, lineEmpty_linePos]; exact hocc
    · cases horiz
      · exact hu
      · exact hl
    · cases horiz
      · exact hd
      · exact hr
  rw [scoreWord_of_run b x y horiz _ _ hrun ⟨le_refl _, by omega⟩]
  have : linePos x y horiz + 1 - linePos x y horiz = 1 := by ring
  rw [this]; rfl

/-! ## Board validity -/

theorem intRange_self (lo : Int) : intRange lo lo = [] := by
  simp [intRange]

theorem intRange_of_le {lo hi : Int} (h : hi ≤ lo) : intRange lo hi = [] := by
  have : (hi - lo).toNat = 0 := by omega
  simp [intRange, this]

theorem intRange_succ_right {lo hi : Int} (h : lo ≤ hi) :
    intRange lo (hi + 1) = intRange lo hi ++ [hi] := by
  unfold intRange
  have : (hi + 1 - lo).toNat = (hi - lo).toNat + 1 := by omega
  rw [this, List.range_succ, List.map_append]
  simp only [List.map_cons, List.map_nil]
  congr 2
  omega

theorem intRange_succ_left {lo hi : Int} (h : lo < hi) :
    intRange lo hi = lo :: intRange (lo + 1) hi := by
  unfold intRange
  have : (hi - lo).toNat = (hi - (lo + 1)).toNat + 1 := by omega
  rw [this, List.range_succ_eq_map]
  simp only [List.map_cons, List.map_map]
  congr 1
  · simp
  · apply List.map_congr_left
    intro k _
    simp only [Function.comp, Nat.cast_succ]
    ring

theorem BoardState.lineOk_eq (b : BoardState) (coords : List (Int × Int)) :
    b.lineOk coords = BoardState.lineResult (b.lineLoop coords []) := by
  unfold BoardState.lineOk BoardState.lineResult
  cases b.lineLoop coords [] <;> rfl

theorem filterMap_intRange_length (f : Int → Option Tile) (s lo : Int) (h : s ≤ lo)
    (hocc : ∀ i, s ≤ i → i < lo → (f i).isNone = false) :
    ((intRange s lo).filterMap f).length = (lo - s).toNat := by
  have : ∀ n : Nat, ∀ lo : Int, (lo - s).toNat = n → s ≤ lo →
      (∀ i, s ≤ i → i < lo → (f i).isNone = false) →
      ((intRange s lo).filterMap f).length = n := by
    intro n
    induction n with
    | zero =>
      intro lo hn hs _
      have : lo = s := by omega
      rw [this, intRange_self]; rfl
    | succ n ih =>
      intro lo hn hs hocc
      have hlo : lo = (lo - 1) + 1 := by ring
      rw [hlo, intRange_succ_right (by omega), List.filterMap_append, List.length_append,
        ih (lo - 1) (by omega) (by omega) (fun i h1 h2 => hocc i h1 (by omega))]
      have := hocc (lo - 1) (by omega) (by omega)
      cases hf : f (lo - 1) with
      | none => rw [hf] at this; exact absurd this (by decide)
      | some t => simp [List.filterMap, hf]
  exact this _ lo rfl h hocc

theorem BoardState.lineLoop_cons (b : BoardState) (p : Int × Int) (rest : List (Int × Int))
    (word : List Tile) :
    b.lineLoop (p :: rest) word =
      if !b.isEmpty p.1 p.2 then
        match b.getTile p.1 p.2 with
        | some t => b.lineLoop rest (word ++ [t])
        | none => none
      else if decide (word.length > 0) && !validWord word then none
      else b.lineLoop rest [] := by
  cases p; rfl

theorem IsRun.eq_of_start {e : Int → Bool} {s lo a c : Int}
    (hocc : ∀ i, s ≤ i → i < lo → e i = false) (hpre : e (s - 1) = true) (hlo : e lo = true)
    (hrun : IsRun e a c) (hs : s ≤ a) (ha : a ≤ lo) : a = s ∧ c = lo ∧ s < lo := by
  have hao : e a = false := hrun.2.1 a (le_refl _) hrun.1
  have halo : a < lo := by
    rcases lt_or_eq_of_le ha with h | h
    · exact h
    · rw [h, hlo] at hao; exact absurd hao (by decide)
  have hrun' : IsRun e s lo := ⟨by omega, hocc, hpre, hlo⟩
  obtain ⟨h1, h2⟩ := IsRun.unique hrun hrun' ⟨le_refl _, hrun.1⟩ ⟨hs, halo⟩
  exact ⟨h1, h2, by omega⟩

/-- The inner loop of `isValidBoard` over the cells `lo, ..., hi-1` of a line,
entered with the word `w` collected from the occupied cells `s, ..., lo-1`,
accepts exactly when every maximal run that starts at or after `s` is a valid
word. -/
theorem BoardState.lineLoop_iff (b : BoardState) (mk : Int → Int × Int) (hi : Int)
    (hhi : b.isEmpty (mk hi).1 (mk hi).2 = true) :
    ∀ (n : Nat) (lo s : Int) (w : List Tile), (hi - lo).toNat = n → lo ≤ hi → s ≤ lo →
      w = (intRange s lo).filterMap (fun i => b.getTile (mk i).1 (mk i).2) →
      (∀ i, s ≤ i → i < lo → b.isEmpty (mk i).1 (mk i).2 = false) →
      b.isEmpty (mk (s - 1)).1 (mk (s - 1)).2 = true →
      (BoardState.lineResult (b.lineLoop ((intRange lo hi).map mk) w) = true ↔
        ∀ a c, s ≤ a → c ≤ hi → IsRun (fun i => b.isEmpty (mk i).1 (mk i).2) a c →
          validWord ((intRange a c).filterMap (fun i => b.getTile (mk i).1 (mk i).2)) = true) := by
  intro n
  induction n with
  | zero =>
    intro lo s w hn hle hs hw hocc hpre
    have hlo : lo = hi := by omega
    subst hlo
    rw [intRange_self]
    simp only [List.map_nil, BoardState.lineLoop, BoardState.lineResult]
    have hlen : w.length = (lo - s).toNat := by
      rw [hw]
      exact filterMap_intRange_length _ s lo hs
        (fun i h1 h2 => by rw [← BoardState.isEmpty_eq_isNone_getTile]; exact hocc i h1 h2)
    constructor
    · intro hv a c ha hc hrun
      obtain ⟨e1, e2, e3⟩ := IsRun.eq_of_start (e := fun i => b.isEmpty (mk i).1 (mk i).2)
        hocc hpre hhi hrun ha (by have := hrun.1; omega)
      rw [e1, e2, ← hw]
      have hpos : w.length > 0 := by omega
      simpa [hpos] using hv
    · intro hall
      by_cases hpos : w.length > 0
      · have hrun : IsRun (fun i => b.isEmpty (mk i).1 (mk i).2) s lo :=
          ⟨by omega, hocc, hpre, hhi⟩
        have := hall s lo (le_refl _) (le_refl _) hrun
        rw [← hw] at this
        simp [this]
      · simp [hpos]
  | succ n ih =>
    intro lo s w hn hle hs hw hocc hpre
    have hlt : lo < hi := by omega
    rw [intRange_succ_left hlt, List.map_cons, BoardState.lineLoop_cons]
    cases hcell : b.isEmpty (mk lo).1 (mk lo).2 with
    | false =>
      obtain ⟨t, ht⟩ := b.getTile_isSome_of_not_isEmpty _ _ hcell
      simp only [Bool.not_false, if_true, ht]
      refine ih (lo + 1) s (w ++ [t]) (by omega) (by omega) (by omega) ?_ ?_ hpre
      · rw [intRange_succ_right hs, List.filterMap_append, ← hw]
        simp [List.filterMap, ht]
      · intro i h1 h2
        by_cases hi' : i = lo
        · rw [hi']; exact hcell
        · exact hocc i h1 (by omega)
    | true =>
      simp only [Bool.not_true, Bool.false_eq_true, if_false]
      have hlen : w.length = (lo - s).toNat := by
        rw [hw]
        exact filterMap_intRange_length _ s lo hs
          (fun i h1 h2 => by rw [← BoardState.isEmpty_eq_isNone_getTile]; exact hocc i h1 h2)
      have hrest := ih (lo + 1) (lo + 1) [] (by omega) (by omega) (le_refl _)
        (by rw [intRange_self]; rfl) (fun i h1 h2 => by omega)
        (by rw [show lo + 1 - 1 = lo by ring]; exact hcell)
      by_cases hbad : (decide (w.length > 0) && !validWord w) = true
      · rw [if_pos hbad]
        simp only [BoardState.lineResult, Bool.false_eq_true, false_iff]
        intro hall
        simp only [Bool.and_eq_true, decide_eq_true_eq, Bool.not_eq_true'] at hbad
        have hrun : IsRun (fun i => b.isEmpty (mk i).1 (mk i).2) s lo :=
          ⟨by omega, hocc, hpre, hcell⟩
        have := hall s lo (le_refl _) (by omega) hrun
        rw [← hw, hbad.2] at this
        exact absurd this (by decide)
      · rw [if_neg hbad, hrest]
        constructor
        · intro hall a c ha hc hrun
          by_cases hal : lo + 1 ≤ a
          · exact hall a c hal hc hrun
          · obtain ⟨e1, e2, e3⟩ := IsRun.eq_of_start
              (e := fun i => b.isEmpty (mk i).1 (mk i).2) hocc hpre hcell hrun ha (by omega)
            rw [e1, e2, ← hw]
            have hpos : w.length > 0 := by omega
            simpa [hpos] using hbad
        · intro hall a c ha hc hrun
          exact hall a c (by omega) hc hrun

namespace BoardState

theorem isEmpty_of_out (b : BoardState) (x y : Int)
    (h : x < b.minx_ ∨ x ≥ b.maxx_ ∨ y < b.miny_ ∨ y ≥ b.maxy_) : b.isEmpty x y = true := by
  unfold isEmpty; rw [if_pos h]

theorem rowOk_iff (b : BoardState) (y : Int) :
    b.lineOk ((intRange b.minx_ b.maxx_).map (fun x => (x, y))) = true ↔
      ∀ a c, IsRun (fun i => b.isEmpty i y) a c → validWord (b.rowWord y a c) = true := by
  rw [lineOk_eq]
  by_cases hle : b.minx_ ≤ b.maxx_
  · rw [lineLoop_iff b (fun x => (x, y)) b.maxx_ (b.isEmpty_of_out _ _ (by simp)) _
      b.minx_ b.minx_ [] rfl hle (le_refl _) (by rw [intRange_self]; rfl)
      (fun i h1 h2 => by omega) (b.isEmpty_of_out _ _ (by simp))]
    constructor
    · intro h a c hrun
      have h1 := b.inBounds_of_not_isEmpty a y (hrun.2.1 a (le_refl _) hrun.1)
      have h2 := b.inBounds_of_not_isEmpty (c - 1) y
        (hrun.2.1 (c - 1) (by have := hrun.1; omega) (by omega))
      exact h a c h1.1 (by omega) hrun
    · intro h a c _ _ hrun
      exact h a c hrun
  · rw [intRange_of_le (by omega)]
    simp only [List.map_nil, lineLoop, lineResult, List.length_nil, gt_iff_lt, lt_self_iff_false,
      decide_False, Bool.false_and, Bool.not_false, true_iff]
    intro a c hrun
    have h1 := b.inBounds_of_not_isEmpty a y (hrun.2.1 a (le_refl _) hrun.1)
    omega

theorem colOk_iff (b : BoardState) (x : Int) :
    b.lineOk ((intRange b.miny_ b.maxy_).map (fun y => (x, y))) = true ↔
      ∀ a c, IsRun (fun j => b.isEmpty x j) a c → validWord (b.colWord x a c) = true := by
  rw [lineOk_eq]
  by_cases hle : b.miny_ ≤ b.maxy_
  · rw [lineLoop_iff b (fun y => (x, y)) b.maxy_ (b.isEmpty_of_out _ _ (by simp)) _
      b.miny_ b.miny_ [] rfl hle (le_refl _) (by rw [intRange_self]; rfl)
      (fun i h1 h2 => by omega) (b.isEmpty_of_out _ _ (by simp))]
    constructor
    · intro h a c hrun
      have h1 := b.inBounds_of_not_isEmpty x a (hrun.2.1 a (le_refl _) hrun.1)
      have h2 := b.inBounds_of_not_isEmpty x (c - 1)
        (hrun.2.1 (c - 1) (by have := hrun.1; omega) (by omega))
      exact h a c h1.2.2.1 (by omega) hrun
    · intro h a c _ _ hrun
      exact h a c hrun
  · rw [intRange_of_le (by omega)]
    simp only [List.map_nil, lineLoop, lineResult, List.length_nil, gt_iff_lt, lt_self_iff_false,
      decide_False, Bool.false_and, Bool.not_false, true_iff]
    intro a c hrun
    have h1 := b.inBounds_of_not_isEmpty x a (hrun.2.1 a (le_refl _) hrun.1)
    omega

theorem isValidBoard_iff (b : BoardState) :
    b.isValidBoard = true ↔
      (∀ y a c, IsRun (fun i => b.isEmpty i y) a c → validWord (b.rowWord y a c) = true) ∧
      (∀ x a c, IsRun (fun j => b.isEmpty x j) a c → validWord (b.colWord x a c) = true) := by
  unfold isValidBoard
  rw [Bool.and_eq_true, List.all_eq_true, List.all_eq_true]
  constructor
  · rintro ⟨hr, hc⟩
    constructor
    · intro y a c hrun
      have h1 := b.inBounds_of_not_isEmpty a y (hrun.2.1 a (le_refl _) hrun.1)
      exact (b.rowOk_iff y).1 (hr y (mem_intRange.2 ⟨h1.2.2.1, h1.2.2.2⟩)) a c hrun
    · intro x a c hrun
      have h1 := b.inBounds_of_not_isEmpty x a (hrun.2.1 a (le_refl _) hrun.1)
      exact (b.colOk_iff x).1 (hc x (mem_intRange.2 ⟨h1.1, h1.2.1⟩)) a c hrun
  · rintro ⟨hr, hc⟩
    exact ⟨fun y _ => (b.rowOk_iff y).2 (hr y), fun x _ => (b.colOk_iff x).2 (hc x)⟩

end BoardState

/-! ## Move search -/

theorem foldl_congr_mem {α β : Type} (f g : β → α → β) (l : List α) (init : β)
    (h : ∀ a ∈ l, ∀ acc, f acc a = g acc a) : l.foldl f init = l.foldl g init := by
  induction l generalizing init with
  | nil => rfl
  | cons a rest ih =>
    simp only [List.foldl_cons]
    rw [h a (List.mem_cons_self _ _) init]
    exact ih _ (fun a' ha' acc => h a' (List.mem_cons_of_mem _ ha') acc)

theorem Rack.removeLoop_eq_erase (t : Tile) (l : List Tile) : Rack.removeLoop t l = l.erase t := by
  induction l with
  | nil => rfl
  | cons a rest ih =>
    simp only [Rack.removeLoop]
    by_cases h : a = t
    · subst h; simp
    · rw [if_neg h, ih, List.erase_cons_tail (by simpa using h)]

theorem Rack.size_removeTile (r : Rack) (t : Tile) (h : t ∈ r.tiles_) :
    (r.removeTile t).size + 1 = r.size := by
  simp only [Rack.removeTile, Rack.size, Rack.removeLoop_eq_erase]
  rw [List.length_erase_of_mem h]
  have : 0 < r.tiles_.length := List.length_pos_of_mem h
  omega

/-- The recursive equation of `bestMoveGivenPrefix` in the source: the depth
bound of the model is never reached. -/
theorem bestMoveGivenPrefix_eq (board : BoardState) (rack : Rack) (x y : Int)
    (tile_locs : List (Int × Int)) (dx dy : Int) :
    bestMoveGivenPrefix board rack x y tile_locs dx dy =
      (let horiz := decide (dx ≠ 0)
       let best_move : Move := ⟨board, rack, scoreMove board tile_locs horiz⟩
       let p : Int × Int :=
         whileFuel (fun p => !board.isEmpty p.1 p.2) (fun p => (p.1 + dx, p.2 + dy))
           ((board.maxx_ - board.minx_).toNat + (board.maxy_ - board.miny_).toNat) (x, y)
       let x := p.1
       let y := p.2
       rack.getTiles.foldl
         (fun best_move tile =>
           let new_board := board.insertTile tile x y
           let new_rack := rack.removeTile tile
           let new_tile_locs := tile_locs ++ [(x, y)]
           if new_board.isValidBoard then
             let submove := bestMoveGivenPrefix new_board new_rack x y new_tile_locs dx dy
             if submove.score > best_move.score then submove else best_move
           else best_move)
         best_move) := by
  unfold bestMoveGivenPrefix
  cases hsz : rack.size with
  | zero =>
    have : rack.tiles_ = [] := List.length_eq_zero.1 hsz
    simp [bestMoveGivenPrefixAux, Rack.getTiles, this]
  | succ n =>
    simp only [bestMoveGivenPrefixAux]
    apply foldl_congr_mem
    intro tile htile acc
    have : (rack.removeTile tile).size = n := by
      have := Rack.size_removeTile rack tile htile
      omega
    simp only [this]

theorem foldl_score_ge_init {α : Type} (f : Move → α → Move) (l : List α) (init : Move)
    (hmono : ∀ acc a, acc.score ≤ (f acc a).score) : init.score ≤ (l.foldl f init).score := by
  induction l generalizing init with
  | nil => exact le_refl _
  | cons a rest ih =>
    simp only [List.foldl_cons]
    exact le_trans (hmono init a) (ih _)

theorem foldl_score_ge_of_mem {α : Type} (f : Move → α → Move) (l : List α) (init : Move)
    (hmono : ∀ acc a, acc.score ≤ (f acc a).score) (a : α) (ha : a ∈ l) (v : Int)
    (hv : ∀ acc, v ≤ (f acc a).score) : v ≤ (l.foldl f init).score := by
  induction l generalizing init with
  | nil => exact absurd ha (List.not_mem_nil _)
  | cons a' rest ih =>
    simp only [List.foldl_cons]
    rcases List.mem_cons.1 ha with h | h
    · subst h
      exact le_trans (hv init) (foldl_score_ge_init f rest _ hmono)
    · exact ih _ h

theorem bestMoveGivenPrefixAux_score_ge (fuel : Nat) (board : BoardState) (rack : Rack)
    (x y : Int) (tile_locs : List (Int × Int)) (dx dy : Int) :
    scoreMove board tile_locs (decide (dx ≠ 0)) ≤
      (bestMoveGivenPrefixAux fuel board rack x y tile_locs dx dy).score := by
  cases fuel with
  | zero => exact le_refl _
  | succ n =>
    simp only [bestMoveGivenPrefixAux]
    refine foldl_score_ge_init _ _ (⟨board, rack, scoreMove board tile_locs (decide (dx ≠ 0))⟩ : Move) ?_
    intro acc a
    split
    · split
      · next h => exact le_of_lt h
      · exact le_refl _
    · exact le_refl _

theorem bestMoveGivenPrefix_score_ge (board : BoardState) (rack : Rack)
    (x y : Int) (tile_locs : List (Int × Int)) (dx dy : Int) :
    scoreMove board tile_locs (decide (dx ≠ 0)) ≤
      (bestMoveGivenPrefix board rack x y tile_locs dx dy).score :=
  bestMoveGivenPrefixAux_score_ge _ board rack x y tile_locs dx dy

theorem bestMove_eq (board : BoardState) (rack : Rack) (x y : Int) :
    bestMove board rack x y =
      if board.isEmpty x y && board.isAdjacent x y then
        rack.getTiles.foldl (bestMoveStep board rack x y) ⟨board, rack, 0⟩
      else ⟨board, rack, 0⟩ := rfl

theorem ite_score_ge_left (m1 m2 : Move) :
    m1.score ≤ (if m2.score > m1.score then m2 else m1).score := by
  split
  · next h => exact le_of_lt h
  · exact le_refl _

theorem ite_score_ge_right (m1 m2 : Move) :
    m2.score ≤ (if m2.score > m1.score then m2 else m1).score := by
  split
  · exact le_refl _
  · next h => exact not_lt.1 h

theorem bestMoveStep_mono (board : BoardState) (rack : Rack) (x y : Int) (move : Move)
    (tile : Tile) : move.score ≤ (bestMoveStep board rack x y move tile).score := by
  unfold bestMoveStep
  simp only
  split
  · exact le_trans (le_trans (le_trans (ite_score_ge_left _ _) (ite_score_ge_left _ _))
      (ite_score_ge_left _ _)) (ite_score_ge_left _ _)
  · exact le_refl _

theorem bestMoveStep_ge (board : BoardState) (rack : Rack) (x y : Int) (move : Move)
    (tile : Tile) (hvalid : (board.insertTile tile x y).isValidBoard = true) (horiz : Bool) :
    scoreMove (board.insertTile tile x y) [(x, y)] horiz ≤
      (bestMoveStep board rack x y move tile).score := by
  unfold bestMoveStep
  simp only [hvalid, if_true]
  cases horiz with
  | true =>
    have h := bestMoveGivenPrefix_score_ge (board.insertTile tile x y) (rack.removeTile tile)
      x y [(x, y)] 1 0
    exact le_trans (le_trans (le_trans (le_trans h (ite_score_ge_right _ _))
      (ite_score_ge_left _ _)) (ite_score_ge_left _ _)) (ite_score_ge_left _ _)
  | false =>
    have h := bestMoveGivenPrefix_score_ge (board.insertTile tile x y) (rack.removeTile tile)
      x y [(x, y)] 0 1
    exact le_trans (le_trans h (ite_score_ge_right _ _)) (ite_score_ge_left _ _)

theorem bestMove_score_ge (board : BoardState) (rack : Rack) (x y : Int) (t : Tile)
    (ht : t ∈ rack.getTiles) (hadj : board.isAdjacent x y = true)
    (hvalid : (board.insertTile t x y).isValidBoard = true) (horiz : Bool) :
    scoreMove (board.insertTile t x y) [(x, y)] horiz ≤ (bestMove board rack x y).score := by
  have hemp : board.isEmpty x y = true := by
    unfold BoardState.isAdjacent at hadj
    exact (Bool.and_eq_true _ _ ▸ hadj).1
  rw [bestMove_eq]
  simp only [hemp, hadj, Bool.and_self, if_true]
  exact foldl_score_ge_of_mem _ _ _ (bestMoveStep_mono board rack x y) t ht _
    (fun acc => bestMoveStep_ge board rack x y acc t hvalid horiz)

theorem scoreWord_ge_two (b : BoardState) (x y : Int) (horiz : Bool)
    (hocc : b.isEmpty x y = false)
    (hnb : lineEmpty b x y horiz (linePos x y horiz - 1) = false ∨
      lineEmpty b x y horiz (linePos x y horiz + 1) = false) :
    2 ≤ scoreWord b x y horiz := by
  obtain ⟨a, c, ⟨r1, r2, r3, r4⟩, h1, h2, hs⟩ := scoreWord_run b x y horiz hocc
  have hlen : 2 ≤ c - a := by
    rcases hnb with h | h
    · have : a ≠ linePos x y horiz := by
        intro heq; rw [heq, h] at r3; exact absurd r3 (by decide)
      omega
    · have : c ≠ linePos x y horiz + 1 := by
        intro heq; rw [heq, h] at r4; exact absurd r4 (by decide)
      omega
  rw [hs]; split <;> omega

theorem scoreMove_single (b : BoardState) (x y : Int) (horiz : Bool) :
    scoreMove b [(x, y)] horiz =
      (if scoreWord b x y horiz > 1 then scoreWord b x y horiz else 0) +
        (if scoreWord b x y (!horiz) > 1 then scoreWord b x y (!horiz) else 0) := by
  rw [scoreMove_cons]; simp

theorem scoreMove_single_ge_two (b : BoardState) (x y : Int) (horiz : Bool)
    (hocc : b.isEmpty x y = false)
    (hnb : b.isEmpty (x - 1) y = false ∨ b.isEmpty x (y - 1) = false ∨
      b.isEmpty (x + 1) y = false ∨ b.isEmpty x (y + 1) = false) :
    2 ≤ scoreMove b [(x, y)] horiz := by
  rw [scoreMove_single]
  have n1 := scoreWord_nonneg b x y horiz
  have n2 := scoreWord_nonneg b x y (!horiz)
  have key : 2 ≤ scoreWord b x y true ∨ 2 ≤ scoreWord b x y false := by
    rcases hnb with h | h | h | h
    · exact Or.inl (scoreWord_ge_two b x y true hocc (Or.inl h))
    · exact Or.inr (scoreWord_ge_two b x y false hocc (Or.inl h))
    · exact Or.inl (scoreWord_ge_two b x y true hocc (Or.inr h))
    · exact Or.inr (scoreWord_ge_two b x y false hocc (Or.inr h))
  cases horiz <;> simp only [Bool.not_true, Bool.not_false] <;>
    rcases key with k | k <;> split <;> split <;> omega

namespace BoardState

theorem isEmpty_insertTile (b : BoardState) (h : b.WF) (tile : Tile) (x y x' y' : Int) :
    (b.insertTile tile x y).isEmpty x' y' =
      if x' = x ∧ y' = y then false else b.isEmpty x' y' := by
  rw [isEmpty_eq_isNone_getTile, (insertTile_spec b h tile x y).2, isEmpty_eq_isNone_getTile]
  split <;> rfl

theorem isAdjacent_iff (b : BoardState) (x y : Int) :
    b.isAdjacent x y = true ↔ b.isEmpty x y = true ∧
      (b.isEmpty (x - 1) y = false ∨ b.isEmpty x (y - 1) = false ∨
        b.isEmpty (x + 1) y = false ∨ b.isEmpty x (y + 1) = false) := by
  unfold isAdjacent
  simp only [Bool.and_eq_true, Bool.or_eq_true, Bool.not_eq_true', or_assoc]

theorem isAdjacent_range (b : BoardState) (x y : Int) (h : b.isAdjacent x y = true) :
    b.minx_ - 1 ≤ x ∧ x ≤ b.maxx_ ∧ b.miny_ - 1 ≤ y ∧ y ≤ b.maxy_ := by
  obtain ⟨_, h1 | h1 | h1 | h1⟩ := (b.isAdjacent_iff x y).1 h <;>
    have := b.inBounds_of_not_isEmpty _ _ h1 <;> omega

end BoardState

theorem scoreMove_insert_ge_two (b : BoardState) (hwf : b.WF) (t : Tile) (x y : Int)
    (hadj : b.isAdjacent x y = true) (horiz : Bool) :
    2 ≤ scoreMove (b.insertTile t x y) [(x, y)] horiz := by
  obtain ⟨_, hnb⟩ := (b.isAdjacent_iff x y).1 hadj
  apply scoreMove_single_ge_two
  · rw [b.isEmpty_insertTile hwf]; simp
  · rw [b.isEmpty_insertTile hwf, b.isEmpty_insertTile hwf, b.isEmpty_insertTile hwf,
      b.isEmpty_insertTile hwf]
    have e1 : ¬ (x - 1 = x ∧ y = y) := by omega
    have e2 : ¬ (x = x ∧ y - 1 = y) := by omega
    have e3 : ¬ (x + 1 = x ∧ y = y) := by omega
    have e4 : ¬ (x = x ∧ y + 1 = y) := by omega
    rw [if_neg e1, if_neg e2, if_neg e3, if_neg e4]
    exact hnb

theorem computerTurnSearch_eq (board : BoardState) (rack : Rack) :
    computerTurnSearch board rack =
      (intRange (board.minx_ - 1) (board.maxx_ + 1)).foldl
        (fun best_move x =>
          (intRange (board.miny_ - 1) (board.maxy_ + 1)).foldl (anchorStep board rack x) best_move)
        ⟨board, rack, 0⟩ := rfl

theorem computerTurnSearch_score_ge (board : BoardState) (rack : Rack) (x y : Int)
    (hx : board.minx_ - 1 ≤ x ∧ x ≤ board.maxx_) (hy : board.miny_ - 1 ≤ y ∧ y ≤ board.maxy_) :
    (bestMove board rack x y).score ≤ (computerTurnSearch board rack).score := by
  rw [computerTurnSearch_eq]
  have hstep : ∀ x' acc y', acc.score ≤ (anchorStep board rack x' acc y').score :=
    fun x' acc y' => ite_score_ge_left _ _
  refine foldl_score_ge_of_mem _ _ _ (fun acc x' => foldl_score_ge_init _ _ _ (hstep x')) x
    (mem_intRange.2 ⟨hx.1, by omega⟩) _ (fun acc => ?_)
  exact foldl_score_ge_of_mem _ _ _ (hstep x) y (mem_intRange.2 ⟨hy.1, by omega⟩) _
    (fun acc => ite_score_ge_right _ _)

theorem foldl_eq_init {α β : Type} (f : β → α → β) (l : List α) (init : β)
    (h : ∀ a ∈ l, f init a = init) : l.foldl f init = init := by
  induction l with
  | nil => rfl
  | cons a rest ih =>
    simp only [List.foldl_cons]
    rw [h a (List.mem_cons_self _ _)]
    exact ih (fun a' ha' => h a' (List.mem_cons_of_mem _ ha'))

theorem bestMove_eq_zero (board : BoardState) (rack : Rack) (x y : Int)
    (hnone : ∀ t ∈ rack.getTiles, board.isAdjacent x y = true →
      (board.insertTile t x y).isValidBoard = false) :
    bestMove board rack x y = ⟨board, rack, 0⟩ := by
  rw [bestMove_eq]
  split
  · next hg =>
    have hadj : board.isAdjacent x y = true := (Bool.and_eq_true _ _ ▸ hg).2
    apply foldl_eq_init
    intro t ht
    unfold bestMoveStep
    simp only [hnone t ht hadj, Bool.false_eq_true, if_false]
  · rfl

theorem computerTurnSearch_eq_zero (board : BoardState) (rack : Rack)
    (hnone : ∀ t ∈ rack.getTiles, ∀ x y, board.isAdjacent x y = true →
      (board.insertTile t x y).isValidBoard = false) :
    computerTurnSearch board rack = ⟨board, rack, 0⟩ := by
  rw [computerTurnSearch_eq]
  apply foldl_eq_init
  intro x _
  apply foldl_eq_init
  intro y _
  unfold anchorStep
  rw [bestMove_eq_zero board rack x y (fun t ht => hnone t ht x y)]
  simp

theorem BoardState.mem_cells (b : BoardState) (p : Int × Int) :
    p ∈ b.cells ↔ b.minx_ ≤ p.1 ∧ p.1 < b.maxx_ ∧ b.miny_ ≤ p.2 ∧ p.2 < b.maxy_ := by
  simp only [BoardState.cells, Finset.mem_product, Finset.mem_Ico]
  tauto

theorem newTileAt_of_not_mem (b b' : BoardState) (p : Int × Int) (h : p ∉ b'.cells) :
    newTileAt b b' p = 0 := by
  have : b'.getTile p.1 p.2 = none := by
    rw [BoardState.getTile_eq, if_neg]
    rwa [BoardState.mem_cells] at h
  unfold newTileAt
  rw [this]; simp

theorem newTiles_eq_sum (b b' : BoardState) (S : Finset (Int × Int)) (h : b'.cells ⊆ S) :
    newTiles b b' = ∑ p ∈ S, newTileAt b b' p := by
  unfold newTiles
  exact Finset.sum_subset h (fun p _ hp => newTileAt_of_not_mem b b' p hp)

theorem newTiles_self (b : BoardState) : newTiles b b = 0 := by
  unfold newTiles
  apply Finset.sum_eq_zero
  intro p _
  unfold newTileAt
  split
  · next h =>
    rw [(b.getTile_eq_none_iff p.1 p.2).2 h]
  · rfl

theorem newTiles_trans (b b' b'' : BoardState) (h1 : Keeps b b') (h2 : Keeps b' b'') :
    newTiles b b'' = newTiles b b' + newTiles b' b'' := by
  rw [newTiles_eq_sum b b'' (b'.cells ∪ b''.cells) Finset.subset_union_right,
    newTiles_eq_sum b b' (b'.cells ∪ b''.cells) Finset.subset_union_left,
    newTiles_eq_sum b' b'' (b'.cells ∪ b''.cells) Finset.subset_union_right,
    ← Finset.sum_add_distrib]
  apply Finset.sum_congr rfl
  intro p _
  unfold newTileAt
  cases hb : b.getTile p.1 p.2 with
  | some t =>
    have e1 : b.isEmpty p.1 p.2 = false := by rw [b.isEmpty_eq_isNone_getTile, hb]; rfl
    have e2 : b'.isEmpty p.1 p.2 = false := by
      rw [b'.isEmpty_eq_isNone_getTile, h1 _ _ _ hb]; rfl
    simp [e1, e2]
  | none =>
    have e1 : b.isEmpty p.1 p.2 = true := by rw [b.isEmpty_eq_isNone_getTile, hb]; rfl
    cases hb' : b'.getTile p.1 p.2 with
    | some t =>
      have e2 : b'.isEmpty p.1 p.2 = false := by rw [b'.isEmpty_eq_isNone_getTile, hb']; rfl
      simp [e1, e2, h2 _ _ _ hb']
    | none =>
      have e2 : b'.isEmpty p.1 p.2 = true := by rw [b'.isEmpty_eq_isNone_getTile, hb']; rfl
      simp [e1, e2]

theorem Keeps.refl (b : BoardState) : Keeps b b := fun _ _ _ h => h

theorem Keeps.trans {b b' b'' : BoardState} (h1 : Keeps b b') (h2 : Keeps b' b'') :
    Keeps b b'' := fun x y t h => h2 x y t (h1 x y t h)

theorem keeps_insertTile (b : BoardState) (hwf : b.WF) (t : Tile) (x y : Int)
    (hemp : b.isEmpty x y = true) : Keeps b (b.insertTile t x y) := by
  intro x' y' t' h
  rw [(b.insertTile_spec hwf t x y).2]
  split
  · next heq =>
    obtain ⟨rfl, rfl⟩ := heq
    rw [(b.getTile_eq_none_iff x' y').2 hemp] at h
    exact absurd h (by simp)
  · exact h

theorem newTiles_insertTile (b : BoardState) (hwf : b.WF) (t : Tile) (x y : Int)
    (hemp : b.isEmpty x y = true) : newTiles b (b.insertTile t x y) = {t} := by
  have hspec := (b.insertTile_spec hwf t x y).2
  have hmem : (x, y) ∈ (b.insertTile t x y).cells := by
    rw [BoardState.mem_cells]
    apply BoardState.inBounds_of_not_isEmpty
    rw [b.isEmpty_insertTile hwf]; simp
  unfold newTiles
  rw [Finset.sum_eq_single_of_mem (x, y) hmem]
  · unfold newTileAt
    simp [hemp, hspec]
  · intro p _ hne
    unfold newTileAt
    split
    · next he =>
      rw [hspec, if_neg (by rintro ⟨h1, h2⟩; exact hne (Prod.ext h1 h2)),
        (b.getTile_eq_none_iff p.1 p.2).2 he]
    · rfl

theorem extends_refl (b : BoardState) (hwf : b.WF) (r : Rack) (s : Int) :
    Extends b r ⟨b, r, s⟩ := by
  refine ⟨hwf, Keeps.refl b, ?_⟩
  simp [newTiles_self]

theorem extends_step (b : BoardState) (hwf : b.WF) (r : Rack) (t : Tile) (x y : Int)
    (hemp : b.isEmpty x y = true) (ht : t ∈ r.tiles_) (m : Move)
    (h : Extends (b.insertTile t x y) (r.removeTile t) m) : Extends b r m := by
  obtain ⟨h1, h2, h3⟩ := h
  have hk := keeps_insertTile b hwf t x y hemp
  refine ⟨h1, hk.trans h2, ?_⟩
  rw [newTiles_trans b _ _ hk h2, newTiles_insertTile b hwf t x y hemp, add_assoc, h3]
  simp only [Rack.removeTile, Rack.removeLoop_eq_erase]
  rw [Multiset.singleton_add, ← Multiset.coe_erase, Multiset.cons_erase ht]

/-- The walk of `bestMoveGivenPrefix` to the next empty cell ends on an empty
cell: the loop leaves through its condition. -/
theorem walk_isEmpty (board : BoardState) (x y dx dy : Int) (hdir : UnitDir dx dy) :
    board.isEmpty
      (whileFuel (fun p : Int × Int => !board.isEmpty p.1 p.2) (fun p => (p.1 + dx, p.2 + dy))
        ((board.maxx_ - board.minx_).toNat + (board.maxy_ - board.miny_).toNat) (x, y)).1
      (whileFuel (fun p : Int × Int => !board.isEmpty p.1 p.2) (fun p => (p.1 + dx, p.2 + dy))
        ((board.maxx_ - board.minx_).toNat + (board.maxy_ - board.miny_).toNat) (x, y)).2
      = true := by
  cases hstart : board.isEmpty x y with
  | true =>
    rw [whileFuel_of_false _ _ _ _ (by simp [hstart])]
    exact hstart
  | false =>
    have hin := board.inBounds_of_not_isEmpty x y hstart
    have hexit : ∀ μ : Int × Int → Nat,
        (∀ p : Int × Int, board.isEmpty p.1 p.2 = false → μ (p.1 + dx, p.2 + dy) < μ p) →
        μ (x, y) ≤ (board.maxx_ - board.minx_).toNat + (board.maxy_ - board.miny_).toNat →
        (fun p : Int × Int => !board.isEmpty p.1 p.2)
          (whileFuel (fun p : Int × Int => !board.isEmpty p.1 p.2)
            (fun p => (p.1 + dx, p.2 + dy))
            ((board.maxx_ - board.minx_).toNat + (board.maxy_ - board.miny_).toNat) (x, y))
          = false := by
      intro μ hdec hle
      exact whileFuel_exit (fun p : Int × Int => !board.isEmpty p.1 p.2)
        (fun p => (p.1 + dx, p.2 + dy)) (fun _ => True) μ (fun _ _ _ => trivial)
        (fun p _ hc => hdec p (by simpa using hc)) _ _ trivial hle
    have goal : ∀ μ : Int × Int → Nat,
        (∀ p : Int × Int, board.isEmpty p.1 p.2 = false → μ (p.1 + dx, p.2 + dy) < μ p) →
        μ (x, y) ≤ (board.maxx_ - board.minx_).toNat + (board.maxy_ - board.miny_).toNat → _ :=
      fun μ hdec hle => by simpa using hexit μ hdec hle
    rcases hdir with ⟨rfl, rfl⟩ | ⟨rfl, rfl⟩ | ⟨rfl, rfl⟩ | ⟨rfl, rfl⟩
    · exact goal (fun p => (board.maxx_ - p.1).toNat)
        (fun p hp => by
          have := board.inBounds_of_not_isEmpty _ _ hp
          show (board.maxx_ - (p.1 + 1)).toNat < (board.maxx_ - p.1).toNat
          omega)
        (by show (board.maxx_ - x).toNat ≤ _; omega)
    · exact goal (fun p => (p.1 + 1 - board.minx_).toNat)
        (fun p hp => by
          have := board.inBounds_of_not_isEmpty _ _ hp
          show (p.1 + -1 + 1 - board.minx_).toNat < (p.1 + 1 - board.minx_).toNat
          omega)
        (by show (x + 1 - board.minx_).toNat ≤ _; omega)
    · exact goal (fun p => (board.maxy_ - p.2).toNat)
        (fun p hp => by
          have := board.inBounds_of_not_isEmpty _ _ hp
          show (board.maxy_ - (p.2 + 1)).toNat < (board.maxy_ - p.2).toNat
          omega)
        (by show (board.maxy_ - y).toNat ≤ _; omega)
    · exact goal (fun p => (p.2 + 1 - board.miny_).toNat)
        (fun p hp => by
          have := board.inBounds_of_not_isEmpty _ _ hp
          show (p.2 + -1 + 1 - board.miny_).toNat < (p.2 + 1 - board.miny_).toNat
          omega)
        (by show (y + 1 - board.miny_).toNat ≤ _; omega)

theorem foldl_invariant_mem {α β : Type} (P : β → Prop) (f : β → α → β) (l : List α) (init : β)
    (h0 : P init) (hstep : ∀ acc a, a ∈ l → P acc → P (f acc a)) : P (l.foldl f init) := by
  induction l generalizing init with
  | nil => exact h0
  | cons a rest ih =>
    simp only [List.foldl_cons]
    exact ih _ (hstep init a (List.mem_cons_self _ _) h0)
      (fun acc a' ha' => hstep acc a' (List.mem_cons_of_mem _ ha'))

theorem bestMoveGivenPrefixAux_extends (fuel : Nat) :
    ∀ (board : BoardState) (rack : Rack) (x y : Int) (tile_locs : List (Int × Int))
      (dx dy : Int), board.WF → UnitDir dx dy →
      Extends board rack (bestMoveGivenPrefixAux fuel board rack x y tile_locs dx dy) := by
  induction fuel with
  | zero =>
    intro board rack x y tile_locs dx dy hwf _
    exact extends_refl board hwf rack _
  | succ n ih =>
    intro board rack x y tile_locs dx dy hwf hdir
    simp only [bestMoveGivenPrefixAux]
    have hemp := walk_isEmpty board x y dx dy hdir
    generalize whileFuel (fun p : Int × Int => !board.isEmpty p.1 p.2)
      (fun p => (p.1 + dx, p.2 + dy))
      ((board.maxx_ - board.minx_).toNat + (board.maxy_ - board.miny_).toNat) (x, y) = p
      at hemp ⊢
    refine foldl_invariant_mem (Extends board rack) _ _ _ (extends_refl board hwf rack _) ?_
    intro acc tile htile hacc
    split
    · have hsub := ih (board.insertTile tile p.1 p.2) (rack.removeTile tile) p.1 p.2
        (tile_locs ++ [(p.1, p.2)]) dx dy (board.insertTile_spec hwf tile p.1 p.2).1 hdir
      split
      · exact extends_step board hwf rack tile p.1 p.2 hemp htile _ hsub
      · exact hacc
    · exact hacc

theorem bestMoveGivenPrefix_extends (board : BoardState) (rack : Rack) (x y : Int)
    (tile_locs : List (Int × Int)) (dx dy : Int) (hwf : board.WF) (hdir : UnitDir dx dy) :
    Extends board rack (bestMoveGivenPrefix board rack x y tile_locs dx dy) :=
  bestMoveGivenPrefixAux_extends _ board rack x y tile_locs dx dy hwf hdir

theorem extends_ite (b : BoardState) (r : Rack) (m1 m2 : Move) (h1 : Extends b r m1)
    (h2 : Extends b r m2) : Extends b r (if m2.score > m1.score then m2 else m1) := by
  split
  · exact h2
  · exact h1

theorem bestMove_extends (board : BoardState) (rack : Rack) (x y : Int) (hwf : board.WF) :
    Extends board rack (bestMove board rack x y) := by
  rw [bestMove_eq]
  split
  · next hg =>
    have hemp : board.isEmpty x y = true := (Bool.and_eq_true _ _ ▸ hg).1
    refine foldl_invariant_mem (Extends board rack) _ _ _ (extends_refl board hwf rack _) ?_
    intro acc tile htile hacc
    unfold bestMoveStep
    simp only
    split
    · have hwf' := (board.insertTile_spec hwf tile x y).1
      have key : ∀ dx dy : Int, UnitDir dx dy → Extends board rack
          (bestMoveGivenPrefix (board.insertTile tile x y) (rack.removeTile tile) x y
            [(x, y)] dx dy) :=
        fun dx dy hdir => extends_step board hwf rack tile x y hemp htile _
          (bestMoveGivenPrefix_extends _ _ x y [(x, y)] dx dy hwf' hdir)
      exact extends_ite _ _ _ _
        (extends_ite _ _ _ _
          (extends_ite _ _ _ _
            (extends_ite _ _ _ _ hacc (key 1 0 (Or.inl ⟨rfl, rfl⟩)))
            (key (-1) 0 (Or.inr (Or.inl ⟨rfl, rfl⟩))))
          (key 0 1 (Or.inr (Or.inr (Or.inl ⟨rfl, rfl⟩)))))
        (key 0 (-1) (Or.inr (Or.inr (Or.inr ⟨rfl, rfl⟩))))
    · exact hacc
  · exact extends_refl board hwf rack 0

/-! ## The representation invariant on reachable boards -/

theorem BoardState.WF_empty : BoardState.empty.WF := by decide

theorem Reachable.wf {b : BoardState} (h : Reachable b) : b.WF := by
  induction h with
  | empty => exact BoardState.WF_empty
  | insert b t x y _ ih => exact (b.insertTile_spec ih t x y).1

/-! ## Facts about the sample positions -/

set_option maxRecDepth 100000 in
theorem boardOne_eq : boardOne = ⟨0, 1, 0, 1, [[some ⟨.red, .circle⟩]]⟩ := by decide

theorem boardOne_wf : boardOne.WF := (Reachable.insert _ _ _ _ Reachable.empty).wf

set_option maxRecDepth 100000 in
theorem boardOne_adjacent : boardOne.isAdjacent 1 0 = true := by decide

set_option maxRecDepth 100000 in
theorem boardOne_insert_valid :
    (boardOne.insertTile ⟨.red, .x⟩ 1 0).isValidBoard = true := by decide

theorem boardOne_hasLegalSingle : HasLegalSingle boardOne rackX :=
  ⟨⟨.red, .x⟩, List.mem_singleton.2 rfl, 1, 0, boardOne_adjacent, boardOne_insert_valid⟩

set_option maxRecDepth 100000 in
theorem boardOne_occupied : boardOne.isEmpty 0 0 = false := by decide

set_option maxRecDepth 100000 in
theorem boardOne_isolated :
    boardOne.isEmpty (0 - 1) 0 = true ∧ boardOne.isEmpty (0 + 1) 0 = true ∧
      boardOne.isEmpty 0 (0 - 1) = true ∧ boardOne.isEmpty 0 (0 + 1) = true := by decide

set_option maxRecDepth 100000 in
theorem boardComb_eq :
    boardComb = ⟨-2, 3, -1, 1,
      [[some ⟨.cyan, .circle⟩, some ⟨.yellow, .circle⟩, some ⟨.red, .circle⟩,
        some ⟨.green, .circle⟩, some ⟨.blue, .circle⟩],
       [some ⟨.cyan, .cross⟩, none, some ⟨.red, .cross⟩, none, some ⟨.blue, .cross⟩]]⟩ := by
  decide

set_option maxRecDepth 100000 in
theorem boardComb_valid : boardComb.isValidBoard = true := by decide

set_option maxRecDepth 100000 in
theorem boardComb_placement_cells :
    boardComb.isEmpty (-1) 1 = true ∧ boardComb.isEmpty 0 1 = true ∧
      boardComb.isEmpty 1 1 = true ∧ boardComb.isAdjacent 0 1 = true := by decide

set_option maxRecDepth 100000 in
theorem boardCombPlaced_valid : boardCombPlaced.isValidBoard = true := by decide

set_option maxRecDepth 100000 in
theorem boardCombPlaced_score :
    scoreMove boardCombPlaced [(-1, 1), (0, 1), (1, 1)] true = 6 := by decide

set_option maxRecDepth 100000 in
theorem boardComb_search_score : (computerTurnSearch boardComb rackRed).score = 5 := by decide

set_option maxRecDepth 100000 in
theorem boardComb_bestMove_score : (bestMove boardComb rackRed 0 1).score = 5 := by decide

set_option maxRecDepth 100000 in
theorem boardComb_search_score_six :
    (computerTurnSearch boardComb rackRedSix).score = 5 := by decide

/-! ## Consequences of word validity -/

theorem length_le_six_of_nodup_shapes (l : List Shape) (h : l.Nodup) : l.length ≤ 6 := by
  have h1 : (l.map Shape.toNat).Nodup :=
    List.Nodup.map (fun a b hab => shape_toNat_inj hab) h
  have h2 : l.map Shape.toNat ⊆ List.range 6 := by
    intro n hn
    obtain ⟨s, _, rfl⟩ := List.mem_map.1 hn
    exact List.mem_range.2 (shape_toNat_lt s)
  have := (h1.subperm h2).length_le
  simpa using this

theorem length_le_six_of_nodup_colors (l : List Color) (h : l.Nodup) : l.length ≤ 6 := by
  have h1 : (l.map Color.toNat).Nodup :=
    List.Nodup.map (fun a b hab => color_toNat_inj hab) h
  have h2 : l.map Color.toNat ⊆ List.range 6 := by
    intro n hn
    obtain ⟨s, _, rfl⟩ := List.mem_map.1 hn
    exact List.mem_range.2 (color_toNat_lt s)
  have := (h1.subperm h2).length_le
  simpa using this

theorem validWord_nodup_length (w : List Tile) (h : validWord w = true) :
    w.Nodup ∧ w.length ≤ 6 := by
  cases w with
  | nil => exact ⟨List.nodup_nil, by simp⟩
  | cons first rest =>
    rcases (validWord_iff_spec _ (List.cons_ne_nil first rest)).1 h with ⟨_, hn⟩ | ⟨_, hn⟩
    · refine ⟨List.Nodup.of_map _ hn, ?_⟩
      have := length_le_six_of_nodup_shapes _ hn
      simpa using this
    · refine ⟨List.Nodup.of_map _ hn, ?_⟩
      have := length_le_six_of_nodup_colors _ hn
      simpa using this

theorem BoardState.run_length_le_six (b : BoardState) (hv : b.isValidBoard = true)
    (x y : Int) (horiz : Bool) (a c : Int) (hrun : IsRun (lineEmpty b x y horiz) a c) :
    c - a ≤ 6 := by
  have hlen : ∀ f : Int → Option Tile, (∀ i, a ≤ i → i < c → (f i).isNone = false) →
      validWord ((intRange a c).filterMap f) = true → c - a ≤ 6 := by
    intro f hocc hvw
    have h1 := (validWord_nodup_length _ hvw).2
    rw [filterMap_intRange_length f a c (le_of_lt hrun.1) hocc] at h1
    omega
  cases horiz with
  | true =>
    exact hlen (fun i => b.getTile i y)
      (fun i h1 h2 => by rw [← b.isEmpty_eq_isNone_getTile]; exact hrun.2.1 i h1 h2)
      ((b.isValidBoard_iff.1 hv).1 y a c hrun)
  | false =>
    exact hlen (fun j => b.getTile x j)
      (fun i h1 h2 => by rw [← b.isEmpty_eq_isNone_getTile]; exact hrun.2.1 i h1 h2)
      ((b.isValidBoard_iff.1 hv).2 x a c hrun)

theorem scoreWord_values (b : BoardState) (hv : b.isValidBoard = true) (x y : Int)
    (horiz : Bool) : scoreWord b x y horiz ∈ ({0, 1, 2, 3, 4, 5, 12} : Set Int) := by
  obtain ⟨a, c, _, hac, _, hocc, hpre, hpost, hs⟩ := scoreWord_walk b x y horiz
  have hle : c - a ≤ 6 := by
    rcases lt_or_eq_of_le hac with hlt | heq
    · exact b.run_length_le_six hv x y horiz a c ⟨hlt, hocc, hpre, hpost⟩
    · omega
  rw [hs]
  simp only [Set.mem_insert_iff, Set.mem_singleton_iff]
  split <;> omega

/-! ## Validity is inherited by smaller boards -/

theorem validWord_of_sublist (s w : List Tile) (hs : s.Sublist w) (hw : validWord w = true) :
    validWord s = true := by
  cases s with
  | nil => rfl
  | cons first rest =>
    have hne : w ≠ [] := by
      intro h; rw [h] at hs; exact absurd (List.sublist_nil.1 hs) (List.cons_ne_nil _ _)
    rw [validWord_iff_spec _ (List.cons_ne_nil first rest)]
    rcases (validWord_iff_spec w hne).1 hw with ⟨h1, h2⟩ | ⟨h1, h2⟩
    · exact Or.inl ⟨fun a ha b hb => h1 a (hs.subset ha) b (hs.subset hb),
        h2.sublist (hs.map _)⟩
    · exact Or.inr ⟨fun a ha b hb => h1 a (hs.subset ha) b (hs.subset hb),
        h2.sublist (hs.map _)⟩

theorem intRange_append {lo mid hi : Int} (h1 : lo ≤ mid) (h2 : mid ≤ hi) :
    intRange lo hi = intRange lo mid ++ intRange mid hi := by
  have : ∀ n : Nat, ∀ hi : Int, (hi - mid).toNat = n → mid ≤ hi →
      intRange lo hi = intRange lo mid ++ intRange mid hi := by
    intro n
    induction n with
    | zero =>
      intro hi hn hle
      have : hi = mid := by omega
      rw [this, intRange_self, List.append_nil]
    | succ n ih =>
      intro hi hn hle
      have e : hi = (hi - 1) + 1 := by ring
      rw [e, intRange_succ_right (by omega), intRange_succ_right (by omega),
        ih (hi - 1) (by omega) (by omega), List.append_assoc]
  exact this _ hi rfl h2

theorem sub_run_valid (f f' : Int → Option Tile) (a c a' c' : Int) (h1 : a' ≤ a) (h2 : a ≤ c)
    (h3 : c ≤ c') (hsame : ∀ i, a ≤ i → i < c → f i = f' i)
    (hv : validWord ((intRange a' c').filterMap f') = true) :
    validWord ((intRange a c).filterMap f) = true := by
  have e1 : (intRange a c).filterMap f = (intRange a c).filterMap f' := by
    apply List.filterMap_congr
    intro i hi
    exact hsame i (mem_intRange.1 hi).1 (mem_intRange.1 hi).2
  rw [e1]
  apply validWord_of_sublist _ _ _ hv
  rw [intRange_append h1 (le_trans h2 h3), intRange_append h2 h3, List.filterMap_append,
    List.filterMap_append]
  exact List.sublist_append_of_sublist_right (List.sublist_append_left _ _)

/-- A board whose tiles all sit, on the same cells, on a valid board is valid. -/
theorem isValidBoard_of_keeps (b b' : BoardState) (hk : Keeps b b')
    (hv : b'.isValidBoard = true) : b.isValidBoard = true := by
  have hocc : ∀ x y, b.isEmpty x y = false →
      b'.isEmpty x y = false ∧ b.getTile x y = b'.getTile x y := by
    intro x y h
    obtain ⟨t, ht⟩ := b.getTile_isSome_of_not_isEmpty x y h
    have := hk x y t ht
    exact ⟨by rw [b'.isEmpty_eq_isNone_getTile, this]; rfl, by rw [ht, this]⟩
  rw [b.isValidBoard_iff]
  rw [b'.isValidBoard_iff] at hv
  constructor
  · intro y a c hrun
    obtain ⟨r1, r2, r3, r4⟩ := hrun
    obtain ⟨a', c', hrun', ha', hc', _⟩ := scoreWord_run b' a y true (hocc a y (r2 a (le_refl _) r1)).1
    have ha'' : a' ≤ a := ha'
    have hc'' : a < c' := hc'
    have hcc : c ≤ c' := by
      by_contra hcon
      have h := (hocc c' y (r2 c' (by omega) (by omega))).1
      have h' : b'.isEmpty c' y = true := hrun'.2.2.2
      rw [h] at h'; exact absurd h' (by decide)
    exact sub_run_valid (fun i => b.getTile i y) (fun i => b'.getTile i y) a c a' c' ha''
      (le_of_lt r1) hcc (fun i hi1 hi2 => (hocc i y (r2 i hi1 hi2)).2) (hv.1 y a' c' hrun')
  · intro x a c hrun
    obtain ⟨r1, r2, r3, r4⟩ := hrun
    obtain ⟨a', c', hrun', ha', hc', _⟩ := scoreWord_run b' x a false (hocc x a (r2 a (le_refl _) r1)).1
    have ha'' : a' ≤ a := ha'
    have hc'' : a < c' := hc'
    have hcc : c ≤ c' := by
      by_contra hcon
      have h := (hocc x c' (r2 c' (by omega) (by omega))).1
      have h' : b'.isEmpty x c' = true := hrun'.2.2.2
      rw [h] at h'; exact absurd h' (by decide)
    exact sub_run_valid (fun j => b.getTile x j) (fun j => b'.getTile x j) a c a' c' ha''
      (le_of_lt r1) hcc (fun i hi1 hi2 => (hocc x i (r2 i hi1 hi2)).2) (hv.2 x a' c' hrun')

theorem isValidBoard_of_insertAll (l : List (Tile × Int × Int)) :
    ∀ b : BoardState, b.WF → IntoEmpty b l → (insertAll b l).isValidBoard = true →
      b.isValidBoard = true := by
  induction l with
  | nil => intro b _ _ h; exact h
  | cons p rest ih =>
    obtain ⟨t, x, y⟩ := p
    intro b hwf hinto hv
    have h1 := ih (b.insertTile t x y) (b.insertTile_spec hwf t x y).1 hinto.2 hv
    exact isValidBoard_of_keeps b _ (keeps_insertTile b hwf t x y hinto.1) h1

/-! ## The cells a move fills -/

theorem filled_self (b : BoardState) : Filled b b [] := by
  intro p
  constructor
  · intro h; exact absurd h (List.not_mem_nil _)
  · rintro ⟨h1, h2⟩; rw [h1] at h2; exact absurd h2 (by decide)

theorem isEmpty_of_keeps (b0 b : BoardState) (hk : Keeps b0 b) (x y : Int)
    (h : b.isEmpty x y = true) : b0.isEmpty x y = true := by
  by_contra hcon
  have hcon' : b0.isEmpty x y = false := by simpa using hcon
  obtain ⟨t, ht⟩ := b0.getTile_isSome_of_not_isEmpty x y hcon'
  have := hk x y t ht
  rw [(b.getTile_eq_none_iff x y).2 h] at this
  exact absurd this (by simp)

theorem occupied_of_keeps (b b' : BoardState) (hk : Keeps b b') (x y : Int)
    (h : b.isEmpty x y = false) : b'.isEmpty x y = false := by
  obtain ⟨t, ht⟩ := b.getTile_isSome_of_not_isEmpty x y h
  rw [b'.isEmpty_eq_isNone_getTile, hk x y t ht]; rfl

theorem filled_insertTile (b0 b : BoardState) (hwf : b.WF) (hk : Keeps b0 b)
    (locs : List (Int × Int)) (hf : Filled b0 b locs) (t : Tile) (x y : Int)
    (hemp : b.isEmpty x y = true) : Filled b0 (b.insertTile t x y) (locs ++ [(x, y)]) := by
  intro p
  rw [b.isEmpty_insertTile hwf, List.mem_append, List.mem_singleton, hf p]
  by_cases hp : p = (x, y)
  · subst hp
    simp only [and_self, if_true, or_true, and_true, true_iff]
    exact isEmpty_of_keeps b0 b hk x y hemp
  · have : ¬ (p.1 = x ∧ p.2 = y) := fun h => hp (Prod.ext h.1 h.2)
    simp [this, hp]

theorem nodup_filled_append (b0 b : BoardState) (locs : List (Int × Int))
    (hn : locs.Nodup) (hf : Filled b0 b locs) (x y : Int) (hemp : b.isEmpty x y = true) :
    (locs ++ [(x, y)]).Nodup := by
  rw [List.nodup_append]
  refine ⟨hn, List.nodup_singleton _, ?_⟩
  intro p hp hp'
  rw [List.mem_singleton] at hp'
  subst hp'
  have := ((hf (x, y)).1 hp).2
  rw [hemp] at this
  exact absurd this (by decide)

/-! ## A move that touches the board scores at least two -/

theorem lineEmpty_congr (b : BoardState) (x y x' y' : Int) (horiz : Bool)
    (h : linePos x y (!horiz) = linePos x' y' (!horiz)) :
    lineEmpty b x y horiz = lineEmpty b x' y' horiz := by
  cases horiz with
  | true =>
    have : y = y' := h
    subst this; rfl
  | false =>
    have : x = x' := h
    subst this; rfl

theorem scoreWord_ge_two_of_touches (b : BoardState) (p : Int × Int)
    (hocc : b.isEmpty p.1 p.2 = false) (ht : Touches b p) :
    ∃ axis : Bool, 2 ≤ scoreWord b p.1 p.2 axis := by
  rcases ht with h | h | h | h
  · exact ⟨true, scoreWord_ge_two b p.1 p.2 true hocc (Or.inl h)⟩
  · exact ⟨false, scoreWord_ge_two b p.1 p.2 false hocc (Or.inl h)⟩
  · exact ⟨true, scoreWord_ge_two b p.1 p.2 true hocc (Or.inr h)⟩
  · exact ⟨false, scoreWord_ge_two b p.1 p.2 false hocc (Or.inr h)⟩

theorem sum_secondary_ge (g : Int × Int → Int) (l : List (Int × Int)) (p : Int × Int)
    (hp : p ∈ l) (hnn : ∀ q, 0 ≤ g q) (hg : 2 ≤ g p) :
    2 ≤ (l.map (fun i => if g i > 1 then g i else 0)).sum := by
  induction l with
  | nil => exact absurd hp (List.not_mem_nil _)
  | cons q rest ih =>
    simp only [List.map_cons, List.sum_cons]
    have hrest : 0 ≤ (rest.map (fun i => if g i > 1 then g i else 0)).sum := by
      apply List.sum_nonneg
      intro v hv
      obtain ⟨i, _, rfl⟩ := List.mem_map.1 hv
      have := hnn i
      split <;> omega
    have hq : 0 ≤ (if g q > 1 then g q else 0) := by
      have := hnn q
      split <;> omega
    rcases List.mem_cons.1 hp with h | h
    · subst h
      rw [if_pos (by omega)]; omega
    · have := ih h
      omega

theorem scoreMove_ge_two (b : BoardState) (locs : List (Int × Int)) (horiz : Bool)
    (hrun : InOneRun b locs horiz) (ht : ∃ p ∈ locs, Touches b p) :
    2 ≤ scoreMove b locs horiz := by
  obtain ⟨p, hp, htp⟩ := ht
  obtain ⟨x0, y0, a, c, hr, hall⟩ := hrun
  cases locs with
  | nil => exact absurd hp (List.not_mem_nil _)
  | cons first rest =>
    rw [scoreMove_cons]
    have hocc : ∀ q ∈ first :: rest, b.isEmpty q.1 q.2 = false ∧
        scoreWord b q.1 q.2 horiz = if c - a = 6 then 12 else c - a := by
      intro q hq
      obtain ⟨h1, h2, h3⟩ := hall q hq
      have hr' : IsRun (lineEmpty b q.1 q.2 horiz) a c := by
        rw [lineEmpty_congr b q.1 q.2 x0 y0 horiz h1]; exact hr
      refine ⟨?_, scoreWord_of_run b q.1 q.2 horiz a c hr' ⟨h2, h3⟩⟩
      rw [← lineEmpty_linePos b q.1 q.2 horiz]
      exact hr'.2.1 _ h2 h3
    have hsum0 : 0 ≤ ((first :: rest).map (fun i =>
        if scoreWord b i.1 i.2 (!horiz) > 1 then scoreWord b i.1 i.2 (!horiz) else 0)).sum := by
      apply List.sum_nonneg
      intro v hv
      obtain ⟨i, _, rfl⟩ := List.mem_map.1 hv
      have := scoreWord_nonneg b i.1 i.2 (!horiz)
      split <;> omega
    have hprim0 := scoreWord_nonneg b first.1 first.2 horiz
    obtain ⟨axis, hax⟩ := scoreWord_ge_two_of_touches b p (hocc p hp).1 htp
    by_cases hsame : axis = horiz
    · subst hsame
      have e1 := (hocc p hp).2
      have e2 := (hocc first (List.mem_cons_self _ _)).2
      have : 2 ≤ scoreWord b first.1 first.2 axis := by rw [e2, ← e1]; exact hax
      rw [if_pos (by omega)]
      omega
    · have hne : axis = !horiz := by
        cases axis <;> cases horiz <;> simp_all
      subst hne
      have hsum : 2 ≤ ((first :: rest).map (fun i =>
          if scoreWord b i.1 i.2 (!horiz) > 1 then scoreWord b i.1 i.2 (!horiz) else 0)).sum :=
        sum_secondary_ge (fun i => scoreWord b i.1 i.2 (!horiz)) (first :: rest) p hp
          (fun q => scoreWord_nonneg b q.1 q.2 (!horiz)) hax
      have hp0 : 0 ≤ (if scoreWord b first.1 first.2 horiz > 1 then
          scoreWord b first.1 first.2 horiz else 0) := by
        split <;> omega
      omega

/-! ## The placing loop of `runCmd` -/

/-- The loop of `runCmd` that skips occupied cells, on a line `mk` with coordinate
`pos`: it stops on an empty cell of the line, having passed occupied cells only. -/
theorem skip_spec (nb : BoardState) (body : Int × Int → Int × Int) (mk : Int → Int × Int)
    (pos : Int × Int → Int) (hpos : ∀ k, pos (mk k) = k) (hbody : ∀ k, body (mk k) = mk (k + 1))
    (lo hi : Int) (fuel : Nat) (hfuel : (hi - lo).toNat ≤ fuel)
    (hbound : ∀ k, nb.isEmpty (mk k).1 (mk k).2 = false → lo ≤ k ∧ k < hi) (k0 : Int) :
    ∃ k1, whileFuel (fun p : Int × Int => !nb.isEmpty p.1 p.2) body fuel (mk k0) = mk k1 ∧
      k0 ≤ k1 ∧ (∀ i, k0 ≤ i → i < k1 → nb.isEmpty (mk i).1 (mk i).2 = false) ∧
      nb.isEmpty (mk k1).1 (mk k1).2 = true := by
  cases hstart : nb.isEmpty (mk k0).1 (mk k0).2 with
  | true =>
    refine ⟨k0, whileFuel_of_false _ _ _ _ (by simp [hstart]), le_refl _,
      fun i h1 h2 => by omega, hstart⟩
  | false =>
    have hin := hbound k0 hstart
    have hinv := whileFuel_invariant (fun p : Int × Int => !nb.isEmpty p.1 p.2) body
      (fun s => ∃ k, s = mk k ∧ k0 ≤ k ∧ ∀ i, k0 ≤ i → i < k → nb.isEmpty (mk i).1 (mk i).2 = false)
      (fun s hs hc => by
        obtain ⟨k, rfl, h1, h2⟩ := hs
        have hc' : nb.isEmpty (mk k).1 (mk k).2 = false := by simpa using hc
        refine ⟨k + 1, hbody k, by omega, fun i hi1 hi2 => ?_⟩
        by_cases hik : i = k
        · rw [hik]; exact hc'
        · exact h2 i hi1 (by omega))
      fuel (mk k0) ⟨k0, rfl, le_refl _, fun i h1 h2 => by omega⟩
    have hexit := whileFuel_exit (fun p : Int × Int => !nb.isEmpty p.1 p.2) body
      (fun s => ∃ k, s = mk k) (fun s => (hi - pos s).toNat)
      (fun s hs _ => by obtain ⟨k, rfl⟩ := hs; exact ⟨k + 1, hbody k⟩)
      (fun s hs hc => by
        obtain ⟨k, rfl⟩ := hs
        have hc' : nb.isEmpty (mk k).1 (mk k).2 = false := by simpa using hc
        have := hbound k hc'
        show (hi - pos (body (mk k))).toNat < (hi - pos (mk k)).toNat
        rw [hbody, hpos, hpos]; omega)
      fuel (mk k0) ⟨k0, rfl⟩ (by show (hi - pos (mk k0)).toNat ≤ fuel; rw [hpos]; omega)
    obtain ⟨k1, hk1, h1, h2⟩ := hinv
    refine ⟨k1, hk1, h1, h2, ?_⟩
    rw [hk1] at hexit
    simpa using hexit

theorem touches_of_keeps (b b' : BoardState) (hk : Keeps b b') (q : Int × Int)
    (h : Touches b q) : Touches b' q := by
  rcases h with h | h | h | h
  · exact Or.inl (occupied_of_keeps b b' hk _ _ h)
  · exact Or.inr (Or.inl (occupied_of_keeps b b' hk _ _ h))
  · exact Or.inr (Or.inr (Or.inl (occupied_of_keeps b b' hk _ _ h)))
  · exact Or.inr (Or.inr (Or.inr (occupied_of_keeps b b' hk _ _ h)))

theorem placeStep_inv (board : BoardState) (horiz : Bool) (mk : Int → Int × Int)
    (pos : Int × Int → Int) (hpos : ∀ k, pos (mk k) = k)
    (hbody : ∀ k, (fun p : Int × Int => if horiz then (p.1 + 1, p.2) else (p.1, p.2 + 1)) (mk k) =
      mk (k + 1))
    (hbound : ∀ nb : BoardState, ∃ lo hi,
      (hi - lo).toNat ≤ (nb.maxx_ - nb.minx_).toNat + (nb.maxy_ - nb.miny_).toNat ∧
      ∀ k, nb.isEmpty (mk k).1 (mk k).2 = false → lo ≤ k ∧ k < hi)
    (s : PlaceState) (tile : Tile) (hs : PlaceInv board mk s) :
    PlaceInv board mk (placeStep board horiz s tile) := by
  obtain ⟨hwf, hk, k0, hcur, hlocs, hadj⟩ := hs
  obtain ⟨lo, hi, hfuel, hb⟩ := hbound s.newboard
  obtain ⟨k1, hk1, hle, hocc, hemp⟩ := skip_spec s.newboard
    (fun p : Int × Int => if horiz then (p.1 + 1, p.2) else (p.1, p.2 + 1)) mk pos hpos hbody
    lo hi _ hfuel hb k0
  unfold placeStep
  rw [hcur, hk1]
  simp only
  have hkeep := keeps_insertTile s.newboard hwf tile (mk k1).1 (mk k1).2 hemp
  have hnew : (s.newboard.insertTile tile (mk k1).1 (mk k1).2).isEmpty (mk k1).1 (mk k1).2
      = false := by
    rw [s.newboard.isEmpty_insertTile hwf]; simp
  refine ⟨(s.newboard.insertTile_spec hwf tile _ _).1, hk.trans hkeep, k1, rfl, Or.inr ?_, ?_⟩
  · rcases hlocs with hnil | ⟨l0, hl0, hcells, hmem⟩
    · refine ⟨k1, le_refl _, fun i h1 h2 => ?_, fun q hq => ?_⟩
      · have : i = k1 := by omega
        rw [this]; exact hnew
      · rw [hnil, List.nil_append, List.mem_singleton] at hq
        exact ⟨k1, hq, le_refl _, le_refl _⟩
    · refine ⟨l0, by omega, fun i h1 h2 => ?_, fun q hq => ?_⟩
      · by_cases hik : i = k1
        · rw [hik]; exact hnew
        · apply occupied_of_keeps _ _ hkeep
          by_cases hi0 : i ≤ k0
          · exact hcells i h1 hi0
          · exact hocc i (by omega) (by omega)
      · rcases List.mem_append.1 hq with hq | hq
        · obtain ⟨j, hj, hj1, hj2⟩ := hmem q hq
          exact ⟨j, hj, hj1, by omega⟩
        · rw [List.mem_singleton] at hq
          exact ⟨k1, hq, by omega, le_refl _⟩
  · intro hadj'
    by_cases hA : board.isAdjacent (mk k1).1 (mk k1).2 = true
    · have ht : Touches board (mk k1) := ((board.isAdjacent_iff _ _).1 hA).2
      exact ⟨mk k1, List.mem_append_right _ (List.mem_singleton.2 rfl),
        touches_of_keeps _ _ (hk.trans hkeep) _ ht⟩
    · rw [if_neg hA] at hadj'
      obtain ⟨q, hq, ht⟩ := hadj hadj'
      exact ⟨q, List.mem_append_left _ hq, touches_of_keeps _ _ hkeep _ ht⟩

theorem placeLoop_inv (board : BoardState) (hwf : board.WF) (horiz : Bool)
    (mk : Int → Int × Int) (pos : Int × Int → Int) (hpos : ∀ k, pos (mk k) = k)
    (hbody : ∀ k, (fun p : Int × Int => if horiz then (p.1 + 1, p.2) else (p.1, p.2 + 1)) (mk k) =
      mk (k + 1))
    (hbound : ∀ nb : BoardState, ∃ lo hi,
      (hi - lo).toNat ≤ (nb.maxx_ - nb.minx_).toNat + (nb.maxy_ - nb.miny_).toNat ∧
      ∀ k, nb.isEmpty (mk k).1 (mk k).2 = false → lo ≤ k ∧ k < hi)
    (tiles : List Tile) (x y : Int) (hstart : ∃ k, (x, y) = mk k) :
    PlaceInv board mk (tiles.foldl (placeStep board horiz) ⟨board, x, y, false, []⟩) := by
  refine foldl_invariant_mem (PlaceInv board mk) _ _ _ ?_
    (fun acc tile _ hacc => placeStep_inv board horiz mk pos hpos hbody hbound acc tile hacc)
  obtain ⟨k, hk⟩ := hstart
  exact ⟨hwf, Keeps.refl board, k, hk, Or.inl rfl, fun h => absurd h Bool.false_ne_true⟩

/-- At the end of the placing loop the placed positions lie in one run of the
line, and `adjacent` is only set when one of them touches a tile. -/
theorem placeInv_final (board : BoardState) (horiz : Bool) (mk : Int → Int × Int)
    (hline : ∀ (nb : BoardState) (i j : Int),
      lineEmpty nb (mk i).1 (mk i).2 horiz j = nb.isEmpty (mk j).1 (mk j).2)
    (hlp : ∀ i, linePos (mk i).1 (mk i).2 horiz = i)
    (hcross : ∀ i j, linePos (mk i).1 (mk i).2 (!horiz) = linePos (mk j).1 (mk j).2 (!horiz))
    (s : PlaceState) (hs : PlaceInv board mk s) (hadj : s.adjacent = true) :
    InOneRun s.newboard s.tile_locs horiz ∧ ∃ p ∈ s.tile_locs, Touches s.newboard p := by
  obtain ⟨_, _, k, _, hlocs, hadj'⟩ := hs
  obtain ⟨q, hq, ht⟩ := hadj' hadj
  refine ⟨?_, q, hq, ht⟩
  rcases hlocs with hnil | ⟨lo, hlo, hcells, hmem⟩
  · rw [hnil] at hq; exact absurd hq (List.not_mem_nil _)
  · have hocc : s.newboard.isEmpty (mk lo).1 (mk lo).2 = false := hcells lo (le_refl _) hlo
    obtain ⟨a, c, hrun, ha, hc, _⟩ := scoreWord_run s.newboard (mk lo).1 (mk lo).2 horiz hocc
    rw [hlp] at ha hc
    have hkc : k < c := by
      by_contra hcon
      have h1 := hcells c (by omega) (by omega)
      have h2 := hrun.2.2.2
      rw [hline] at h2
      rw [h1] at h2; exact absurd h2 (by decide)
    refine ⟨(mk lo).1, (mk lo).2, a, c, hrun, fun p hp => ?_⟩
    obtain ⟨j, rfl, hj1, hj2⟩ := hmem p hp
    refine ⟨hcross j lo, ?_, ?_⟩ <;> rw [hlp] <;> omega

theorem runCmdPlay_inv (board : BoardState) (hwf : board.WF) (tiles : List Tile) (x y : Int)
    (horiz : Bool) (hadj : (tiles.foldl (placeStep board horiz) ⟨board, x, y, false, []⟩).adjacent
      = true) :
    InOneRun (tiles.foldl (placeStep board horiz) ⟨board, x, y, false, []⟩).newboard
        (tiles.foldl (placeStep board horiz) ⟨board, x, y, false, []⟩).tile_locs horiz ∧
      ∃ p ∈ (tiles.foldl (placeStep board horiz) ⟨board, x, y, false, []⟩).tile_locs,
        Touches (tiles.foldl (placeStep board horiz) ⟨board, x, y, false, []⟩).newboard p := by
  cases horiz with
  | true =>
    have hinv := placeLoop_inv board hwf true (fun i => (i, y)) (fun p => p.1) (fun _ => rfl)
      (fun _ => rfl)
      (fun nb => ⟨nb.minx_, nb.maxx_, by omega, fun k hk => by
        have := nb.inBounds_of_not_isEmpty _ _ hk
        exact ⟨this.1, this.2.1⟩⟩)
      tiles x y ⟨x, rfl⟩
    exact placeInv_final board true (fun i => (i, y)) (fun _ _ _ => rfl) (fun _ => rfl)
      (fun _ _ => rfl) _ hinv hadj
  | false =>
    have hinv := placeLoop_inv board hwf false (fun i => (x, i)) (fun p => p.2) (fun _ => rfl)
      (fun _ => rfl)
      (fun nb => ⟨nb.miny_, nb.maxy_, by omega, fun k hk => by
        have := nb.inBounds_of_not_isEmpty _ _ hk
        exact ⟨this.2.2.1, this.2.2.2⟩⟩)
      tiles x y ⟨y, rfl⟩
    exact placeInv_final board false (fun i => (x, i)) (fun _ _ _ => rfl) (fun _ => rfl)
      (fun _ _ => rfl) _ hinv hadj

theorem runCmdPlay_ne_assertionFails (board : BoardState) (hwf : board.WF) (tiles : List Tile)
    (x y : Int) (horiz first_move : Bool) :
    runCmdPlay board tiles x y horiz first_move ≠ PlayOutcome.assertionFails := by
  unfold runCmdPlay
  simp only
  split
  · next hcond =>
    split
    · next hzero =>
      cases first_move with
      | true => simp
      | false =>
        exfalso
        simp only [Bool.or_false, Bool.and_eq_true] at hcond
        obtain ⟨hrun, ht⟩ := runCmdPlay_inv board hwf tiles x y horiz hcond.2
        have := scoreMove_ge_two _ _ horiz hrun ht
        omega
    · intro h; exact PlayOutcome.noConfusion h
  · intro h; exact PlayOutcome.noConfusion h

/-! ## Command parsing -/

theorem findIf_ge (pred : Char → Bool) (cmd : List Char) (first last : Nat) :
    first ≤ findIf pred cmd first last := Nat.le_add_right _ _

theorem findIf_le (pred : Char → Bool) (cmd : List Char) (first : Nat)
    (h : first ≤ cmd.length) : findIf pred cmd first cmd.length ≤ cmd.length := by
  unfold findIf
  have : ((cmd.take cmd.length).drop first).findIdx pred ≤
      ((cmd.take cmd.length).drop first).length := List.findIdx_le_length pred
  simp only [List.length_drop, List.length_take, Nat.min_self] at this
  omega

/-- The loop of `parseCmd` never runs out of the iterations it is given. -/
theorem tileLoop_fuel (extract : List Char → Option Int) (indet : Nat → Int) (cmd : List Char)
    (rack_size : Int) (fuel : Nat) :
    ∀ (tile_string : Nat) (tile_nums : List Int), tile_string ≤ cmd.length →
      cmd.length + 1 ≤ fuel + tile_string →
      tileLoop extract indet cmd rack_size (fuel + 1) tile_string tile_nums =
        tileLoop extract indet cmd rack_size fuel tile_string tile_nums := by
  induction fuel with
  | zero => intro i nums h1 h2; omega
  | succ n ih =>
    intro i nums h1 h2
    rw [tileLoop, tileLoop]
    split
    · next hne =>
      simp only
      split
      · rfl
      · have hge := findIf_ge (fun c => c == ',') cmd (i + 1) cmd.length
        have hle := findIf_le (fun c => c == ',') cmd (i + 1) (by omega)
        exact ih _ _ hle (by omega)
    · rfl

theorem tileLoop_lt (extract : List Char → Option Int) (indet : Nat → Int) (cmd : List Char)
    (rack_size : Int) (fuel : Nat) :
    ∀ (tile_string : Nat) (tile_nums : List Int), (∀ n ∈ tile_nums, n < rack_size) →
      ∀ n ∈ (tileLoop extract indet cmd rack_size fuel tile_string tile_nums).2,
        n < rack_size := by
  induction fuel with
  | zero => intro i nums h; exact h
  | succ k ih =>
    intro i nums h
    rw [tileLoop]
    split
    · simp only
      split
      · exact h
      · next hlt =>
        apply ih
        intro n hn
        rcases List.mem_append.1 hn with hn | hn
        · exact h n hn
        · rw [List.mem_singleton.1 hn]; omega
    · exact h

/-- What `parseCmd` does check: every index it stores is below `rack_size`. -/
theorem parseCmd_lt (extract : List Char → Option Int) (indet : Nat → Int) (cmd : List Char)
    (rack_size : Int) :
    ∀ n ∈ (parseCmd extract indet cmd rack_size).tile_nums, n < rack_size := by
  have h0 : ∀ n ∈ ([] : List Int), n < rack_size := fun n hn => absurd hn (List.not_mem_nil _)
  unfold parseCmd
  split
  · exact h0
  · simp only
    split
    · exact h0
    · split
      · split
        · exact h0
        · split
          · exact h0
          · exact tileLoop_lt extract indet cmd rack_size _ _ _ h0
      · exact tileLoop_lt extract indet cmd rack_size _ _ _ h0

set_option maxRecDepth 100000 in
theorem decimalExtract_negative : decimalExtract ['-', '1'] = some (-1) := by decide

set_option maxRecDepth 100000 in
theorem parseCmd_negative (indet : Nat → Int) :
    parseCmd decimalExtract indet ['r', '-', '1'] 6 = ⟨true, some 'r', none, none, [-1]⟩ := by
  rfl

set_option maxRecDepth 100000 in
theorem decimalExtract_samples :
    decimalExtract [] = none ∧ decimalExtract [' ', ' '] = none ∧
      decimalExtract [Char.ofNat 11, '7'] = some 7 ∧ decimalExtract ['x'] = some 0 ∧
      decimalExtract ['9', '9', '9', '9', '9', '9', '9', '9', '9', '9'] = some 2147483647 := by
  decide

/-! ## More facts about the sample positions -/

set_option maxRecDepth 100000 in
theorem boardTwo_eq : boardTwo = ⟨0, 2, 0, 1, [[some ⟨.red, .circle⟩, some ⟨.red, .x⟩]]⟩ := by
  decide

set_option maxRecDepth 100000 in
theorem boardTwo_valid : boardTwo.isValidBoard = true := by decide

set_option maxRecDepth 100000 in
theorem boardTwo_score : scoreMove boardTwo [(0, 0), (1, 0)] true = 2 := by decide

set_option maxRecDepth 100000 in
theorem boardTwo_played :
    runCmdPlay BoardState.empty [⟨.red, .circle⟩, ⟨.red, .x⟩] 0 0 true true =
      PlayOutcome.played boardTwo 2 := by decide

set_option maxRecDepth 100000 in
theorem boardMixed_eq :
    boardMixed = ⟨0, 1, 0, 2, [[some ⟨.red, .circle⟩], [some ⟨.cyan, .x⟩]]⟩ := by decide

set_option maxRecDepth 100000 in
theorem boardMixed_invalid : boardMixed.isValidBoard = false := by decide

set_option maxRecDepth 100000 in
theorem boardMixed_column : validWord (boardMixed.colWord 0 0 2) = false := by decide

set_option maxRecDepth 100000 in
theorem boardOne_grow_left_up :
    (boardOne.insertTile ⟨.red, .x⟩ (-1) (-1)).getTile 0 0 = some ⟨.red, .circle⟩ ∧
      (boardOne.insertTile ⟨.red, .x⟩ (-1) (-1)).isEmpty (-1) 0 = true ∧
      (boardOne.insertTile ⟨.red, .x⟩ (-1) (-1)).isEmpty 0 (-1) = true := by decide

set_option maxRecDepth 100000 in
theorem boardOne_outside : boardOne.isEmpty 1 0 = true := by decide

set_option maxRecDepth 100000 in
theorem boardOne_valid : boardOne.isValidBoard = true := by decide

theorem boardTwo_run : IsRun (lineEmpty boardTwo 0 0 true) 0 2 := by
  rw [boardTwo_eq]
  refine ⟨by decide, fun i h1 h2 => ?_, by decide, by decide⟩
  have : i = 0 ∨ i = 1 := by omega
  rcases this with rfl | rfl <;> decide

theorem boardTwo_inOneRun : InOneRun boardTwo [(1, 0)] true :=
  ⟨0, 0, 0, 2, boardTwo_run, fun p hp => by
    rw [List.mem_singleton.1 hp]; decide⟩

theorem boardTwo_touches : ∃ p ∈ [((1 : Int), (0 : Int))], Touches boardTwo p :=
  ⟨(1, 0), List.mem_singleton.2 rfl, Or.inl (by rw [boardTwo_eq]; decide)⟩

/-! ## Indices stay within the grid -/

theorem BoardState.indexInRange_of_inBounds (b : BoardState) (hwf : b.WF) (x y : Int)
    (hin : b.minx_ ≤ x ∧ x < b.maxx_ ∧ b.miny_ ≤ y ∧ y < b.maxy_) : b.IndexInRange x y := by
  obtain ⟨_, _, h3, h4⟩ := hwf
  have hrow : (y - b.miny_).toNat < b.board_.length := by omega
  refine ⟨by omega, hrow, by omega, ?_⟩
  rw [List.getD_eq_getElem?_getD, List.getElem?_eq_getElem hrow, Option.getD_some,
    h4 _ (List.getElem_mem hrow)]
  omega

theorem BoardState.indexInRange_insertTile (b : BoardState) (hwf : b.WF) (x y : Int) :
    (b.resizeBoardToInclude x y).IndexInRange x y := by
  obtain ⟨⟨hwf', _⟩, h1, h2, h3, h4⟩ := b.resizeBoardToInclude_spec hwf x y
  exact BoardState.indexInRange_of_inBounds _ hwf' x y ⟨h1, h2, h3, h4⟩

/-! ## Termination of `bestMoveGivenPrefix` -/

theorem foldl_some {α β : Type} (f : β → α → β) (g : Option β → α → Option β) (l : List α)
    (init : β) (h : ∀ a ∈ l, ∀ acc, g (some acc) a = some (f acc a)) :
    l.foldl g (some init) = some (l.foldl f init) := by
  induction l generalizing init with
  | nil => rfl
  | cons a rest ih =>
    simp only [List.foldl_cons]
    rw [h a (List.mem_cons_self _ _) init]
    exact ih _ (fun a' ha' acc => h a' (List.mem_cons_of_mem _ ha') acc)

theorem scoreMoveChecked_eq (board : BoardState) (tile_locations : List (Int × Int))
    (horiz : Bool) (h : tile_locations ≠ []) :
    scoreMoveChecked board tile_locations horiz = some (scoreMove board tile_locations horiz) := by
  cases tile_locations with
  | nil => exact absurd rfl h
  | cons _ _ => rfl

theorem scoreMoveChecked_nil (board : BoardState) (horiz : Bool) :
    scoreMoveChecked board [] horiz = none := rfl

theorem bestMoveGivenPrefixDepth_eq (depth : Nat) :
    ∀ (board : BoardState) (rack : Rack) (x y : Int) (tile_locs : List (Int × Int))
      (dx dy : Int), tile_locs ≠ [] → rack.size < depth →
      bestMoveGivenPrefixDepth depth board rack x y tile_locs dx dy =
        some (bestMoveGivenPrefix board rack x y tile_locs dx dy) := by
  induction depth with
  | zero => intro board rack x y tile_locs dx dy _ h; omega
  | succ d ih =>
    intro board rack x y tile_locs dx dy hne h
    rw [bestMoveGivenPrefix_eq]
    simp only [bestMoveGivenPrefixDepth, scoreMoveChecked_eq _ _ _ hne]
    apply foldl_some
    intro tile htile acc
    have hsz := Rack.size_removeTile rack tile htile
    simp only
    split
    · rw [ih _ _ _ _ _ _ _ (by simp) (by omega)]
    · rfl

/-- The recursion of the model never reaches its cut-off: any depth bound of at
least the size of the rack gives the same move. -/
theorem bestMoveGivenPrefixAux_fuel (fuel : Nat) :
    ∀ (board : BoardState) (rack : Rack) (x y : Int) (tile_locs : List (Int × Int))
      (dx dy : Int), rack.size ≤ fuel →
      bestMoveGivenPrefixAux fuel board rack x y tile_locs dx dy =
        bestMoveGivenPrefix board rack x y tile_locs dx dy := by
  induction fuel with
  | zero =>
    intro board rack x y tile_locs dx dy h
    have : rack.size = 0 := by omega
    unfold bestMoveGivenPrefix
    rw [this]
  | succ n ih =>
    intro board rack x y tile_locs dx dy h
    rw [bestMoveGivenPrefix_eq]
    simp only [bestMoveGivenPrefixAux]
    apply foldl_congr_mem
    intro tile htile acc
    have hsz := Rack.size_removeTile rack tile htile
    rw [ih _ _ _ _ _ _ _ (by omega)]

theorem card_newTiles_add (board : BoardState) (rack : Rack) (m : Move)
    (h : Extends board rack m) :
    Multiset.card (newTiles board m.newboard) + m.depleted_rack.size = rack.size := by
  have := congrArg Multiset.card h.2.2
  simpa [Rack.size] using this

/-! ## The moves of the search are scored along their walk -/

/-- The walk of `bestMoveGivenPrefix` stays on the ray it starts on: it ends on
an empty cell of the ray, not before its start, and past its start when the
start is occupied. -/
theorem walk_onRay (board : BoardState) (ox oy dx dy : Int) (hdir : UnitDir dx dy) (j : Int) :
    ∃ k, whileFuel (fun p : Int × Int => !board.isEmpty p.1 p.2) (fun p => (p.1 + dx, p.2 + dy))
        ((board.maxx_ - board.minx_).toNat + (board.maxy_ - board.miny_).toNat)
        (ox + j * dx, oy + j * dy) = (ox + k * dx, oy + k * dy) ∧
      j ≤ k ∧ (board.isEmpty (ox + j * dx) (oy + j * dy) = false → j < k) ∧
      board.isEmpty (ox + k * dx) (oy + k * dy) = true := by
  have key : ∀ (pos : Int × Int → Int) (lo hi : Int),
      (∀ k, pos (ox + k * dx, oy + k * dy) = k) →
      (hi - lo).toNat ≤ (board.maxx_ - board.minx_).toNat + (board.maxy_ - board.miny_).toNat →
      (∀ k, board.isEmpty (ox + k * dx) (oy + k * dy) = false → lo ≤ k ∧ k < hi) →
      ∃ k, whileFuel (fun p : Int × Int => !board.isEmpty p.1 p.2)
          (fun p => (p.1 + dx, p.2 + dy))
          ((board.maxx_ - board.minx_).toNat + (board.maxy_ - board.miny_).toNat)
          (ox + j * dx, oy + j * dy) = (ox + k * dx, oy + k * dy) ∧
        j ≤ k ∧ (board.isEmpty (ox + j * dx) (oy + j * dy) = false → j < k) ∧
        board.isEmpty (ox + k * dx) (oy + k * dy) = true := by
    intro pos lo hi hpos hfuel hbound
    obtain ⟨k, h1, h2, _, h4⟩ :=
      skip_spec board (fun p => (p.1 + dx, p.2 + dy)) (fun k => (ox + k * dx, oy + k * dy)) pos
        hpos (fun k => by show (ox + k * dx + dx, oy + k * dy + dy) = _; congr 1 <;> ring)
        lo hi _ hfuel hbound j
    refine ⟨k, h1, h2, fun hocc => ?_, h4⟩
    rcases lt_or_eq_of_le h2 with h | h
    · exact h
    · subst h
      have h4' : board.isEmpty (ox + j * dx) (oy + j * dy) = true := h4
      rw [h4'] at hocc; exact absurd hocc (by decide)
  rcases hdir with ⟨rfl, rfl⟩ | ⟨rfl, rfl⟩ | ⟨rfl, rfl⟩ | ⟨rfl, rfl⟩
  · exact key (fun p => p.1 - ox) (board.minx_ - ox) (board.maxx_ - ox)
      (fun k => by show ox + k * 1 - ox = k; omega) (by omega)
      (fun k hk => by have := board.inBounds_of_not_isEmpty _ _ hk; omega)
  · exact key (fun p => ox - p.1) (ox - board.maxx_ + 1) (ox - board.minx_ + 1)
      (fun k => by show ox - (ox + k * -1) = k; omega) (by omega)
      (fun k hk => by have := board.inBounds_of_not_isEmpty _ _ hk; omega)
  · exact key (fun p => p.2 - oy) (board.miny_ - oy) (board.maxy_ - oy)
      (fun k => by show oy + k * 1 - oy = k; omega) (by omega)
      (fun k hk => by have := board.inBounds_of_not_isEmpty _ _ hk; omega)
  · exact key (fun p => oy - p.2) (oy - board.maxy_ + 1) (oy - board.miny_ + 1)
      (fun k => by show oy - (oy + k * -1) = k; omega) (by omega)
      (fun k hk => by have := board.inBounds_of_not_isEmpty _ _ hk; omega)

theorem bestMoveGivenPrefixAux_sound (ox oy dx dy : Int) (hdir : UnitDir dx dy) (b0 : BoardState)
    (fuel : Nat) :
    ∀ (board : BoardState) (rack : Rack) (j : Int) (tile_locs cur : List (Int × Int)),
      board.WF → board.isValidBoard = true → Keeps b0 board → cur.Nodup → Filled b0 board cur →
      SoundMove b0 tile_locs cur ox oy dx dy
        (if board.isEmpty (ox + j * dx) (oy + j * dy) then j - 1 else j)
        (bestMoveGivenPrefixAux fuel board rack (ox + j * dx) (oy + j * dy) tile_locs dx dy) := by
  induction fuel with
  | zero =>
    intro board rack j tile_locs cur _ hv _ hn hf
    exact ⟨hv, [], trivial, by simpa using hn, by simpa using hf, by simp [bestMoveGivenPrefixAux]⟩
  | succ n ih =>
    intro board rack j tile_locs cur hwf hv hk hn hf
    simp only [bestMoveGivenPrefixAux]
    obtain ⟨k, hwalk, hjk, hocc, hemp⟩ := walk_onRay board ox oy dx dy hdir j
    rw [hwalk]
    have hlb : (if board.isEmpty (ox + j * dx) (oy + j * dy) then j - 1 else j) < k := by
      cases hs : board.isEmpty (ox + j * dx) (oy + j * dy) with
      | true => simp only [if_true]; omega
      | false => simpa using hocc hs
    generalize (if board.isEmpty (ox + j * dx) (oy + j * dy) then j - 1 else j) = lb at hlb ⊢
    refine foldl_invariant_mem (SoundMove b0 tile_locs cur ox oy dx dy lb) _ _ _
      ⟨hv, [], trivial, by simpa using hn, by simpa using hf, by simp⟩ ?_
    intro acc tile _ hacc
    simp only
    split
    · next hvalid =>
      have hsub := ih (board.insertTile tile (ox + k * dx) (oy + k * dy)) (rack.removeTile tile) k
        (tile_locs ++ [(ox + k * dx, oy + k * dy)]) (cur ++ [(ox + k * dx, oy + k * dy)])
        (board.insertTile_spec hwf tile _ _).1 hvalid
        (hk.trans (keeps_insertTile board hwf tile _ _ hemp))
        (nodup_filled_append b0 board cur hn hf _ _ hemp)
        (filled_insertTile b0 board hwf hk cur hf tile _ _ hemp)
      have hnew : (board.insertTile tile (ox + k * dx) (oy + k * dy)).isEmpty (ox + k * dx)
          (oy + k * dy) = false := by
        rw [board.isEmpty_insertTile hwf]; simp
      rw [hnew] at hsub
      simp only [Bool.false_eq_true, if_false] at hsub
      split
      · obtain ⟨h1, more, h2, h3, h4, h5⟩ := hsub
        refine ⟨h1, (ox + k * dx, oy + k * dy) :: more, ⟨k, hlb, rfl, h2⟩, ?_, ?_, ?_⟩
        · simpa using h3
        · simpa using h4
        · simpa using h5
      · exact hacc
    · exact hacc

theorem bestMoveGivenPrefix_sound (board : BoardState) (rack : Rack) (x y : Int)
    (dx dy : Int) (b0 : BoardState) (tile_locs cur : List (Int × Int)) (hwf : board.WF)
    (hdir : UnitDir dx dy) (hv : board.isValidBoard = true) (hk : Keeps b0 board)
    (hn : cur.Nodup) (hf : Filled b0 board cur) :
    SoundMove b0 tile_locs cur x y dx dy (if board.isEmpty x y then -1 else 0)
      (bestMoveGivenPrefix board rack x y tile_locs dx dy) := by
  have h := bestMoveGivenPrefixAux_sound x y dx dy hdir b0 rack.size board rack 0 tile_locs cur
    hwf hv hk hn hf
  simp only [zero_mul, add_zero, zero_sub] at h
  exact h

theorem soundAny_ite (b0 : BoardState) (r0 : Rack) (x y : Int) (m1 m2 : Move)
    (h1 : SoundAny b0 r0 x y m1) (h2 : SoundAny b0 r0 x y m2) :
    SoundAny b0 r0 x y (if m2.score > m1.score then m2 else m1) := by
  split
  · exact h2
  · exact h1

theorem bestMove_sound (board : BoardState) (rack : Rack) (x y : Int) (hwf : board.WF) :
    SoundAny board rack x y (bestMove board rack x y) := by
  have h0 : SoundAny board rack x y ⟨board, rack, 0⟩ := Or.inl rfl
  rw [bestMove_eq]
  split
  · next hg =>
    have hemp : board.isEmpty x y = true := (Bool.and_eq_true _ _ ▸ hg).1
    refine foldl_invariant_mem (SoundAny board rack x y) _ _ _ h0 ?_
    intro acc tile _ hacc
    unfold bestMoveStep
    simp only
    split
    · next hvalid =>
      have hwf' := (board.insertTile_spec hwf tile x y).1
      have hocc : (board.insertTile tile x y).isEmpty x y = false := by
        rw [board.isEmpty_insertTile hwf]; simp
      have key : ∀ dx dy : Int, UnitDir dx dy → SoundAny board rack x y
          (bestMoveGivenPrefix (board.insertTile tile x y) (rack.removeTile tile) x y
            [(x, y)] dx dy) := by
        intro dx dy hdir
        have h := bestMoveGivenPrefix_sound (board.insertTile tile x y)
          (rack.removeTile tile) x y dx dy board [(x, y)] [(x, y)] hwf' hdir hvalid
          (keeps_insertTile board hwf tile x y hemp) (List.nodup_singleton _)
          (filled_insertTile board board hwf (Keeps.refl board) [] (filled_self board) tile x y
            hemp)
        rw [hocc] at h
        simp only [Bool.false_eq_true, if_false] at h
        exact Or.inr ⟨dx, dy, hdir, h⟩
      exact soundAny_ite _ _ _ _ _ _
        (soundAny_ite _ _ _ _ _ _
          (soundAny_ite _ _ _ _ _ _
            (soundAny_ite _ _ _ _ _ _ hacc (key 1 0 (Or.inl ⟨rfl, rfl⟩)))
            (key (-1) 0 (Or.inr (Or.inl ⟨rfl, rfl⟩))))
          (key 0 1 (Or.inr (Or.inr (Or.inl ⟨rfl, rfl⟩)))))
        (key 0 (-1) (Or.inr (Or.inr (Or.inr ⟨rfl, rfl⟩))))
    · exact hacc
  · exact h0

set_option maxRecDepth 100000 in
theorem boardOne_cyan_zero : bestMove boardOne rackCyanX 1 0 = ⟨boardOne, rackCyanX, 0⟩ := by
  decide

set_option maxRecDepth 100000 in
theorem boardOne_redx_score : (bestMove boardOne rackX 1 0).score = 2 := by decide

/-! ## The claims -/

/-- C1: `isValidBoard` returns true exactly when every maximal contiguous run of
occupied cells of every row and of every column, read in grid order, is accepted
by `validWord`; it returns true on the empty board. -/
theorem isValidBoard_iff_every_run_valid (b : BoardState) :
    (b.isValidBoard = true ↔
      (∀ y a c, IsRun (fun i => b.isEmpty i y) a c → validWord (b.rowWord y a c) = true) ∧
      (∀ x a c, IsRun (fun j => b.isEmpty x j) a c → validWord (b.colWord x a c) = true)) ∧
    BoardState.empty.isValidBoard = true :=
  ⟨b.isValidBoard_iff, by decide⟩

/-- C2: on a non-empty word `validWord` is true exactly when all tiles share one
colour and no shape occurs twice, or all tiles share one shape and no colour
occurs twice.  Every one-tile word is valid, red-circle red-x red-diamond is
valid, red-circle red-circle and red-circle cyan-x are invalid. -/
theorem validWord_iff_constant_and_distinct :
    (∀ (first : Tile) (rest : List Tile),
      validWord (first :: rest) = true ↔ ValidWordSpec (first :: rest)) ∧
    (∀ t : Tile, validWord [t] = true) ∧
    validWord [⟨.red, .circle⟩, ⟨.red, .x⟩, ⟨.red, .diamond⟩] = true ∧
    validWord [⟨.red, .circle⟩, ⟨.red, .circle⟩] = false ∧
    validWord [⟨.red, .circle⟩, ⟨.cyan, .x⟩] = false := by
  refine ⟨fun first rest => validWord_iff_spec _ (List.cons_ne_nil _ _), fun t => ?_,
    by decide, by decide, by decide⟩
  rw [validWord_iff_spec _ (List.cons_ne_nil _ _)]
  left
  refine ⟨fun a ha b hb => ?_, by simp⟩
  rw [List.mem_singleton.1 ha, List.mem_singleton.1 hb]

/-- C3 (the code at the failing input): on the valid board `boardComb` with the
rack `rackRed`, placing the three rack tiles on the empty cells `(-1, 1)`,
`(0, 1)`, `(1, 1)` of one row, of which `(0, 1)` touches the board, gives a valid
board and `scoreMove` 6, while the search of `computerTurn` ends with score 5,
and so does `bestMove` at the anchor `(0, 1)`; the search also ends with score 5
on the full rack `rackRedSix`, which holds the same three tiles twice. -/
theorem computerTurnSearch_misses_two_sided_placement :
    Reachable boardComb ∧ boardComb.isValidBoard = true ∧
    boardComb.isEmpty (-1) 1 = true ∧ boardComb.isEmpty 0 1 = true ∧
    boardComb.isEmpty 1 1 = true ∧ boardComb.isAdjacent 0 1 = true ∧
    boardCombPlaced.isValidBoard = true ∧
    scoreMove boardCombPlaced [(-1, 1), (0, 1), (1, 1)] true = 6 ∧
    (computerTurnSearch boardComb rackRed).score = 5 ∧
    (bestMove boardComb rackRed 0 1).score = 5 ∧
    (computerTurnSearch boardComb rackRedSix).score = 5 :=
  ⟨Reachable.insert _ _ _ _ (Reachable.insert _ _ _ _ (Reachable.insert _ _ _ _
      (Reachable.insert _ _ _ _ (Reachable.insert _ _ _ _ (Reachable.insert _ _ _ _
        (Reachable.insert _ _ _ _ (Reachable.insert _ _ _ _ Reachable.empty))))))),
    boardComb_valid, boardComb_placement_cells.1, boardComb_placement_cells.2.1,
    boardComb_placement_cells.2.2.1, boardComb_placement_cells.2.2.2, boardCombPlaced_valid,
    boardCombPlaced_score, boardComb_search_score, boardComb_bestMove_score,
    boardComb_search_score_six⟩

/-- C4: the search of `computerTurn` ends with the zero-score move that holds the
input board and rack exactly when no rack tile can be inserted on an empty cell
next to an existing tile with `isValidBoard` still true; when such a tile and
cell exist the resulting score is positive. -/
theorem computerTurnSearch_zero_iff_no_legal_single (board : BoardState) (rack : Rack)
    (hwf : board.WF) :
    (computerTurnSearch board rack = ⟨board, rack, 0⟩ ↔ ¬ HasLegalSingle board rack) ∧
    (HasLegalSingle board rack → 0 < (computerTurnSearch board rack).score) := by
  have hpos : HasLegalSingle board rack → 0 < (computerTurnSearch board rack).score := by
    rintro ⟨t, ht, x, y, hadj, hvalid⟩
    have h1 := scoreMove_insert_ge_two board hwf t x y hadj true
    have h2 := bestMove_score_ge board rack x y t ht hadj hvalid true
    have hr := board.isAdjacent_range x y hadj
    have h3 := computerTurnSearch_score_ge board rack x y ⟨hr.1, hr.2.1⟩ ⟨hr.2.2.1, hr.2.2.2⟩
    omega
  refine ⟨⟨fun heq hex => ?_, fun hno => ?_⟩, hpos⟩
  · have := hpos hex
    rw [heq] at this
    exact absurd this (lt_irrefl _)
  · apply computerTurnSearch_eq_zero
    intro t ht x y hadj
    by_contra hv
    exact hno ⟨t, ht, x, y, hadj, by simpa using hv⟩

/-- Witness of C4 on the board with one red-circle and the rack with one red-x. -/
theorem computerTurnSearch_zero_iff_no_legal_single_witness :
    boardOne.WF ∧ HasLegalSingle boardOne rackX ∧
      0 < (computerTurnSearch boardOne rackX).score :=
  ⟨boardOne_wf, boardOne_hasLegalSingle,
    (computerTurnSearch_zero_iff_no_legal_single boardOne rackX boardOne_wf).2
      boardOne_hasLegalSingle⟩

/-- C5: when the rack tile `t` can be inserted on the empty cell `(x, y)` next to
an existing tile with `isValidBoard` still true, the score of `bestMove` at
`(x, y)` is at least `scoreMove` of that single placement, for either
orientation; and `bestMoveGivenPrefix` never returns a score below `scoreMove` of
the prefix it was given. -/
theorem bestMove_score_ge_single_placement (board : BoardState) (rack : Rack) (x y : Int)
    (t : Tile) (ht : t ∈ rack.getTiles) (hadj : board.isAdjacent x y = true)
    (hvalid : (board.insertTile t x y).isValidBoard = true) :
    (∀ horiz : Bool,
      scoreMove (board.insertTile t x y) [(x, y)] horiz ≤ (bestMove board rack x y).score) ∧
    (∀ (b : BoardState) (r : Rack) (px py : Int) (tile_locs : List (Int × Int)) (dx dy : Int),
      scoreMove b tile_locs (decide (dx ≠ 0)) ≤
        (bestMoveGivenPrefix b r px py tile_locs dx dy).score) :=
  ⟨fun horiz => bestMove_score_ge board rack x y t ht hadj hvalid horiz,
    fun b r px py tile_locs dx dy => bestMoveGivenPrefix_score_ge b r px py tile_locs dx dy⟩

/-- Witness of C5: red-x placed at `(1, 0)` next to the red-circle at `(0, 0)`. -/
theorem bestMove_score_ge_single_placement_witness :
    (⟨.red, .x⟩ : Tile) ∈ rackX.getTiles ∧ boardOne.isAdjacent 1 0 = true ∧
      (boardOne.insertTile ⟨.red, .x⟩ 1 0).isValidBoard = true ∧
      scoreMove (boardOne.insertTile ⟨.red, .x⟩ 1 0) [(1, 0)] true ≤
        (bestMove boardOne rackX 1 0).score :=
  ⟨List.mem_singleton.2 rfl, boardOne_adjacent, boardOne_insert_valid,
    (bestMove_score_ge_single_placement boardOne rackX 1 0 ⟨.red, .x⟩
      (List.mem_singleton.2 rfl) boardOne_adjacent boardOne_insert_valid).1 true⟩

/-- C6: the move returned by `bestMove` keeps every tile of the input board on its
cell, and the multiset of the tiles on the cells that are occupied in `newboard`
but empty in the input board is the multiset difference of the input rack and
`depleted_rack`, which is contained in the input rack. -/
theorem bestMove_keeps_board_and_rack_balance (board : BoardState) (rack : Rack) (x y : Int)
    (hwf : board.WF) :
    (∀ x' y', board.isEmpty x' y' = false →
      (bestMove board rack x y).newboard.getTile x' y' = board.getTile x' y') ∧
    newTiles board (bestMove board rack x y).newboard =
      (rack.tiles_ : Multiset Tile) - ((bestMove board rack x y).depleted_rack.tiles_ :
        Multiset Tile) ∧
    ((bestMove board rack x y).depleted_rack.tiles_ : Multiset Tile) ≤
      (rack.tiles_ : Multiset Tile) := by
  obtain ⟨_, hk, hsum⟩ := bestMove_extends board rack x y hwf
  refine ⟨fun x' y' hocc => ?_, ?_, ?_⟩
  · obtain ⟨t, ht⟩ := board.getTile_isSome_of_not_isEmpty x' y' hocc
    rw [ht, hk x' y' t ht]
  · rw [← hsum, add_tsub_cancel_right]
  · rw [← hsum]; exact Multiset.le_add_left _ _

/-- Witness of C6 on the board with one red-circle, the rack with one red-x and
the anchor `(1, 0)`. -/
theorem bestMove_keeps_board_and_rack_balance_witness :
    boardOne.WF ∧
      newTiles boardOne (bestMove boardOne rackX 1 0).newboard =
        (rackX.tiles_ : Multiset Tile) - ((bestMove boardOne rackX 1 0).depleted_rack.tiles_ :
          Multiset Tile) :=
  ⟨boardOne_wf, (bestMove_keeps_board_and_rack_balance boardOne rackX 1 0 boardOne_wf).2.1⟩

/-- C7: on an occupied cell `(x, y)` the maximal contiguous run of occupied cells
through the cell along the chosen axis exists, and `scoreWord` returns 12 when
that run has exactly 6 cells and the number of its cells otherwise. -/
theorem scoreWord_eq_run_length (b : BoardState) (x y : Int) (horiz : Bool)
    (hocc : b.isEmpty x y = false) :
    (∃ a c, IsRun (lineEmpty b x y horiz) a c ∧ a ≤ linePos x y horiz ∧
      linePos x y horiz < c) ∧
    (∀ a c, IsRun (lineEmpty b x y horiz) a c → a ≤ linePos x y horiz →
      linePos x y horiz < c → scoreWord b x y horiz = if c - a = 6 then 12 else c - a) := by
  obtain ⟨a, c, h1, h2, h3, _⟩ := scoreWord_run b x y horiz hocc
  exact ⟨⟨a, c, h1, h2, h3⟩, fun a' c' hrun ha hc => scoreWord_of_run b x y horiz a' c' hrun ⟨ha, hc⟩⟩

/-- Witness of C7 on the board with one red-circle. -/
theorem scoreWord_eq_run_length_witness :
    boardOne.isEmpty 0 0 = false ∧
      ∃ a c, IsRun (lineEmpty boardOne 0 0 true) a c ∧ a ≤ linePos 0 0 true ∧
        linePos 0 0 true < c :=
  ⟨boardOne_occupied, (scoreWord_eq_run_length boardOne 0 0 true boardOne_occupied).1⟩

/-- C8: on a non-empty list of placed positions `scoreMove` returns `p + s`, where
`p` is `scoreWord` at the first position along the primary orientation when that
value exceeds 1 and 0 otherwise, and `s` sums over all placed positions the
values of `scoreWord` along the other orientation that exceed 1. -/
theorem scoreMove_eq_primary_plus_secondary (b : BoardState) (locs : List (Int × Int))
    (horiz : Bool) (hne : locs ≠ []) :
    scoreMove b locs horiz =
      (if scoreWord b (locs.head hne).1 (locs.head hne).2 horiz > 1 then
        scoreWord b (locs.head hne).1 (locs.head hne).2 horiz else 0) +
      (locs.map (fun i =>
        if scoreWord b i.1 i.2 (!horiz) > 1 then scoreWord b i.1 i.2 (!horiz) else 0)).sum := by
  cases locs with
  | nil => exact absurd rfl hne
  | cons first rest => exact scoreMove_cons b first rest horiz

/-- Witness of C8 on the board with one red-circle. -/
theorem scoreMove_eq_primary_plus_secondary_witness :
    [((0 : Int), (0 : Int))] ≠ [] ∧
      scoreMove boardOne [(0, 0)] true =
        (if scoreWord boardOne 0 0 true > 1 then scoreWord boardOne 0 0 true else 0) +
        ([((0 : Int), (0 : Int))].map (fun i =>
          if scoreWord boardOne i.1 i.2 (!true) > 1 then scoreWord boardOne i.1 i.2 (!true)
          else 0)).sum :=
  ⟨List.cons_ne_nil _ _,
    scoreMove_eq_primary_plus_secondary boardOne [(0, 0)] true (List.cons_ne_nil _ _)⟩

/-- C9: for an occupied cell none of whose four orthogonal neighbours is occupied,
`scoreMove` of the single placement on that cell is 0 for both orientations. -/
theorem scoreMove_isolated_eq_zero (b : BoardState) (x y : Int)
    (hocc : b.isEmpty x y = false)
    (hl : b.isEmpty (x - 1) y = true) (hr : b.isEmpty (x + 1) y = true)
    (hu : b.isEmpty x (y - 1) = true) (hd : b.isEmpty x (y + 1) = true) :
    ∀ horiz : Bool, scoreMove b [(x, y)] horiz = 0 := by
  intro horiz
  rw [scoreMove_single, scoreWord_isolated b x y horiz hocc hl hr hu hd,
    scoreWord_isolated b x y (!horiz) hocc hl hr hu hd]
  decide

/-- Witness of C9 on the board with one red-circle. -/
theorem scoreMove_isolated_eq_zero_witness :
    boardOne.isEmpty 0 0 = false ∧ boardOne.isEmpty (0 - 1) 0 = true ∧
      boardOne.isEmpty (0 + 1) 0 = true ∧ boardOne.isEmpty 0 (0 - 1) = true ∧
      boardOne.isEmpty 0 (0 + 1) = true ∧ ∀ horiz : Bool, scoreMove boardOne [(0, 0)] horiz = 0 :=
  ⟨boardOne_occupied, boardOne_isolated.1, boardOne_isolated.2.1, boardOne_isolated.2.2.1,
    boardOne_isolated.2.2.2,
    scoreMove_isolated_eq_zero boardOne 0 0 boardOne_occupied boardOne_isolated.1
      boardOne_isolated.2.1 boardOne_isolated.2.2.1 boardOne_isolated.2.2.2⟩

/-- C10: after `insertTile(t, x, y)` on a board that satisfies the representation
invariant, the empty board included, the cell `(x, y)` is not empty and `getTile`
returns `t` there. -/
theorem insertTile_then_getTile (b : BoardState) (t : Tile) (x y : Int) (hwf : b.WF) :
    ((b.insertTile t x y).isEmpty x y = false ∧ (b.insertTile t x y).getTile x y = some t) ∧
    ((BoardState.empty.insertTile t x y).isEmpty x y = false ∧
      (BoardState.empty.insertTile t x y).getTile x y = some t) := by
  have key : ∀ b' : BoardState, b'.WF →
      (b'.insertTile t x y).isEmpty x y = false ∧ (b'.insertTile t x y).getTile x y = some t := by
    intro b' h
    have hg : (b'.insertTile t x y).getTile x y = some t := by
      rw [(b'.insertTile_spec h t x y).2, if_pos ⟨rfl, rfl⟩]
    refine ⟨?_, hg⟩
    rw [BoardState.isEmpty_eq_isNone_getTile, hg]; rfl
  exact ⟨key b hwf, key _ BoardState.WF_empty⟩

/-- Witness of C10: inserting cyan-x at `(0, 1)` on the board with one red-circle. -/
theorem insertTile_then_getTile_witness :
    boardOne.WF ∧ (boardOne.insertTile ⟨.cyan, .x⟩ 0 1).getTile 0 1 = some ⟨.cyan, .x⟩ :=
  ⟨boardOne_wf, (insertTile_then_getTile boardOne ⟨.cyan, .x⟩ 0 1 boardOne_wf).1.2⟩

/-- C11: on a board that satisfies the representation invariant, `insertTile(t, x,
y)` changes no cell other than `(x, y)`: `isEmpty` and `getTile` give the same
answer before and after, also when the grid grows to the left or upward, and
every other cell that lay outside the old bounds is empty afterwards. -/
theorem insertTile_changes_no_other_cell (b : BoardState) (t : Tile) (x y : Int)
    (hwf : b.WF) :
    (∀ x' y', (x', y') ≠ (x, y) →
      (b.insertTile t x y).isEmpty x' y' = b.isEmpty x' y' ∧
      (b.insertTile t x y).getTile x' y' = b.getTile x' y') ∧
    (∀ x' y', (x', y') ≠ (x, y) →
      (x' < b.minX ∨ x' ≥ b.maxX ∨ y' < b.minY ∨ y' ≥ b.maxY) →
      (b.insertTile t x y).isEmpty x' y' = true) := by
  have hne : ∀ x' y', (x', y') ≠ (x, y) → ¬ (x' = x ∧ y' = y) :=
    fun x' y' h h' => h (Prod.ext h'.1 h'.2)
  refine ⟨fun x' y' h => ⟨?_, ?_⟩, fun x' y' h hout => ?_⟩
  · rw [b.isEmpty_insertTile hwf, if_neg (hne x' y' h)]
  · rw [(b.insertTile_spec hwf t x y).2, if_neg (hne x' y' h)]
  · rw [b.isEmpty_insertTile hwf, if_neg (hne x' y' h)]
    exact b.isEmpty_of_out x' y' hout

/-- Witness of C11: inserting red-x at `(-1, -1)` on the board with one red-circle
grows the grid to the left and upward and leaves the cell `(0, 0)` alone. -/
theorem insertTile_changes_no_other_cell_witness :
    boardOne.WF ∧
      ((boardOne.insertTile ⟨.red, .x⟩ (-1) (-1)).isEmpty 0 0 = boardOne.isEmpty 0 0 ∧
        (boardOne.insertTile ⟨.red, .x⟩ (-1) (-1)).getTile 0 0 = boardOne.getTile 0 0) :=
  ⟨boardOne_wf,
    (insertTile_changes_no_other_cell boardOne ⟨.red, .x⟩ (-1) (-1) boardOne_wf).1 0 0
      (by decide)⟩

/-- C12: a coordinate outside `[minX, maxX) x [minY, maxY)` is empty; hence every
occupied cell lies inside these bounds. -/
theorem isEmpty_outside_bounds (b : BoardState) (x y : Int)
    (hout : x < b.minX ∨ x ≥ b.maxX ∨ y < b.minY ∨ y ≥ b.maxY) :
    b.isEmpty x y = true ∧
      ∀ x' y', b.isEmpty x' y' = false →
        b.minX ≤ x' ∧ x' < b.maxX ∧ b.minY ≤ y' ∧ y' < b.maxY :=
  ⟨b.isEmpty_of_out x y hout, fun x' y' h => b.inBounds_of_not_isEmpty x' y' h⟩

/-- Witness of C12: the cell `(1, 0)` is outside the board with one red-circle. -/
theorem isEmpty_outside_bounds_witness :
    ((1 : Int) < boardOne.minX ∨ (1 : Int) ≥ boardOne.maxX ∨ (0 : Int) < boardOne.minY ∨
        (0 : Int) ≥ boardOne.maxY) ∧
      boardOne.isEmpty 1 0 = true :=
  ⟨by rw [boardOne_eq]; decide,
    (isEmpty_outside_bounds boardOne 1 0 (by rw [boardOne_eq]; decide)).1⟩

/-- C13: red-circle at `(0, 0)` and red-x at `(1, 0)` on the empty board give a
valid board on which `scoreMove` of the two positions, horizontal, is 2; the
placing branch of `runCmd` accepts this first move with that score. -/
theorem first_move_two_tiles_scores_two :
    boardTwo.isValidBoard = true ∧ scoreMove boardTwo [(0, 0), (1, 0)] true = 2 ∧
      runCmdPlay BoardState.empty [⟨.red, .circle⟩, ⟨.red, .x⟩] 0 0 true true =
        PlayOutcome.played boardTwo 2 :=
  ⟨boardTwo_valid, boardTwo_score, boardTwo_played⟩

/-- C14: inserting cyan-x at `(0, 1)` on the board that holds only red-circle at
`(0, 0)` gives a board on which `isValidBoard` is false; the column word
red-circle, cyan-x is rejected by `validWord`. -/
theorem mixed_column_is_invalid :
    boardOne = BoardState.empty.insertTile ⟨.red, .circle⟩ 0 0 ∧
      (boardOne.insertTile ⟨.cyan, .x⟩ 0 1).isValidBoard = false ∧
      validWord ((boardOne.insertTile ⟨.cyan, .x⟩ 0 1).colWord 0 0 2) = false :=
  ⟨rfl, boardMixed_invalid, boardMixed_column⟩

/-- C15 (the code at the failing input): on the command `r-1` with a rack of 6
tiles `parseCmd` returns true and stores the index -1, which the standard
extraction reads from `-1`; the only test it makes keeps the indices below
`rack_size`. -/
theorem parseCmd_accepts_negative_index :
    (∀ indet : Nat → Int,
        parseCmd decimalExtract indet ['r', '-', '1'] 6 =
          ⟨true, some 'r', none, none, [-1]⟩) ∧
      decimalExtract ['-', '1'] = some (-1) ∧
      ∀ (extract : List Char → Option Int) (indet : Nat → Int) (cmd : List Char)
          (rack_size : Int),
        ∀ n ∈ (parseCmd extract indet cmd rack_size).tile_nums, n < rack_size :=
  ⟨parseCmd_negative, decimalExtract_negative, parseCmd_lt⟩

/-- C16: when the placed positions lie in one contiguous run along the primary
orientation and one of them has an occupied orthogonal neighbour, `scoreMove` is
at least 2; and the placing branch of `runCmd` never reaches `assert(first_move)`
with `first_move` false. -/
theorem scoreMove_ge_two_and_assert_holds (b : BoardState) (locs : List (Int × Int))
    (horiz : Bool) (hrun : InOneRun b locs horiz) (ht : ∃ p ∈ locs, Touches b p) :
    2 ≤ scoreMove b locs horiz ∧
      ∀ (board : BoardState) (tiles : List Tile) (x y : Int) (h first_move : Bool),
        board.WF → runCmdPlay board tiles x y h first_move ≠ PlayOutcome.assertionFails :=
  ⟨scoreMove_ge_two b locs horiz hrun ht,
    fun board tiles x y h first_move hwf =>
      runCmdPlay_ne_assertionFails board hwf tiles x y h first_move⟩

/-- Witness of C16: red-x placed at `(1, 0)` next to the red-circle at `(0, 0)`. -/
theorem scoreMove_ge_two_and_assert_holds_witness :
    InOneRun boardTwo [(1, 0)] true ∧ (∃ p ∈ [((1 : Int), (0 : Int))], Touches boardTwo p) ∧
      2 ≤ scoreMove boardTwo [(1, 0)] true :=
  ⟨boardTwo_inOneRun, boardTwo_touches,
    (scoreMove_ge_two_and_assert_holds boardTwo [(1, 0)] true boardTwo_inOneRun
      boardTwo_touches).1⟩

/-- C17, as stated, fails where the search can place no tile: on the board with
one red-circle, the rack with one cyan-x and the anchor `(1, 0)`, an empty cell
next to the red-circle, `bestMove` returns the input board with score 0; the move
fills no cell, and `scoreMove` has no value on the empty list of cells, so the
score is not `scoreMove` of the cells the move filled. -/
theorem bestMove_without_placement_not_scored :
    boardOne.WF ∧ boardOne.isValidBoard = true ∧
      (boardOne.isEmpty 1 0 && boardOne.isAdjacent 1 0) = true ∧
      bestMove boardOne rackCyanX 1 0 = ⟨boardOne, rackCyanX, 0⟩ ∧
      ¬ ∃ locs horiz, Filled boardOne (bestMove boardOne rackCyanX 1 0).newboard locs ∧
        scoreMoveChecked (bestMove boardOne rackCyanX 1 0).newboard locs horiz =
          some (bestMove boardOne rackCyanX 1 0).score := by
  refine ⟨boardOne_wf, boardOne_valid, by rw [boardOne_outside, boardOne_adjacent]; rfl,
    boardOne_cyan_zero, ?_⟩
  rw [boardOne_cyan_zero]
  rintro ⟨locs, horiz, hf, hs⟩
  cases locs with
  | nil => exact absurd hs (by simp [scoreMoveChecked])
  | cons p rest =>
    have h := (hf p).1 (List.mem_cons_self _ _)
    rw [h.1] at h
    exact absurd h.2 (by decide)

/-- C17, amended: on a valid board that satisfies the representation invariant,
the board of the move returned by `bestMove` at the anchor `(x, y)` is valid.
The move is the input board and rack with score 0, or it was found in one of the
four directions `(dx, dy)`: the cells it filled are exactly the anchor followed
by cells of the ray from the anchor in that direction, in the order the walk
reaches them, each once, and its score is `scoreMove` on its board at these
cells in this order with `horiz = (dx != 0)`.  For `bestMoveGivenPrefix` with a
non-empty prefix and a unit direction the board of the move is valid, the
cells it filled are cells of the ray from its start in walk order, each once,
and its score is `scoreMove` on its board at the prefix followed by these cells
with `horiz = (dx != 0)`. -/
theorem bestMove_valid_and_scored_along_walk (board : BoardState) (rack : Rack) (x y : Int)
    (hwf : board.WF) (hv : board.isValidBoard = true) :
    (bestMove board rack x y).newboard.isValidBoard = true ∧
    (bestMove board rack x y = ⟨board, rack, 0⟩ ∨
      ∃ dx dy more, UnitDir dx dy ∧ OnRay x y dx dy 0 more ∧ ((x, y) :: more).Nodup ∧
        Filled board (bestMove board rack x y).newboard ((x, y) :: more) ∧
        scoreMoveChecked (bestMove board rack x y).newboard ((x, y) :: more) (decide (dx ≠ 0)) =
          some (bestMove board rack x y).score) ∧
    (∀ (px py : Int) (tile_locs : List (Int × Int)) (dx dy : Int), UnitDir dx dy →
      tile_locs ≠ [] →
      (bestMoveGivenPrefix board rack px py tile_locs dx dy).newboard.isValidBoard = true ∧
      ∃ more, OnRay px py dx dy (if board.isEmpty px py then -1 else 0) more ∧ more.Nodup ∧
        Filled board (bestMoveGivenPrefix board rack px py tile_locs dx dy).newboard more ∧
        scoreMoveChecked (bestMoveGivenPrefix board rack px py tile_locs dx dy).newboard
            (tile_locs ++ more) (decide (dx ≠ 0)) =
          some (bestMoveGivenPrefix board rack px py tile_locs dx dy).score) := by
  refine ⟨?_, ?_, ?_⟩
  · rcases bestMove_sound board rack x y hwf with h | ⟨dx, dy, _, h, _⟩
    · rw [h]; exact hv
    · exact h
  · rcases bestMove_sound board rack x y hwf with h | ⟨dx, dy, hdir, _, more, h1, h2, h3, h4⟩
    · exact Or.inl h
    · exact Or.inr ⟨dx, dy, more, hdir, h1, h2, h3, by rw [h4]; rfl⟩
  · intro px py tile_locs dx dy hdir hne
    obtain ⟨h0, more, h1, h2, h3, h4⟩ := bestMoveGivenPrefix_sound board rack px py dx dy board
      tile_locs [] hwf hdir hv (Keeps.refl board) List.nodup_nil (filled_self board)
    refine ⟨h0, more, h1, by simpa using h2, by simpa using h3, ?_⟩
    rw [h4, scoreMoveChecked_eq _ _ _ (by simp [hne])]

/-- Witness of C17 on the board with one red-circle and the rack with one red-x:
`bestMove` at the anchor `(1, 0)` places the tile and scores 2, and
`bestMoveGivenPrefix` is run to the right from `(0, 0)` with the prefix
`[(0, 0)]`. -/
theorem bestMove_valid_and_scored_along_walk_witness :
    boardOne.WF ∧ boardOne.isValidBoard = true ∧
      (bestMove boardOne rackX 1 0).score = 2 ∧
      (∃ dx dy more, UnitDir dx dy ∧ OnRay 1 0 dx dy 0 more ∧ (((1 : Int), (0 : Int)) :: more).Nodup ∧
        Filled boardOne (bestMove boardOne rackX 1 0).newboard ((1, 0) :: more) ∧
        scoreMoveChecked (bestMove boardOne rackX 1 0).newboard ((1, 0) :: more)
            (decide (dx ≠ 0)) = some (bestMove boardOne rackX 1 0).score) ∧
      UnitDir 1 0 ∧ [((0 : Int), (0 : Int))] ≠ [] ∧
      (bestMoveGivenPrefix boardOne rackX 0 0 [(0, 0)] 1 0).newboard.isValidBoard = true := by
  have h := bestMove_valid_and_scored_along_walk boardOne rackX 1 0 boardOne_wf boardOne_valid
  refine ⟨boardOne_wf, boardOne_valid, boardOne_redx_score, ?_, Or.inl ⟨rfl, rfl⟩, by simp,
    (h.2.2 0 0 [(0, 0)] 1 0 (Or.inl ⟨rfl, rfl⟩) (by simp)).1⟩
  rcases h.2.1 with h0 | h1
  · have := boardOne_redx_score
    rw [h0] at this
    exact absurd this (by decide)
  · exact h1

/-- C18: on a board that satisfies the representation invariant, if the board
after `insertTile(t, x, y)` on an empty cell is valid then the board before it is
valid; hence the valid result of any further insertions on empty cells shows
that the board they started from was valid. -/
theorem isValidBoard_before_insertTile (b : BoardState) (t : Tile) (x y : Int) (hwf : b.WF)
    (hemp : b.isEmpty x y = true) :
    ((b.insertTile t x y).isValidBoard = true → b.isValidBoard = true) ∧
      ∀ l : List (Tile × Int × Int), IntoEmpty (b.insertTile t x y) l →
        (insertAll (b.insertTile t x y) l).isValidBoard = true →
        (b.insertTile t x y).isValidBoard = true :=
  ⟨fun hv => isValidBoard_of_keeps b _ (keeps_insertTile b hwf t x y hemp) hv,
    fun l hl hv => isValidBoard_of_insertAll l _ (b.insertTile_spec hwf t x y).1 hl hv⟩

/-- Witness of C18: red-x inserted at `(1, 0)` on the board with one red-circle. -/
theorem isValidBoard_before_insertTile_witness :
    boardOne.WF ∧ boardOne.isEmpty 1 0 = true ∧
      ((boardOne.insertTile ⟨.red, .x⟩ 1 0).isValidBoard = true →
        boardOne.isValidBoard = true) :=
  ⟨boardOne_wf, boardOne_outside,
    (isValidBoard_before_insertTile boardOne ⟨.red, .x⟩ 1 0 boardOne_wf boardOne_outside).1⟩

/-- C19: a cell with `isAdjacent` true lies in the range of anchors that
`computerTurn` enumerates: `minX-1 <= x <= maxX` and `minY-1 <= y <= maxY`. -/
theorem isAdjacent_in_anchor_range (b : BoardState) (x y : Int)
    (hadj : b.isAdjacent x y = true) :
    (b.minX - 1 ≤ x ∧ x ≤ b.maxX ∧ b.minY - 1 ≤ y ∧ y ≤ b.maxY) ∧
      x ∈ intRange (b.minX - 1) (b.maxX + 1) ∧ y ∈ intRange (b.minY - 1) (b.maxY + 1) := by
  have h := b.isAdjacent_range x y hadj
  exact ⟨h, mem_intRange.2 ⟨h.1, by have := h.2.1; show x < b.maxx_ + 1; omega⟩,
    mem_intRange.2 ⟨h.2.2.1, by have := h.2.2.2; show y < b.maxy_ + 1; omega⟩⟩

/-- Witness of C19: the cell `(1, 0)` next to the red-circle at `(0, 0)`. -/
theorem isAdjacent_in_anchor_range_witness :
    boardOne.isAdjacent 1 0 = true ∧
      (boardOne.minX - 1 ≤ 1 ∧ (1 : Int) ≤ boardOne.maxX ∧ boardOne.minY - 1 ≤ 0 ∧
        (0 : Int) ≤ boardOne.maxY) :=
  ⟨boardOne_adjacent, (isAdjacent_in_anchor_range boardOne 1 0 boardOne_adjacent).1⟩

/-- C20: a word accepted by `validWord` has pairwise distinct tiles and at most 6
of them; and on a board accepted by `isValidBoard`, `scoreWord` returns one of 0,
1, 2, 3, 4, 5, 12 for every cell and orientation. -/
theorem validWord_distinct_and_scoreWord_values (w : List Tile) (hw : validWord w = true)
    (b : BoardState) (hv : b.isValidBoard = true) :
    (w.Nodup ∧ w.length ≤ 6) ∧
      ∀ (x y : Int) (horiz : Bool),
        scoreWord b x y horiz ∈ ({0, 1, 2, 3, 4, 5, 12} : Set Int) :=
  ⟨validWord_nodup_length w hw, fun x y horiz => scoreWord_values b hv x y horiz⟩

/-- Witness of C20: the word red-circle, red-x on the board that holds it. -/
theorem validWord_distinct_and_scoreWord_values_witness :
    validWord [⟨.red, .circle⟩, ⟨.red, .x⟩] = true ∧ boardTwo.isValidBoard = true ∧
      (([⟨.red, .circle⟩, ⟨.red, .x⟩] : List Tile).Nodup ∧
        ([⟨.red, .circle⟩, ⟨.red, .x⟩] : List Tile).length ≤ 6) :=
  ⟨by decide, boardTwo_valid,
    (validWord_distinct_and_scoreWord_values [⟨.red, .circle⟩, ⟨.red, .x⟩] (by decide) boardTwo
      boardTwo_valid).1⟩

/-- C21: every board obtained from the empty board by calls of `insertTile` has
`minX <= maxX` and `minY <= maxY`, a grid of exactly `maxY - minY` rows of exactly
`maxX - minX` cells each, and so the index `board_[y-minY][x-minX]` is within
range where `isEmpty` and `getTile` evaluate it (inside the bounds, which holds
whenever the cell is not empty) and where `insertTile` evaluates it (after
`resizeBoardToInclude`). -/
theorem reachable_board_invariant (b : BoardState) (h : Reachable b) :
    (b.minX ≤ b.maxX ∧ b.minY ≤ b.maxY ∧ (b.board_.length : Int) = b.maxY - b.minY ∧
      ∀ row ∈ b.board_, (row.length : Int) = b.maxX - b.minX) ∧
    (∀ x y, ¬ (x < b.minX ∨ x ≥ b.maxX ∨ y < b.minY ∨ y ≥ b.maxY) → b.IndexInRange x y) ∧
    (∀ x y, b.isEmpty x y = false → b.IndexInRange x y) ∧
    (∀ x y, (b.resizeBoardToInclude x y).IndexInRange x y) := by
  have hwf := h.wf
  obtain ⟨h1, h2, h3, h4⟩ := id hwf
  refine ⟨⟨h1, h2, ?_, fun row hrow => ?_⟩, fun x y hin => ?_, fun x y hocc => ?_,
    fun x y => b.indexInRange_insertTile hwf x y⟩
  · show (b.board_.length : Int) = b.maxy_ - b.miny_
    omega
  · show (row.length : Int) = b.maxx_ - b.minx_
    have := h4 row hrow
    omega
  · apply b.indexInRange_of_inBounds hwf
    have hin' : ¬ (x < b.minx_ ∨ x ≥ b.maxx_ ∨ y < b.miny_ ∨ y ≥ b.maxy_) := hin
    omega
  · exact b.indexInRange_of_inBounds hwf x y (b.inBounds_of_not_isEmpty x y hocc)

/-- Witness of C21 on the board with one red-circle. -/
theorem reachable_board_invariant_witness :
    Reachable boardOne ∧
      (boardOne.minX ≤ boardOne.maxX ∧ boardOne.minY ≤ boardOne.maxY ∧
        (boardOne.board_.length : Int) = boardOne.maxY - boardOne.minY ∧
        ∀ row ∈ boardOne.board_, (row.length : Int) = boardOne.maxX - boardOne.minX) :=
  ⟨Reachable.insert _ _ _ _ Reachable.empty,
    (reachable_board_invariant boardOne (Reachable.insert _ _ _ _ Reachable.empty)).1⟩

/-- C22: in each of the four unit directions and for every non-empty prefix
`bestMoveGivenPrefix` terminates.  The walk to the next empty cell leaves through
its condition, on an empty cell, and more iterations change nothing; every
recursive call receives a rack with exactly one tile fewer; with the depth of the
recursion counted and the failure of `scoreMove` on an empty vector kept, every
bound above the size of the rack returns the move; and on a board that satisfies
the representation invariant the tiles the move places and the tiles it leaves
on the rack are as many as the input rack holds. -/
theorem bestMoveGivenPrefix_terminates (board : BoardState) (rack : Rack) (x y : Int)
    (tile_locs : List (Int × Int)) (dx dy : Int) (hdir : UnitDir dx dy)
    (hne : tile_locs ≠ []) :
    (board.isEmpty
        (whileFuel (fun p : Int × Int => !board.isEmpty p.1 p.2) (fun p => (p.1 + dx, p.2 + dy))
          ((board.maxx_ - board.minx_).toNat + (board.maxy_ - board.miny_).toNat) (x, y)).1
        (whileFuel (fun p : Int × Int => !board.isEmpty p.1 p.2) (fun p => (p.1 + dx, p.2 + dy))
          ((board.maxx_ - board.minx_).toNat + (board.maxy_ - board.miny_).toNat) (x, y)).2
        = true ∧
      ∀ extra : Nat,
        whileFuel (fun p : Int × Int => !board.isEmpty p.1 p.2) (fun p => (p.1 + dx, p.2 + dy))
          ((board.maxx_ - board.minx_).toNat + (board.maxy_ - board.miny_).toNat + extra) (x, y) =
        whileFuel (fun p : Int × Int => !board.isEmpty p.1 p.2) (fun p => (p.1 + dx, p.2 + dy))
          ((board.maxx_ - board.minx_).toNat + (board.maxy_ - board.miny_).toNat) (x, y)) ∧
    (∀ tile ∈ rack.getTiles, (rack.removeTile tile).size + 1 = rack.size) ∧
    (∀ depth, rack.size < depth →
      bestMoveGivenPrefixDepth depth board rack x y tile_locs dx dy =
        some (bestMoveGivenPrefix board rack x y tile_locs dx dy)) ∧
    (board.WF →
      Multiset.card (newTiles board (bestMoveGivenPrefix board rack x y tile_locs dx dy).newboard)
          + (bestMoveGivenPrefix board rack x y tile_locs dx dy).depleted_rack.size = rack.size ∧
      Multiset.card (newTiles board (bestMoveGivenPrefix board rack x y tile_locs dx dy).newboard)
          ≤ rack.size) := by
  have hwalk := walk_isEmpty board x y dx dy hdir
  refine ⟨⟨hwalk, fun extra => ?_⟩, fun tile ht => Rack.size_removeTile rack tile ht,
    fun depth hd => bestMoveGivenPrefixDepth_eq depth board rack x y tile_locs dx dy hne hd,
    fun hwf => ?_⟩
  · apply whileFuel_add_fuel
    simp only [hwalk, Bool.not_true]
  · have := card_newTiles_add board rack _
      (bestMoveGivenPrefix_extends board rack x y tile_locs dx dy hwf hdir)
    exact ⟨this, by omega⟩

/-- Witness of C22: the search to the right from the red-circle at `(0, 0)`, with
the prefix `[(0, 0)]`, on the board with one red-circle and the rack with one
red-x returns at depth 2. -/
theorem bestMoveGivenPrefix_terminates_witness :
    UnitDir 1 0 ∧ [((0 : Int), (0 : Int))] ≠ [] ∧
      bestMoveGivenPrefixDepth 2 boardOne rackX 0 0 [(0, 0)] 1 0 =
        some (bestMoveGivenPrefix boardOne rackX 0 0 [(0, 0)] 1 0) :=
  ⟨Or.inl ⟨rfl, rfl⟩, by simp,
    (bestMoveGivenPrefix_terminates boardOne rackX 0 0 [(0, 0)] 1 0 (Or.inl ⟨rfl, rfl⟩)
      (by simp)).2.2.1 2 (by decide)⟩

end Qwirkle
